import Mathlib

/-!
Info strings of `code/game/q_shared.c`

A shallow embedding of the info-string codec of `q_shared.c`
(`Q_strkey`, `Info_ValueForKey`, `Info_NextPair`, `Info_RemoveKey`,
`Info_ValidateKeyValue`, `Info_SetValueForKey`, `Info_SetValueForKey_Big`),
of its compressor (`COM_Compress`) and of its lexer (`SkipWhitespace`,
`COM_ParseExt`, `COM_ParseSep`, `SkipBracedSection`), and theorems about
them.

Modelling conventions.

* A byte is a `Fin 256`.  A C string is the list of its bytes before the
  terminating NUL; the terminator is implicit, so `*s == 0` reads "the list is
  empty".  Lists that contain a zero byte do not stand for any C string; no
  example below uses one.
* A `char *` into a buffer is the suffix of the buffer that starts at the
  pointer.  A pointer difference `p - q` (with `q` before `p`) is
  `q.length - p.length`.  Pointers are never `NULL`, except the cursor
  `*data_p` of the lexer, which is an `Option`.
* `int` lengths are natural numbers: every string is taken to be shorter than
  `2^31` bytes, so no `int` computation of the embedded code wraps.
* `MAX_INFO_STRING`, `BIG_INFO_STRING` and `MAX_TOKEN_CHARS` come from
  `q_shared.h`, which is not part of the sources at hand; they are parameters
  of the definitions.
* `Com_Error` does not return: a call is the result `Except.error`.
  `Com_Printf` only writes to the diagnostic sink and is not modelled.
* `COM_Compress` rewrites its buffer in place.  `COM_Compress` below is the
  function on texts (it reads the input and collects the output);
  `COM_Compress_in_place` is the function on the buffer itself, with the
  offsets of `in` and `out`, and the last section shows that the two agree.
* Carriage return: the compressor records a carriage return as a newline, as
  it does a line feed (`c == '\n' || c == '\r'`); the lexer counts line feeds
  only.
* A `while ( 1 )` loop is a function with a fuel argument; the fuel given by
  the callers is the length of the string plus one, and the theorems show that
  it is never used up.
-/

namespace Q3

abbrev Byte := Fin 256

/-- The bytes of a string literal (all examples are ASCII). -/
def cstr (s : String) : List Byte := s.toList.map (fun c => Fin.ofNat c.toNat)

/-- The byte `'\\'`. -/
def bs : Byte := 0x5c
/-- The byte `'"'`. -/
def dquote : Byte := 0x22
/-- The byte `';'`. -/
def semicolon : Byte := 0x3b

/-- The ways a call can fail to return: the two `Com_Error` levels used by the
embedded code, and fuel exhaustion of a modelled loop. -/
inductive ComError
  | ERR_FATAL
  | ERR_DROP
  | outOfFuel
  deriving DecidableEq, Repr

/-- The table `locase[ 256 ]`. -/
def locase_table : List Byte := [
  0x00,0x01,0x02,0x03,0x04,0x05,0x06,0x07,
  0x08,0x09,0x0a,0x0b,0x0c,0x0d,0x0e,0x0f,
  0x10,0x11,0x12,0x13,0x14,0x15,0x16,0x17,
  0x18,0x19,0x1a,0x1b,0x1c,0x1d,0x1e,0x1f,
  0x20,0x21,0x22,0x23,0x24,0x25,0x26,0x27,
  0x28,0x29,0x2a,0x2b,0x2c,0x2d,0x2e,0x2f,
  0x30,0x31,0x32,0x33,0x34,0x35,0x36,0x37,
  0x38,0x39,0x3a,0x3b,0x3c,0x3d,0x3e,0x3f,
  0x40,0x61,0x62,0x63,0x64,0x65,0x66,0x67,
  0x68,0x69,0x6a,0x6b,0x6c,0x6d,0x6e,0x6f,
  0x70,0x71,0x72,0x73,0x74,0x75,0x76,0x77,
  0x78,0x79,0x7a,0x5b,0x5c,0x5d,0x5e,0x5f,
  0x60,0x61,0x62,0x63,0x64,0x65,0x66,0x67,
  0x68,0x69,0x6a,0x6b,0x6c,0x6d,0x6e,0x6f,
  0x70,0x71,0x72,0x73,0x74,0x75,0x76,0x77,
  0x78,0x79,0x7a,0x7b,0x7c,0x7d,0x7e,0x7f,
  0x80,0x81,0x82,0x83,0x84,0x85,0x86,0x87,
  0x88,0x89,0x8a,0x8b,0x8c,0x8d,0x8e,0x8f,
  0x90,0x91,0x92,0x93,0x94,0x95,0x96,0x97,
  0x98,0x99,0x9a,0x9b,0x9c,0x9d,0x9e,0x9f,
  0xa0,0xa1,0xa2,0xa3,0xa4,0xa5,0xa6,0xa7,
  0xa8,0xa9,0xaa,0xab,0xac,0xad,0xae,0xaf,
  0xb0,0xb1,0xb2,0xb3,0xb4,0xb5,0xb6,0xb7,
  0xb8,0xb9,0xba,0xbb,0xbc,0xbd,0xbe,0xbf,
  0xc0,0xc1,0xc2,0xc3,0xc4,0xc5,0xc6,0xc7,
  0xc8,0xc9,0xca,0xcb,0xcc,0xcd,0xce,0xcf,
  0xd0,0xd1,0xd2,0xd3,0xd4,0xd5,0xd6,0xd7,
  0xd8,0xd9,0xda,0xdb,0xdc,0xdd,0xde,0xdf,
  0xe0,0xe1,0xe2,0xe3,0xe4,0xe5,0xe6,0xe7,
  0xe8,0xe9,0xea,0xeb,0xec,0xed,0xee,0xef,
  0xf0,0xf1,0xf2,0xf3,0xf4,0xf5,0xf6,0xf7,
  0xf8,0xf9,0xfa,0xfb,0xfc,0xfd,0xfe,0xff ]

/-- The lookup `locase[ (byte) c ]`. -/
def locase (c : Byte) : Byte := locase_table.getD c.val 0

/-- `Q_strkey( str, key, key_len )`: the first `key_len` bytes of `str` and
`key` agree after folding.  A read at or past the end of a list yields the
terminating NUL. -/
def Q_strkey (str key : List Byte) (key_len : Nat) : Bool :=
  (List.range key_len).all (fun i => locase (str.getD i 0) == locase (key.getD i 0))

/-- `if ( *s == '\\' ) s++;` -/
def skip_backslash : List Byte → List Byte
  | [] => []
  | c :: s => if c = bs then s else c :: s

/-- The key scan shared by `Info_ValueForKey` and `Info_RemoveKey`:
`pkey = s; while ( *s != '\\' ) { if ( *s == '\0' ) return ...; ++s; } ... s++;`.
The result is `none` when the terminator is reached (the function returns),
otherwise the bytes from `pkey` up to the backslash and the pointer just
past the backslash. -/
def scan_key : List Byte → Option (List Byte × List Byte)
  | [] => none
  | c :: s =>
    if c = bs then some ([], s)
    else match scan_key s with
      | none => none
      | some (k, r) => some (c :: k, r)

/-- The value scan `while ( *s != '\\' && *s != '\0' ) s++;`: the bytes passed
over and the pointer where the scan stops. -/
def scan_value : List Byte → List Byte × List Byte
  | [] => ([], [])
  | c :: s =>
    if c = bs then ([], c :: s)
    else ((c :: (scan_value s).1), (scan_value s).2)

/-- The body of the `while (1)` loop of `Info_ValueForKey`. -/
def Info_ValueForKey_loop (BIG_INFO_STRING : Nat) (key : List Byte) :
    Nat → List Byte → Except ComError (List Byte)
  | 0, _ => .error .outOfFuel
  | fuel + 1, s =>
    match scan_key s with
    | none => .ok []
    | some (pkey, s1) =>
      let v := (scan_value s1).1
      let s2 := (scan_value s1).2
      if pkey.length = key.length ∧ Q_strkey pkey key key.length = true then
        if v.length ≥ BIG_INFO_STRING then .error .ERR_DROP
        else .ok v
      else match s2 with
        | [] => .ok []
        | _ :: s3 => Info_ValueForKey_loop BIG_INFO_STRING key fuel s3

/-- `Info_ValueForKey( s, key )`: the returned string (the content of the
static buffer the returned pointer designates). -/
def Info_ValueForKey (BIG_INFO_STRING : Nat) (s key : List Byte) :
    Except ComError (List Byte) :=
  if key = [] then .ok []
  else
    Info_ValueForKey_loop BIG_INFO_STRING key ((skip_backslash s).length + 1)
      (skip_backslash s)

/-- The key copy of `Info_NextPair`:
`while ( *s != '\\' ) { if ( *s == '\0' ) { *o = '\0'; return s; } *o++ = *s++; }`.
The bytes copied into `key`, and `none` if the terminator was reached, else
the pointer just past the backslash. -/
def copy_key : List Byte → List Byte × Option (List Byte)
  | [] => ([], none)
  | c :: s =>
    if c = bs then ([], some s)
    else (c :: (copy_key s).1, (copy_key s).2)

/-- `Info_NextPair( s, key, value )`: the contents left in `key` and `value`
and the returned pointer. -/
def Info_NextPair (s : List Byte) : List Byte × List Byte × List Byte :=
  match copy_key (skip_backslash s) with
  | (key, none) => (key, [], [])
  | (key, some s1) => (key, (scan_value s1).1, (scan_value s1).2)

/-- The `while ( 1 )` loop of `Info_RemoveKey` on the buffer `buf`; `start` is
the pointer `s` at the top of the loop body.  The result is the returned
count and the buffer afterwards. -/
def Info_RemoveKey_loop (buf key : List Byte) :
    Nat → List Byte → Option (Nat × List Byte)
  | 0, _ => none
  | fuel + 1, start =>
    match scan_key (skip_backslash start) with
    | none => some (0, buf)
    | some (pkey, s1) =>
      let s2 := (scan_value s1).2
      if pkey.length = key.length ∧ Q_strkey pkey key key.length = true then
        -- memmove( start, s, strlen( s ) + 1 ); return (int)(s - start);
        some (start.length - s2.length, buf.take (buf.length - start.length) ++ s2)
      else if s2 = [] then some (0, buf)
      else Info_RemoveKey_loop buf key fuel s2

/-- `Info_RemoveKey( s, key )`: the returned count and the buffer afterwards
(`none`: the loop ran out of fuel). -/
def Info_RemoveKey (s key : List Byte) : Option (Nat × List Byte) :=
  Info_RemoveKey_loop s key (s.length + 1) s

/-- `Info_ValidateKeyValue( s )`. -/
def Info_ValidateKeyValue : List Byte → Bool
  | [] => true
  | c :: s =>
    if c = bs ∨ c = dquote ∨ c = semicolon then false
    else Info_ValidateKeyValue s

/-- Modelled from the spec: `Q_vsprintf` is declared `extern` and is not in the
sources; it is the "bounded-format" collaborator, here given the formatted
text.  `Com_sprintf( dest, size, fmt, ... )` returns the length of the
formatted text and raises `ERR_FATAL` when it does not fit `size` bytes. -/
def Com_sprintf (size : Nat) (text : List Byte) : Except ComError Nat :=
  if text.length ≥ size then .error .ERR_FATAL else .ok text.length

/-- `strcpy( s + off, src )` as seen from the string that starts at `s`. -/
def strcpy_at (s : List Byte) (off : Nat) (src : List Byte) : List Byte :=
  if off ≤ s.length then s.take off ++ src else s

/-- The text that the format `"\\%s\\%s"` produces from `key` and `value`. -/
def fmt_pair (key value : List Byte) : List Byte := bs :: key ++ bs :: value

/-- `Info_SetValueForKey( s, key, value )`: the returned flag and the buffer
afterwards. -/
def Info_SetValueForKey (MAX_INFO_STRING : Nat) (s key value : List Byte) :
    Except ComError (Bool × List Byte) :=
  let len1 := s.length
  if len1 ≥ MAX_INFO_STRING then .error .ERR_DROP
  else if Info_ValidateKeyValue key = false ∨ key = [] then .ok (false, s)
  else if Info_ValidateKeyValue value = false then .ok (false, s)
  else match Info_RemoveKey s key with
    | none => .error .outOfFuel
    | some (removed, s1) =>
      let len1 := len1 - removed
      if value = [] then .ok (true, s1)
      else match Com_sprintf (MAX_INFO_STRING + 2) (fmt_pair key value) with
        | .error e => .error e
        | .ok len2 =>
          if len1 + len2 ≥ MAX_INFO_STRING then .ok (false, s1)
          else .ok (true, strcpy_at s1 len1 (fmt_pair key value))

/-- `Info_SetValueForKey_Big( s, key, value )`. -/
def Info_SetValueForKey_Big (BIG_INFO_STRING : Nat) (s key value : List Byte) :
    Except ComError (Bool × List Byte) :=
  let len1 := s.length
  if len1 ≥ BIG_INFO_STRING then .error .ERR_DROP
  else if Info_ValidateKeyValue key = false ∨ key = [] then .ok (false, s)
  else if Info_ValidateKeyValue value = false then .ok (false, s)
  else match Info_RemoveKey s key with
    | none => .error .outOfFuel
    | some (removed, s1) =>
      let len1 := len1 - removed
      if value = [] then .ok (true, s1)
      else match Com_sprintf (BIG_INFO_STRING + 2) (fmt_pair key value) with
        | .error e => .error e
        | .ok len2 =>
          if len1 + len2 ≥ BIG_INFO_STRING then .ok (false, s1)
          else .ok (true, strcpy_at s1 len1 (fmt_pair key value))

/-! ## The words of the specification -/

/-- The fields of an info string: the maximal backslash-free runs between
its backslashes. -/
def split_fields : List Byte → List (List Byte)
  | [] => [[]]
  | c :: s =>
    if c = bs then [] :: split_fields s
    else match split_fields s with
      | [] => [[c]]
      | f :: fs => (c :: f) :: fs

/-- Consecutive fields taken two by two as key and value; a last field
without a value is not a pair. -/
def pair_up : List (List Byte) → List (List Byte × List Byte)
  | k :: v :: rest => (k, v) :: pair_up rest
  | _ => []

/-- The pairs of an info string, left to right; the leading backslash is
optional. -/
def Info_pairs (s : List Byte) : List (List Byte × List Byte) :=
  pair_up (split_fields (skip_backslash s))

/-- The key comparison in the words of the specification: same length, and equal
byte by byte after case folding through the fold table. -/
def fold_eq (k key : List Byte) : Bool :=
  decide (k.length = key.length ∧ k.map locase = key.map locase)

/-- The value of the leftmost pair of `s` whose key matches `key`, or the empty
string when there is none. -/
def spec_get (s key : List Byte) : List Byte :=
  match (Info_pairs s).find? (fun p => fold_eq p.1 key) with
  | some p => p.2
  | none => []

/-- The canonical info string `\k1\v1...\kn\vn` of a list of pairs. -/
def Info_encode : List (List Byte × List Byte) → List Byte
  | [] => []
  | p :: ps => fmt_pair p.1 p.2 ++ Info_encode ps

/-- Keys and values of the pairs are free of backslashes. -/
def pairs_clean (ps : List (List Byte × List Byte)) : Prop :=
  ∀ p ∈ ps, bs ∉ p.1 ∧ bs ∉ p.2

/-- The outcome of a lookup among the pairs `ps`: the value of the leftmost
matching pair, refused with `ERR_DROP` when it is `BIG_INFO_STRING` bytes or
longer, and the empty string when no pair matches. -/
def lookup (BIG_INFO_STRING : Nat) (key : List Byte) (ps : List (List Byte × List Byte)) :
    Except ComError (List Byte) :=
  match ps.find? (fun p => fold_eq p.1 key) with
  | none => .ok []
  | some p => if p.2.length ≥ BIG_INFO_STRING then .error .ERR_DROP else .ok p.2

/-- The content rule of `validateKeyValue` in the words of the specification:
no backslash, no double quote, no semicolon. -/
def valid_kv (s : List Byte) : Prop := bs ∉ s ∧ dquote ∉ s ∧ semicolon ∉ s

/-- The results of `n` successive calls of `Info_NextPair`, the first at `s` and
each later one at the pointer the previous call returned. -/
def next_pairs : Nat → List Byte → List (List Byte × List Byte × List Byte)
  | 0, _ => []
  | n + 1, s => Info_NextPair s :: next_pairs n (Info_NextPair s).2.2

/-! ## The compressor and the lexer -/

/-- The byte `'\n'`. -/
def nl : Byte := 0x0a
/-- The byte `'\r'`. -/
def cr : Byte := 0x0d
/-- The byte `' '`. -/
def sp : Byte := 0x20
/-- The byte `'\t'`. -/
def tab : Byte := 0x09
/-- The byte `'/'`. -/
def slash : Byte := 0x2f
/-- The byte `'*'`. -/
def star : Byte := 0x2a
/-- The byte `'{'`. -/
def lbrace : Byte := 0x7b
/-- The byte `'}'`. -/
def rbrace : Byte := 0x7d
/-- The byte `'='`. -/
def equals : Byte := 0x3d

/-- The value of `c` in `int c = *data`: with a signed `char` the bytes from
`0x80` on are negative.  The signedness of `char` is left to the platform, so
it is a parameter of the lexer. -/
def char_int (signed_char : Bool) (b : Byte) : Int :=
  if signed_char = true ∧ 128 ≤ b.val then (b.val : Int) - 256 else (b.val : Int)

/-- The test `c > ' '`. -/
def gt_space (signed_char : Bool) (b : Byte) : Bool := decide (32 < char_int signed_char b)

/-- `while ( *in && *in != '\n' ) in++;`: the pointer where the scan stops. -/
def skip_line : List Byte → List Byte
  | [] => []
  | c :: s => if c = nl then c :: s else skip_line s

/-- `while ( *in && ( *in != '*' || in[1] != '/' ) ) in++;`: the pointer
where the scan stops. -/
def scan_block_end : List Byte → List Byte
  | [] => []
  | c :: s => if c = star ∧ s.head? = some slash then c :: s else scan_block_end s

/-- The copy loop of a quoted section in `COM_Compress`:
`while (1) { c = *in; if (c && c != '"') { *out++ = c; in++; } else break; }`.
The bytes copied and the pointer where the loop stops. -/
def copy_quoted : List Byte → List Byte × List Byte
  | [] => ([], [])
  | c :: s =>
    if c = dquote then ([], c :: s)
    else (c :: (copy_quoted s).1, (copy_quoted s).2)

/-- The effect of one pass through the body of the main loop of `COM_Compress`:
the pointer `in` afterwards, the bytes written through `out`, and the two
flags. -/
structure CompressStep where
  inp : List Byte
  emit : List Byte
  newline : Bool
  whitespace : Bool

/-- The body of `while ((c = *in) != 0)` in `COM_Compress`, entered with
`c = *in` and `rest = in + 1`. -/
def COM_Compress_body (c : Byte) (rest : List Byte) (newline whitespace : Bool) :
    CompressStep :=
  if c = slash ∧ rest.head? = some slash then
    -- skip double slash comments
    ⟨skip_line (c :: rest), [], newline, whitespace⟩
  else if c = slash ∧ rest.head? = some star then
    -- skip /* */ comments; `if ( *in ) in += 2;`
    ⟨(scan_block_end (c :: rest)).drop 2, [], newline, whitespace⟩
  else if c = nl ∨ c = cr then
    ⟨rest, [], true, whitespace⟩
  else if c = sp ∨ c = tab then
    ⟨rest, [], newline, true⟩
  else
    -- an actual token: a pending newline or space is emitted first
    let pending : List Byte := if newline then [nl] else if whitespace then [sp] else []
    if c = dquote then
      -- copy quoted strings unmolested
      match (copy_quoted rest).2 with
      | [] => ⟨[], pending ++ c :: (copy_quoted rest).1, false, false⟩
      | q :: r => ⟨r, pending ++ c :: (copy_quoted rest).1 ++ [q], false, false⟩
    else
      ⟨rest, pending ++ [c], false, false⟩

/-- The main loop of `COM_Compress`: `inp` is the pointer `in`, `out` the bytes
written so far (the pointer `out` is `data_p + out.length`). -/
def COM_Compress_loop : Nat → List Byte → List Byte → Bool → Bool → Option (List Byte)
  | 0, _, _, _, _ => none
  | _ + 1, [], out, _, _ => some out
  | fuel + 1, c :: rest, out, newline, whitespace =>
    COM_Compress_loop fuel (COM_Compress_body c rest newline whitespace).inp
      (out ++ (COM_Compress_body c rest newline whitespace).emit)
      (COM_Compress_body c rest newline whitespace).newline
      (COM_Compress_body c rest newline whitespace).whitespace

/-- `COM_Compress( data_p )`: the returned length and the text left in the
buffer (`none`: the loop ran out of fuel).  Writes never pass the read
pointer, so the bytes read are those of the input. -/
def COM_Compress (data_p : List Byte) : Option (Nat × List Byte) :=
  (COM_Compress_loop (data_p.length + 1) data_p [] false false).map
    (fun out => (out.length, out))

/-- The bytes that the main loop of `COM_Compress` writes when it is at `inp`
with the given flags. -/
def compress_from (newline whitespace : Bool) (inp : List Byte) : List Byte :=
  (COM_Compress_loop (inp.length + 1) inp [] newline whitespace).getD []

/-- The parse session: the globals `com_parsename`, `com_lines` and
`com_tokenline`. -/
structure ParseSession where
  com_parsename : List Byte
  com_lines : Nat
  com_tokenline : Nat

/-- `COM_BeginParseSession( name )`; the name goes through `Com_sprintf` into
`com_parsename[MAX_TOKEN_CHARS]`. -/
def COM_BeginParseSession (MAX_TOKEN_CHARS : Nat) (name : List Byte) :
    Except ComError ParseSession :=
  match Com_sprintf MAX_TOKEN_CHARS name with
  | .error e => .error e
  | .ok _ => .ok ⟨name, 1, 0⟩

/-- `COM_GetCurrentParseLine()`. -/
def COM_GetCurrentParseLine (st : ParseSession) : Nat :=
  if st.com_tokenline ≠ 0 then st.com_tokenline else st.com_lines

/-- `SkipWhitespace( data, &hasNewLines )`: the returned pointer (`none` is
`NULL`), `com_lines` and `hasNewLines` afterwards. -/
def SkipWhitespace (signed_char : Bool) :
    List Byte → Nat → Bool → Option (List Byte) × Nat × Bool
  | [], com_lines, hasNewLines => (none, com_lines, hasNewLines)
  | c :: s, com_lines, hasNewLines =>
    if char_int signed_char c ≤ 32 then
      if c = nl then SkipWhitespace signed_char s (com_lines + 1) true
      else SkipWhitespace signed_char s com_lines hasNewLines
    else (some (c :: s), com_lines, hasNewLines)

/-- The scan of a block comment in the lexer, after `data += 2`:
`while ( *data && ( *data != '*' || data[1] != '/' ) ) { if ( *data == '\n' ) com_lines++; data++; }`.
The pointer where the scan stops and `com_lines` afterwards. -/
def scan_block_lines : List Byte → Nat → List Byte × Nat
  | [], com_lines => ([], com_lines)
  | c :: s, com_lines =>
    if c = star ∧ s.head? = some slash then (c :: s, com_lines)
    else scan_block_lines s (if c = nl then com_lines + 1 else com_lines)

/-- How the `while ( 1 )` loop at the head of `COM_ParseExt` and `COM_ParseSep`
is left. -/
inductive SkipOutcome
  /-- `SkipWhitespace` returned `NULL`. -/
  | exhausted (com_lines : Nat)
  /-- `hasNewLines && !allowLineBreaks`: return at `data`. -/
  | lineBreak (data : List Byte) (com_lines : Nat)
  /-- `break` with `c = *data`, `rest = data + 1`. -/
  | atToken (c : Byte) (rest : List Byte) (com_lines : Nat)

/-- The `while ( 1 )` loop at the head of `COM_ParseExt` and `COM_ParseSep`
(whitespace and comments).  `SkipWhitespace` never returns a pointer to the
terminator; that case is listed for totality only. -/
def skip_loop (signed_char allowLineBreaks : Bool) :
    Nat → List Byte → Nat → Bool → Option SkipOutcome
  | 0, _, _, _ => none
  | fuel + 1, data, com_lines, hasNewLines =>
    match SkipWhitespace signed_char data com_lines hasNewLines with
    | (none, lines1, _) => some (.exhausted lines1)
    | (some [], lines1, _) => some (.exhausted lines1)
    | (some (c :: rest), lines1, hasNewLines1) =>
      if hasNewLines1 = true ∧ allowLineBreaks = false then
        some (.lineBreak (c :: rest) lines1)
      else if c = slash ∧ rest.head? = some slash then
        -- data += 2; while (*data && *data != '\n') data++;
        skip_loop signed_char allowLineBreaks fuel (skip_line (rest.drop 1)) lines1 hasNewLines1
      else if c = slash ∧ rest.head? = some star then
        -- data += 2; scan; if ( *data ) data += 2;
        skip_loop signed_char allowLineBreaks fuel
          ((scan_block_lines (rest.drop 1) lines1).1.drop 2)
          (scan_block_lines (rest.drop 1) lines1).2 hasNewLines1
      else some (.atToken c rest lines1)

/-- `if ( len < MAX_TOKEN_CHARS - 1 ) { com_token[ len ] = c; len++; }` -/
def token_push (MAX_TOKEN_CHARS : Nat) (token : List Byte) (c : Byte) : List Byte :=
  if token.length < MAX_TOKEN_CHARS - 1 then token ++ [c] else token

/-- The quoted-string loop of `COM_ParseExt` and `COM_ParseSep`, entered after
`data++` over the opening quote: the token, the pointer `data` and
`com_lines` at the `return`. -/
def quoted_token (MAX_TOKEN_CHARS : Nat) :
    List Byte → List Byte → Nat → List Byte × List Byte × Nat
  | [], token, com_lines => (token, [], com_lines)
  | c :: s, token, com_lines =>
    if c = dquote then (token, s, com_lines)
    else quoted_token MAX_TOKEN_CHARS s
      (token_push MAX_TOKEN_CHARS token c)
      (if c = nl then com_lines + 1 else com_lines)

/-- The loop `do { ... } while ( c > ' ' )` of `COM_ParseExt`, entered with
`c = *data` and `rest = data + 1`: the token and the pointer afterwards. -/
def word_token (signed_char : Bool) (MAX_TOKEN_CHARS : Nat) :
    Byte → List Byte → List Byte → List Byte × List Byte
  | c, [], token => (token_push MAX_TOKEN_CHARS token c, [])
  | c, d :: s, token =>
    if 32 < char_int signed_char d then
      word_token signed_char MAX_TOKEN_CHARS d s
        (token_push MAX_TOKEN_CHARS token c)
    else (token_push MAX_TOKEN_CHARS token c, d :: s)

/-- The loop `do { ... } while ( c > ' ' && !is_separator[ c ] )` of
`COM_ParseSep`. -/
def word_token_sep (signed_char : Bool) (MAX_TOKEN_CHARS : Nat) (is_separator : Byte → Bool) :
    Byte → List Byte → List Byte → List Byte × List Byte
  | c, [], token => (token_push MAX_TOKEN_CHARS token c, [])
  | c, d :: s, token =>
    if 32 < char_int signed_char d ∧ is_separator d = false then
      word_token_sep signed_char MAX_TOKEN_CHARS is_separator d s
        (token_push MAX_TOKEN_CHARS token c)
    else (token_push MAX_TOKEN_CHARS token c, d :: s)

/-- What a call of `COM_ParseExt` or `COM_ParseSep` leaves: the content of
`com_token`, the cursor `*data_p` (`none` is `NULL`) and the session. -/
structure ParseOut where
  token : List Byte
  data_p : Option (List Byte)
  session : ParseSession

/-- `COM_ParseExt( data_p, allowLineBreaks )` (`none`: the head loop ran out of
fuel). -/
def COM_ParseExt (signed_char : Bool) (MAX_TOKEN_CHARS : Nat) (st : ParseSession)
    (data_p : Option (List Byte)) (allowLineBreaks : Bool) : Option ParseOut :=
  match data_p with
  | none => some ⟨[], none, { st with com_tokenline := 0 }⟩
  | some data =>
    match skip_loop signed_char allowLineBreaks (data.length + 1) data st.com_lines false with
    | none => none
    | some (.exhausted lines1) =>
      some ⟨[], none, { st with com_lines := lines1, com_tokenline := 0 }⟩
    | some (.lineBreak data1 lines1) =>
      some ⟨[], some data1, { st with com_lines := lines1, com_tokenline := 0 }⟩
    | some (.atToken c rest lines1) =>
      if c = dquote then
        -- handle quoted strings
        some ⟨(quoted_token MAX_TOKEN_CHARS rest [] lines1).1,
          some (quoted_token MAX_TOKEN_CHARS rest [] lines1).2.1,
          { st with com_lines := (quoted_token MAX_TOKEN_CHARS rest [] lines1).2.2,
                    com_tokenline := lines1 }⟩
      else
        -- parse a regular word
        some ⟨(word_token signed_char MAX_TOKEN_CHARS c rest []).1,
          some (word_token signed_char MAX_TOKEN_CHARS c rest []).2,
          { st with com_lines := lines1, com_tokenline := lines1 }⟩

/-- `COM_Parse( data_p )`. -/
def COM_Parse (signed_char : Bool) (MAX_TOKEN_CHARS : Nat) (st : ParseSession)
    (data_p : Option (List Byte)) : Option ParseOut :=
  COM_ParseExt signed_char MAX_TOKEN_CHARS st data_p true

/-- The table `is_separator` after `Com_InitSeparators()`, the static array
being zero before. -/
def Com_InitSeparators (c : Byte) : Bool :=
  decide (c = nl ∨ c = semicolon ∨ c = equals ∨ c = lbrace ∨ c = rbrace)

/-- `COM_ParseSep( data_p, allowLineBreaks )` with the table `is_separator`. -/
def COM_ParseSep (signed_char : Bool) (MAX_TOKEN_CHARS : Nat) (is_separator : Byte → Bool)
    (st : ParseSession) (data_p : Option (List Byte)) (allowLineBreaks : Bool) :
    Option ParseOut :=
  match data_p with
  | none => some ⟨[], none, { st with com_tokenline := 0 }⟩
  | some data =>
    match skip_loop signed_char allowLineBreaks (data.length + 1) data st.com_lines false with
    | none => none
    | some (.exhausted lines1) =>
      some ⟨[], none, { st with com_lines := lines1, com_tokenline := 0 }⟩
    | some (.lineBreak data1 lines1) =>
      some ⟨[], some data1, { st with com_lines := lines1, com_tokenline := 0 }⟩
    | some (.atToken c rest lines1) =>
      if c = dquote then
        some ⟨(quoted_token MAX_TOKEN_CHARS rest [] lines1).1,
          some (quoted_token MAX_TOKEN_CHARS rest [] lines1).2.1,
          { st with com_lines := (quoted_token MAX_TOKEN_CHARS rest [] lines1).2.2,
                    com_tokenline := lines1 }⟩
      else if is_separator c = true then
        -- special case for separators
        some ⟨[c], some rest, { st with com_lines := lines1, com_tokenline := lines1 }⟩
      else
        some ⟨(word_token_sep signed_char MAX_TOKEN_CHARS is_separator c rest []).1,
          some (word_token_sep signed_char MAX_TOKEN_CHARS is_separator c rest []).2,
          { st with com_lines := lines1, com_tokenline := lines1 }⟩

/-- The `do ... while( depth && *program )` loop of `SkipBracedSection`.  The
test `token[1] == 0` reads the terminator of a one-byte token; on an empty
token it reads a stale byte of `com_token`, but then `token[0]` is no brace
and the depth is unchanged whatever that byte is: the brace tests amount to
`token` being the string `{` or the string `}`. -/
def SkipBracedSection_loop (signed_char : Bool) (MAX_TOKEN_CHARS : Nat) :
    Nat → ParseSession → Option (List Byte) → Int → Option (ParseSession × Option (List Byte))
  | 0, _, _, _ => none
  | fuel + 1, st, program, depth =>
    match COM_ParseExt signed_char MAX_TOKEN_CHARS st program true with
    | none => none
    | some r =>
      let depth1 : Int :=
        if r.token = [lbrace] then depth + 1
        else if r.token = [rbrace] then depth - 1
        else depth
      if depth1 ≠ 0 ∧ r.data_p ≠ none then
        SkipBracedSection_loop signed_char MAX_TOKEN_CHARS fuel r.session r.data_p depth1
      else some (r.session, r.data_p)

/-- `SkipBracedSection( program )`: the session and the cursor afterwards. -/
def SkipBracedSection (signed_char : Bool) (MAX_TOKEN_CHARS : Nat) (st : ParseSession)
    (program : Option (List Byte)) : Option (ParseSession × Option (List Byte)) :=
  SkipBracedSection_loop signed_char MAX_TOKEN_CHARS
    ((program.getD []).length + 2) st program 0

/-! ### Words of the specification for the compressor and the lexer -/

/-- The whitespace of the compressor: space, tab, line feed, carriage return. -/
def is_blank (c : Byte) : Bool := decide (c = nl ∨ c = cr ∨ c = sp ∨ c = tab)

/-- The bytes that make a whitespace run collapse to a newline: line feed and
carriage return, the two bytes the compressor tests for under
`record when we hit a newline`. -/
def is_break (c : Byte) : Bool := decide (c = nl ∨ c = cr)

/-- The separator that is pending in the state of the compressor. -/
def pending_sep (newline whitespace : Bool) : List Byte :=
  if newline then [nl] else if whitespace then [sp] else []

/-- What a whitespace run collapses to when a non-whitespace byte follows: a
single newline (`\n`) if it contains a line feed or a carriage return, a single
space otherwise (nothing for the empty run). -/
def run_sep (r : List Byte) : List Byte :=
  if r = [] then [] else if r.any is_break then [nl] else [sp]

/-- A text put together from whitespace runs, each followed by a word. -/
def join_runs : List (List Byte × List Byte) → List Byte
  | [] => []
  | p :: ps => p.1 ++ p.2 ++ join_runs ps

/-- The same text with every whitespace run collapsed. -/
def join_collapsed : List (List Byte × List Byte) → List Byte
  | [] => []
  | p :: ps => run_sep p.1 ++ p.2 ++ join_collapsed ps

/-- A whitespace run: only bytes of the compressor's whitespace. -/
def blank_run (r : List Byte) : Prop := ∀ c ∈ r, is_blank c = true

/-- A word of a text without quotes and slashes: non-empty, no whitespace. -/
def plain_word (w : List Byte) : Prop :=
  w ≠ [] ∧ ∀ c ∈ w, is_blank c = false ∧ c ≠ slash ∧ c ≠ dquote

/-- The number of `\n` bytes of a text. -/
def count_nl : List Byte → Nat
  | [] => 0
  | c :: s => (if c = nl then 1 else 0) + count_nl s

/-- What holds of an outcome of the head loop of the lexer entered at `data`
with `com_lines = lines`: the bytes passed over are a beginning of `data`,
`com_lines` has grown by the number of their `\n` bytes, and a token starts
with a byte greater than space that does not open a comment. -/
def skip_outcome_ok (signed_char allowLineBreaks : Bool) (data : List Byte) (lines : Nat) :
    SkipOutcome → Prop
  | .exhausted l => l = lines + count_nl data
  | .lineBreak d l =>
    allowLineBreaks = false ∧ d ≠ [] ∧ ∃ cons, data = cons ++ d ∧ l = lines + count_nl cons
  | .atToken c rest l =>
    32 < char_int signed_char c ∧
    ¬ (c = slash ∧ (rest.head? = some slash ∨ rest.head? = some star)) ∧
    ∃ cons, data = cons ++ c :: rest ∧ l = lines + count_nl cons

/-- A byte other than the double quote. -/
def not_quote (b : Byte) : Bool := decide (b ≠ dquote)

/-- A byte greater than space that is no separator. -/
def word_byte_sep (signed_char : Bool) (is_separator : Byte → Bool) (b : Byte) : Bool :=
  gt_space signed_char b && !is_separator b

/-- A call of the lexer: the plain or the separator-aware variant, with its
`allowLineBreaks`. -/
inductive LexCall
  | ext (allowLineBreaks : Bool)
  | sep (allowLineBreaks : Bool)

/-- A sequence of lexer calls over one cursor: the session and the cursor after
the last call (`none`: a call ran out of fuel). -/
def run_calls (signed_char : Bool) (MAX_TOKEN_CHARS : Nat) (is_separator : Byte → Bool) :
    List LexCall → ParseSession → Option (List Byte) → Option (ParseSession × Option (List Byte))
  | [], st, cur => some (st, cur)
  | .ext allow :: calls, st, cur =>
    match COM_ParseExt signed_char MAX_TOKEN_CHARS st cur allow with
    | none => none
    | some r => run_calls signed_char MAX_TOKEN_CHARS is_separator calls r.session r.data_p
  | .sep allow :: calls, st, cur =>
    match COM_ParseSep signed_char MAX_TOKEN_CHARS is_separator st cur allow with
    | none => none
    | some r => run_calls signed_char MAX_TOKEN_CHARS is_separator calls r.session r.data_p

/-- The results of `n` successive calls `COM_ParseExt( program, qtrue )`. -/
def parse_trace (signed_char : Bool) (MAX_TOKEN_CHARS : Nat) :
    Nat → ParseSession → Option (List Byte) → List ParseOut
  | 0, _, _ => []
  | n + 1, st, cur =>
    match COM_ParseExt signed_char MAX_TOKEN_CHARS st cur true with
    | none => []
    | some r => r :: parse_trace signed_char MAX_TOKEN_CHARS n r.session r.data_p

/-- The running depth: the number of tokens equal to `{` minus the number of
tokens equal to `}`. -/
def brace_depth : List (List Byte) → Int
  | [] => 0
  | t :: ts =>
    (if t = [lbrace] then 1 else if t = [rbrace] then -1 else 0) + brace_depth ts

/-- The tokens of a text: `COM_ParseExt` with line breaks allowed is called
until the cursor is `NULL` (`none`: out of fuel). -/
def lex_all (signed_char : Bool) (MAX_TOKEN_CHARS : Nat) :
    Nat → ParseSession → Option (List Byte) → Option (List (List Byte))
  | 0, _, _ => none
  | _ + 1, _, none => some []
  | fuel + 1, st, some data =>
    match COM_ParseExt signed_char MAX_TOKEN_CHARS st (some data) true with
    | none => none
    | some r =>
      match lex_all signed_char MAX_TOKEN_CHARS fuel r.session r.data_p with
      | none => none
      | some ts => some (r.token :: ts)

/-- The line counter agrees with the part of `input` that has been consumed:
with the cursor at `d`, `com_lines` is `1` plus the number of `\n` bytes before
`d`; with the cursor `NULL`, it is `1` plus the number of `\n` bytes of the whole
input. -/
def lines_agree (input : List Byte) (com_lines : Nat) : Option (List Byte) → Prop
  | none => com_lines = 1 + count_nl input
  | some d => ∃ cons, input = cons ++ d ∧ com_lines = 1 + count_nl cons

/-- What a call of the lexer entered at `data` with `com_lines = lines` has done
to the line counter: it has grown by the number of `\n` bytes of the part of
`data` before the new cursor, or of the whole of `data` when the new cursor is
`NULL`. -/
def call_advances (data : List Byte) (lines : Nat) (r : ParseOut) : Prop :=
  match r.data_p with
  | none => r.session.com_lines = lines + count_nl data
  | some d => ∃ cons, data = cons ++ d ∧ r.session.com_lines = lines + count_nl cons

/-- The word collected so far, if any. -/
def flush_word (cur : List Byte) : List (List Byte) := if cur = [] then [] else [cur]

/-- The words of a text, read from left to right with the word begun in `cur`:
the maximal runs of bytes greater than space. -/
def words_from (signed_char : Bool) : List Byte → List Byte → List (List Byte)
  | [], cur => flush_word cur
  | c :: s, cur =>
    if gt_space signed_char c then words_from signed_char s (cur ++ [c])
    else flush_word cur ++ words_from signed_char s []

/-- The writes of one pass through the body of the main loop of `COM_Compress`, in
order: for each byte written, the position written to and the position of
`in` at that moment.  `out_pos` and `in_pos` are the positions of `out` and
`in` on entry (offsets from `data_p`). -/
def COM_Compress_body_writes (c : Byte) (rest : List Byte) (newline whitespace : Bool)
    (out_pos in_pos : Nat) : List (Nat × Nat) :=
  if c = slash ∧ rest.head? = some slash then []
  else if c = slash ∧ rest.head? = some star then []
  else if c = nl ∨ c = cr then []
  else if c = sp ∨ c = tab then []
  else
    -- `*out++ = '\n';` or `*out++ = ' ';`
    let pending : List (Nat × Nat) :=
      if newline then [(out_pos, in_pos)] else if whitespace then [(out_pos, in_pos)] else []
    if c = dquote then
      -- `*out++ = c; in++;`, one write for each byte copied, and the closing quote
      pending ++ (out_pos + pending.length, in_pos) ::
        ((List.range (copy_quoted rest).1.length).map
            (fun j => (out_pos + pending.length + 1 + j, in_pos + 1 + j)) ++
          match (copy_quoted rest).2 with
          | [] => []
          | _ :: _ =>
            [(out_pos + pending.length + 1 + (copy_quoted rest).1.length,
              in_pos + 1 + (copy_quoted rest).1.length)])
    else
      -- `*out = c; out++; in++;`
      pending ++ [(out_pos + pending.length, in_pos)]

/-- The writes of `COM_Compress` in order, each with the position written to and
the position of `in` at that moment; the last one is `*out = 0`. -/
def COM_Compress_writes : Nat → List Byte → Nat → Nat → Bool → Bool → List (Nat × Nat)
  | 0, _, _, _, _, _ => []
  | _ + 1, [], out_pos, in_pos, _, _ => [(out_pos, in_pos)]
  | fuel + 1, c :: rest, out_pos, in_pos, newline, whitespace =>
    COM_Compress_body_writes c rest newline whitespace out_pos in_pos ++
      COM_Compress_writes fuel (COM_Compress_body c rest newline whitespace).inp
        (out_pos + (COM_Compress_body c rest newline whitespace).emit.length)
        (in_pos + (rest.length + 1 - (COM_Compress_body c rest newline whitespace).inp.length))
        (COM_Compress_body c rest newline whitespace).newline
        (COM_Compress_body c rest newline whitespace).whitespace

/-! ## `COM_Compress` on the buffer itself -/

/-- `data_p[ i ]`: the byte at an offset of the buffer.  The list is the whole
buffer, terminator included; an offset past its end reads as NUL. -/
def byte_at (buf : List Byte) (i : Nat) : Byte := buf.getD i 0

/-- The memory of `COM_Compress` while it runs: the buffer at `data_p`, the
offsets of `in` and `out` from `data_p`, the two flags, and a log of the
stores made through `out`, each with the offset written to and the offset of
`in` at that moment. -/
structure CompressMem where
  buf : List Byte
  in_pos : Nat
  out_pos : Nat
  newline : Bool
  whitespace : Bool
  stores : List (Nat × Nat)

/-- `*out++ = b;` with its entry in the log.  A store past the end of the list
would be lost; the theorems show that `out` stays inside the buffer. -/
def put_out (m : CompressMem) (b : Byte) : CompressMem :=
  { m with
    buf := m.buf.set m.out_pos b
    out_pos := m.out_pos + 1
    stores := m.stores ++ [(m.out_pos, m.in_pos)] }

/-- `in++;` -/
def next_in (m : CompressMem) : CompressMem := { m with in_pos := m.in_pos + 1 }

/-- `while (*in && *in != '\n') in++;` on the buffer: the offset where the scan
stops. -/
def mem_skip_line : Nat → List Byte → Nat → Option Nat
  | 0, _, _ => none
  | fuel + 1, buf, i =>
    if byte_at buf i ≠ 0 ∧ byte_at buf i ≠ nl then mem_skip_line fuel buf (i + 1)
    else some i

/-- `while ( *in && ( *in != '*' || in[1] != '/' ) ) in++;` on the buffer: the
offset where the scan stops. -/
def mem_scan_block_end : Nat → List Byte → Nat → Option Nat
  | 0, _, _ => none
  | fuel + 1, buf, i =>
    if byte_at buf i ≠ 0 ∧ (byte_at buf i ≠ star ∨ byte_at buf (i + 1) ≠ slash) then
      mem_scan_block_end fuel buf (i + 1)
    else some i

/-- The copy loop of a quoted section on the buffer:
`while (1) { c = *in; if (c && c != '"') { *out++ = c; in++; } else break; }`.
The memory and the value of `c` when the loop breaks. -/
def mem_copy_quoted : Nat → CompressMem → Option (CompressMem × Byte)
  | 0, _ => none
  | fuel + 1, m =>
    if byte_at m.buf m.in_pos ≠ 0 ∧ byte_at m.buf m.in_pos ≠ dquote then
      mem_copy_quoted fuel (next_in (put_out m (byte_at m.buf m.in_pos)))
    else some (m, byte_at m.buf m.in_pos)

/-- The stores of a pending separator:
`if (newline) { *out++ = '\n'; newline = qfalse; whitespace = qfalse; }
else if (whitespace) { *out++ = ' '; whitespace = qfalse; }`. -/
def put_pending (m : CompressMem) : CompressMem :=
  if m.newline then { put_out m nl with newline := false, whitespace := false }
  else if m.whitespace then { put_out m sp with whitespace := false }
  else m

/-- The body of `while ((c = *in) != 0)` in `COM_Compress` on the buffer, entered
with `c = *in`.  The inner loops get the fuel `fuel`. -/
def mem_body (fuel : Nat) (m : CompressMem) (c : Byte) : Option CompressMem :=
  if c = slash ∧ byte_at m.buf (m.in_pos + 1) = slash then
    -- skip double slash comments
    (mem_skip_line fuel m.buf m.in_pos).map (fun i => { m with in_pos := i })
  else if c = slash ∧ byte_at m.buf (m.in_pos + 1) = star then
    -- skip /* */ comments; `if ( *in ) in += 2;`
    (mem_scan_block_end fuel m.buf m.in_pos).map (fun i =>
      if byte_at m.buf i ≠ 0 then { m with in_pos := i + 2 } else { m with in_pos := i })
  else if c = nl ∨ c = cr then
    some (next_in { m with newline := true })
  else if c = sp ∨ c = tab then
    some (next_in { m with whitespace := true })
  else
    -- an actual token: a pending newline or space is emitted first
    if c = dquote then
      -- copy quoted strings unmolested
      match mem_copy_quoted fuel (next_in (put_out (put_pending m) c)) with
      | none => none
      | some (m2, c2) =>
        if c2 = dquote then some (next_in (put_out m2 c2)) else some m2
    else
      some (next_in (put_out (put_pending m) c))

/-- The main loop of `COM_Compress` on the buffer. -/
def mem_loop : Nat → CompressMem → Option CompressMem
  | 0, _ => none
  | fuel + 1, m =>
    if byte_at m.buf m.in_pos ≠ 0 then
      match mem_body (m.buf.length + 1) m (byte_at m.buf m.in_pos) with
      | none => none
      | some m1 => mem_loop fuel m1
    else some m

/-- `COM_Compress( data_p )` on the buffer itself, where `out` writes into the
bytes that `in` reads: the returned length `out - data_p`, the buffer
afterwards, and the log of the stores, the last of which is `*out = 0`. -/
def COM_Compress_in_place (data : List Byte) : Option (Nat × List Byte × List (Nat × Nat)) :=
  (mem_loop (data.length + 1) ⟨data, 0, 0, false, false, []⟩).map
    (fun m => (m.out_pos, m.buf.set m.out_pos 0, m.stores ++ [(m.out_pos, m.in_pos)]))

/-- How the memory `m1` continues the memory `m` after `consumed` bytes were
read and the bytes `emit` were stored, with the text `inp1` left to read
before the terminator: the unread bytes are intact, the bytes below `out`
are those written so far, and the log has grown by `log`. -/
def mem_advance (junk : List Byte) (m m1 : CompressMem) (consumed : Nat)
    (inp1 emit : List Byte) (log : List (Nat × Nat)) : Prop :=
  m1.buf.drop m1.in_pos = inp1 ++ 0 :: junk ∧
  m1.in_pos = m.in_pos + consumed ∧
  m1.out_pos = m.out_pos + emit.length ∧
  m1.buf.take m1.out_pos = m.buf.take m.out_pos ++ emit ∧
  m1.buf.length = m.buf.length ∧
  m1.stores = m.stores ++ log

/-! ### Words of the claims that the code does not bear out as they stand -/

/-- What a whitespace run collapses to when `newline` is read as the byte `\n`
only: a single newline if the run contains a `\n`, a single space otherwise
(nothing for the empty run).  The compressor itself does as `run_sep` says. -/
def run_sep_lf (r : List Byte) : List Byte :=
  if r = [] then [] else if nl ∈ r then [nl] else [sp]

/-! ### Lexemes -/

/-- The lexeme that starts at the byte `c` where the head loop of `COM_ParseExt`
stops, `rest` being what follows `c`, and the input after the lexeme.  A quoted
lexeme is made of the bytes between the opening quote and the next double quote
or the end of the input, and the input goes on after the closing quote; a bare
word is the maximal run of bytes greater than space. -/
def lexeme_ext (sc : Bool) (c : Byte) (rest : List Byte) : List Byte × List Byte :=
  if c = dquote then (rest.takeWhile not_quote, (rest.dropWhile not_quote).drop 1)
  else ((c :: rest).takeWhile (gt_space sc), (c :: rest).dropWhile (gt_space sc))

/-- The lexeme that starts at the byte `c` where the head loop of `COM_ParseSep`
stops, and the input after it: a quoted lexeme as for `COM_ParseExt`, a
separator alone, or the maximal run of bytes that are greater than space and
no separators. -/
def lexeme_sep (sc : Bool) (is_separator : Byte → Bool) (c : Byte) (rest : List Byte) :
    List Byte × List Byte :=
  if c = dquote then (rest.takeWhile not_quote, (rest.dropWhile not_quote).drop 1)
  else if is_separator c = true then ([c], rest)
  else ((c :: rest).takeWhile (word_byte_sep sc is_separator),
    (c :: rest).dropWhile (word_byte_sep sc is_separator))

/-! ### What the lexer skips before a line break -/

/-- What the head loop of the lexer passes over without recording a line break
and without reaching the end of the input: bytes up to space other than `\n`,
and closed block comments (a `\n` inside a block comment is counted in
`com_lines` but does not set `hasNewLines`).  The body of a block comment is
what stands before its first `*/`: the scan for `*/` over the body and `*/`
stops at that `*/`. -/
inductive quiet_gap (sc : Bool) : List Byte → Prop
  | done : quiet_gap sc []
  | blank (b : Byte) (g : List Byte) :
      char_int sc b ≤ 32 → b ≠ nl → quiet_gap sc g → quiet_gap sc (b :: g)
  | block (body g : List Byte) :
      scan_block_end (body ++ [star, slash]) = [star, slash] → quiet_gap sc g →
      quiet_gap sc (slash :: star :: (body ++ star :: slash :: g))

/-! ### Texts that the compressor and the lexer read alike -/

/-- A bare word in which no quoted section and no comment opens: it has no
double quote and no `/` that is followed by `/` or `*`. -/
def clean_word : List Byte → Bool
  | [] => true
  | c :: w =>
    (c != dquote) && !(c == slash && (w.head? == some slash || w.head? == some star))
      && clean_word w

/-- A text in which quoted sections and comments open only where the lexer looks
for them, that is where a token may start, and in which no block comment
starts with `/*/`.  The text is read as the lexer reads it: bytes up to space,
line comments, block comments, quoted sections and bare words; every bare word
has to be clean, and the byte after the `/*` of a block comment must not be
`/` (the compressor would take `/*/` for a whole comment).  The fuel is the
number of items that may be read; the length of the text plus one is
enough. -/
def tokens_aligned (sc : Bool) : Nat → List Byte → Bool
  | 0, _ => false
  | _ + 1, [] => true
  | fuel + 1, c :: rest =>
    if gt_space sc c = false then tokens_aligned sc fuel rest
    else if c = slash ∧ rest.head? = some slash then
      tokens_aligned sc fuel (skip_line (rest.drop 1))
    else if c = slash ∧ rest.head? = some star then
      decide ((rest.drop 1).head? ≠ some slash) &&
        tokens_aligned sc fuel ((scan_block_end (rest.drop 1)).drop 2)
    else if c = dquote then
      tokens_aligned sc fuel ((rest.dropWhile not_quote).drop 1)
    else
      clean_word ((c :: rest).takeWhile (gt_space sc)) &&
        tokens_aligned sc fuel ((c :: rest).dropWhile (gt_space sc))

/-- The tokens of a text are `ts`: `lex_all` returns them whatever the session
and the fuel, once the fuel is the length of the text plus two or more. -/
def has_tokens (sc : Bool) (C : Nat) (data : List Byte) (ts : List (List Byte)) : Prop :=
  ∀ (fuel : Nat) (st : ParseSession), data.length + 2 ≤ fuel →
    lex_all sc C fuel st (some data) = some ts

/-! ## Scanning lemmas -/

theorem Q_strkey_iff (k key : List Byte) :
    (k.length = key.length ∧ Q_strkey k key key.length = true) ↔ fold_eq k key = true := by
  unfold fold_eq Q_strkey
  simp only [decide_eq_true_eq, List.all_eq_true, List.mem_range, beq_iff_eq]
  constructor
  · rintro ⟨hl, h⟩
    refine ⟨hl, ?_⟩
    apply List.ext_getElem (by simp [hl])
    intro i h1 h2
    simp only [List.length_map] at h1 h2
    have := h i h2
    simpa [List.getD_eq_getElem, h1, h2] using this
  · rintro ⟨hl, h⟩
    refine ⟨hl, ?_⟩
    intro i hi
    have hi1 : i < k.length := hl ▸ hi
    have h3 : (k.map locase)[i]? = (key.map locase)[i]? := by rw [h]
    simpa [List.getD_eq_getElem, hi, hi1] using h3

theorem fold_eq_self (key : List Byte) : fold_eq key key = true := by
  simp [fold_eq]

theorem split_fields_clean (v : List Byte) (h : bs ∉ v) : split_fields v = [v] := by
  induction v with
  | nil => rfl
  | cons c v ih =>
    simp only [List.mem_cons, not_or] at h
    have hc : c ≠ bs := fun e => h.1 e.symm
    simp [split_fields, hc, ih h.2]

theorem split_fields_append (v r : List Byte) (h : bs ∉ v) :
    split_fields (v ++ bs :: r) = v :: split_fields r := by
  induction v with
  | nil => simp [split_fields]
  | cons c v ih =>
    simp only [List.mem_cons, not_or] at h
    have hc : c ≠ bs := fun e => h.1 e.symm
    simp [split_fields, hc, ih h.2]

theorem scan_key_clean (v : List Byte) (h : bs ∉ v) : scan_key v = none := by
  induction v with
  | nil => rfl
  | cons c v ih =>
    simp only [List.mem_cons, not_or] at h
    have hc : c ≠ bs := fun e => h.1 e.symm
    simp [scan_key, hc, ih h.2]

theorem scan_key_append (k r : List Byte) (h : bs ∉ k) :
    scan_key (k ++ bs :: r) = some (k, r) := by
  induction k with
  | nil => simp [scan_key]
  | cons c k ih =>
    simp only [List.mem_cons, not_or] at h
    have hc : c ≠ bs := fun e => h.1 e.symm
    simp [scan_key, hc, ih h.2]

theorem scan_value_clean (v : List Byte) (h : bs ∉ v) : scan_value v = (v, []) := by
  induction v with
  | nil => rfl
  | cons c v ih =>
    simp only [List.mem_cons, not_or] at h
    have hc : c ≠ bs := fun e => h.1 e.symm
    simp [scan_value, hc, ih h.2]

theorem scan_value_append (v r : List Byte) (h : bs ∉ v) :
    scan_value (v ++ bs :: r) = (v, bs :: r) := by
  induction v with
  | nil => simp [scan_value]
  | cons c v ih =>
    simp only [List.mem_cons, not_or] at h
    have hc : c ≠ bs := fun e => h.1 e.symm
    simp [scan_value, hc, ih h.2]

/-- Every string is backslash-free or splits at its first backslash. -/
theorem first_backslash (s : List Byte) :
    bs ∉ s ∨ ∃ k r, bs ∉ k ∧ s = k ++ bs :: r := by
  induction s with
  | nil => left; simp
  | cons c s ih =>
    by_cases hc : c = bs
    · right; exact ⟨[], s, by simp, by simp [hc]⟩
    · rcases ih with h | ⟨k, r, hk, e⟩
      · left
        simp only [List.mem_cons, not_or]
        exact ⟨fun e => hc e.symm, h⟩
      · right
        refine ⟨c :: k, r, ?_, by simp [e]⟩
        simp only [List.mem_cons, not_or]
        exact ⟨fun e => hc e.symm, hk⟩

/-- The three shapes of a string at the top of a pair: no backslash at all,
a last pair, or a pair followed by a backslash and more. -/
theorem pair_shape (s : List Byte) :
    bs ∉ s ∨ (∃ k v, bs ∉ k ∧ bs ∉ v ∧ s = k ++ bs :: v) ∨
      (∃ k v r, bs ∉ k ∧ bs ∉ v ∧ s = k ++ bs :: (v ++ bs :: r)) := by
  rcases first_backslash s with h | ⟨k, r, hk, e⟩
  · exact Or.inl h
  · rcases first_backslash r with h | ⟨v, r2, hv, e2⟩
    · exact Or.inr (Or.inl ⟨k, r, hk, h, e⟩)
    · exact Or.inr (Or.inr ⟨k, v, r2, hk, hv, by rw [e, e2]⟩)

theorem skip_backslash_cons (r : List Byte) : skip_backslash (bs :: r) = r := by
  simp [skip_backslash]

theorem skip_backslash_length_le (s : List Byte) : (skip_backslash s).length ≤ s.length := by
  cases s with
  | nil => simp [skip_backslash]
  | cons c s =>
    by_cases hc : c = bs <;> simp [skip_backslash, hc]

/-! ## `Info_ValueForKey` -/

theorem ValueForKey_loop_eq (BIG : Nat) (key : List Byte) :
    ∀ (fuel : Nat) (s : List Byte), s.length < fuel →
      Info_ValueForKey_loop BIG key fuel s = lookup BIG key (pair_up (split_fields s)) := by
  intro fuel
  induction fuel with
  | zero => intro s h; omega
  | succ fuel ih =>
    intro s hlen
    rcases pair_shape s with h | ⟨k, v, hk, hv, e⟩ | ⟨k, v, r, hk, hv, e⟩
    · simp [Info_ValueForKey_loop, scan_key_clean s h, split_fields_clean s h, pair_up, lookup]
    · subst e
      simp only [Info_ValueForKey_loop, scan_key_append k v hk, scan_value_clean v hv,
        split_fields_append k v hk, split_fields_clean v hv, pair_up, lookup, Q_strkey_iff,
        List.find?_cons, List.find?_nil]
      cases hm : fold_eq k key <;> simp
    · subst e
      have hr : r.length < fuel := by
        simp only [List.length_append, List.length_cons] at hlen
        omega
      simp only [Info_ValueForKey_loop, scan_key_append k _ hk, scan_value_append v r hv,
        split_fields_append k _ hk, split_fields_append v r hv, pair_up, lookup, Q_strkey_iff,
        List.find?_cons]
      cases hm : fold_eq k key
      · simp only [Bool.false_eq_true, if_false]
        rw [ih r hr]
        rfl
      · simp

theorem ValueForKey_eq (BIG : Nat) (s key : List Byte) (hkey : key ≠ []) :
    Info_ValueForKey BIG s key = lookup BIG key (Info_pairs s) := by
  unfold Info_ValueForKey Info_pairs
  rw [if_neg hkey]
  exact ValueForKey_loop_eq BIG key _ _ (Nat.lt_succ_self _)

/-- A pair of an info string is not longer than the string: its key, its
value and the backslash between them all lie in it. -/
theorem pair_up_length (s : List Byte) :
    ∀ (n : Nat), s.length ≤ n → ∀ p ∈ pair_up (split_fields s),
      p.1.length + p.2.length + 1 ≤ s.length := by
  intro n
  induction n generalizing s with
  | zero =>
    intro h p hp
    have : s = [] := List.length_eq_zero.mp (by omega)
    subst this
    simp [split_fields, pair_up] at hp
  | succ n ih =>
    intro hlen p hp
    rcases pair_shape s with h | ⟨k, v, hk, hv, e⟩ | ⟨k, v, r, hk, hv, e⟩
    · simp [split_fields_clean s h, pair_up] at hp
    · subst e
      simp only [split_fields_append k v hk, split_fields_clean v hv, pair_up,
        List.mem_singleton] at hp
      subst hp
      simp
      omega
    · subst e
      simp only [split_fields_append k _ hk, split_fields_append v r hv, pair_up,
        List.mem_cons] at hp
      rcases hp with hp | hp
      · subst hp
        simp
        omega
      · have hr : r.length ≤ n := by
          simp only [List.length_append, List.length_cons] at hlen
          omega
        have := ih r hr p hp
        simp only [List.length_append, List.length_cons]
        omega

theorem Info_pairs_length (s : List Byte) (p : List Byte × List Byte) (hp : p ∈ Info_pairs s) :
    p.1.length + p.2.length + 1 ≤ s.length := by
  have h1 := pair_up_length (skip_backslash s) _ (le_refl _) p hp
  have h2 := skip_backslash_length_le s
  omega

theorem lookup_ok (BIG : Nat) (key : List Byte) (ps : List (List Byte × List Byte))
    (h : ∀ p ∈ ps, p.2.length < BIG) :
    lookup BIG key ps = .ok (match ps.find? (fun p => fold_eq p.1 key) with
      | some p => p.2
      | none => []) := by
  unfold lookup
  cases hf : ps.find? (fun p => fold_eq p.1 key) with
  | none => rfl
  | some p =>
    have := h p (List.mem_of_find?_eq_some hf)
    simp only []
    rw [if_neg (by omega)]

/-! ## `Info_RemoveKey` -/

theorem Info_pairs_cons_bs (r : List Byte) : Info_pairs (bs :: r) = pair_up (split_fields r) := by
  simp [Info_pairs, skip_backslash]

theorem scan_value_suffix (v post : List Byte) (hv : bs ∉ v)
    (hpost : post = [] ∨ ∃ r, post = bs :: r) : scan_value (v ++ post) = (v, post) := by
  rcases hpost with h | ⟨r, h⟩
  · subst h; simpa using scan_value_clean v hv
  · subst h; exact scan_value_append v r hv

theorem RemoveKey_loop_absent (buf key : List Byte) :
    ∀ (fuel : Nat) (start : List Byte), start.length < fuel →
      (∀ p ∈ Info_pairs start, fold_eq p.1 key = false) →
      Info_RemoveKey_loop buf key fuel start = some (0, buf) := by
  intro fuel
  induction fuel with
  | zero => intro s h; omega
  | succ fuel ih =>
    intro start hlen hno
    have hskip := skip_backslash_length_le start
    unfold Info_pairs at hno
    rcases pair_shape (skip_backslash start) with h | ⟨k, v, hk, hv, e⟩ | ⟨k, v, r, hk, hv, e⟩
    · simp [Info_RemoveKey_loop, scan_key_clean _ h]
    · rw [e] at hno
      simp only [split_fields_append k v hk, split_fields_clean v hv, pair_up,
        List.mem_singleton, forall_eq] at hno
      simp [Info_RemoveKey_loop, e, scan_key_append k v hk, scan_value_clean v hv,
        Q_strkey_iff, hno]
    · rw [e] at hno
      simp only [split_fields_append k _ hk, split_fields_append v r hv, pair_up,
        List.mem_cons, forall_eq_or_imp] at hno
      have hr : (bs :: r).length < fuel := by
        rw [e] at hskip
        simp only [List.length_append, List.length_cons] at hskip ⊢
        omega
      have := ih (bs :: r) hr (by rw [Info_pairs_cons_bs]; exact hno.2)
      simp [Info_RemoveKey_loop, e, scan_key_append k _ hk, scan_value_append v r hv,
        Q_strkey_iff, hno.1, this]

theorem RemoveKey_loop_total (buf key : List Byte) :
    ∀ (fuel : Nat) (start : List Byte), start.length < fuel → start.length ≤ buf.length →
      ∃ n r, Info_RemoveKey_loop buf key fuel start = some (n, r) ∧
        r.length + n = buf.length := by
  intro fuel
  induction fuel with
  | zero => intro s h; omega
  | succ fuel ih =>
    intro start hlen hbuf
    have hskip := skip_backslash_length_le start
    rcases pair_shape (skip_backslash start) with h | ⟨k, v, hk, hv, e⟩ | ⟨k, v, r, hk, hv, e⟩
    · exact ⟨0, buf, by simp [Info_RemoveKey_loop, scan_key_clean _ h], by simp⟩
    · cases hm : fold_eq k key
      · exact ⟨0, buf, by
          simp [Info_RemoveKey_loop, e, scan_key_append k v hk, scan_value_clean v hv,
            Q_strkey_iff, hm], by simp⟩
      · refine ⟨start.length - 0, buf.take (buf.length - start.length) ++ [], by
          simp [Info_RemoveKey_loop, e, scan_key_append k v hk, scan_value_clean v hv,
            Q_strkey_iff, hm], ?_⟩
        simp only [List.append_nil, List.length_take]
        omega
    · rw [e] at hskip
      simp only [List.length_append, List.length_cons] at hskip
      cases hm : fold_eq k key
      · have hr : (bs :: r).length < fuel := by
          simp only [List.length_cons]
          omega
        obtain ⟨n, q, hq, hl⟩ := ih (bs :: r) hr (by simp only [List.length_cons]; omega)
        exact ⟨n, q, by
          simp [Info_RemoveKey_loop, e, scan_key_append k _ hk, scan_value_append v r hv,
            Q_strkey_iff, hm, hq], hl⟩
      · refine ⟨start.length - (bs :: r).length,
          buf.take (buf.length - start.length) ++ bs :: r, by
          simp [Info_RemoveKey_loop, e, scan_key_append k _ hk, scan_value_append v r hv,
            Q_strkey_iff, hm], ?_⟩
        simp only [List.length_append, List.length_take, List.length_cons]
        omega

theorem RemoveKey_total (s key : List Byte) :
    ∃ n r, Info_RemoveKey s key = some (n, r) ∧ r.length + n = s.length :=
  RemoveKey_loop_total s key _ s (Nat.lt_succ_self _) (le_refl _)

theorem encode_append_head (ps : List (List Byte × List Byte)) (k v post : List Byte) :
    ∃ r, Info_encode ps ++ (fmt_pair k v ++ post) = bs :: r := by
  cases ps with
  | nil => exact ⟨k ++ bs :: (v ++ post), by simp [Info_encode, fmt_pair]⟩
  | cons p ps =>
    exact ⟨p.1 ++ bs :: (p.2 ++ (Info_encode ps ++ (fmt_pair k v ++ post))), by
      simp [Info_encode, fmt_pair]⟩

theorem RemoveKey_loop_hit (key k v post : List Byte) (hk : bs ∉ k) (hv : bs ∉ v)
    (hm : fold_eq k key = true) (hpost : post = [] ∨ ∃ r, post = bs :: r) :
    ∀ (ps0 : List (List Byte × List Byte)), pairs_clean ps0 →
      (∀ p ∈ ps0, fold_eq p.1 key = false) →
      ∀ (pre : List Byte) (fuel : Nat),
        (Info_encode ps0 ++ (fmt_pair k v ++ post)).length < fuel →
        Info_RemoveKey_loop (pre ++ (Info_encode ps0 ++ (fmt_pair k v ++ post))) key fuel
            (Info_encode ps0 ++ (fmt_pair k v ++ post))
          = some (k.length + v.length + 2, pre ++ (Info_encode ps0 ++ post)) := by
  intro ps0
  induction ps0 with
  | nil =>
    intro _ _ pre fuel hlen
    cases fuel with
    | zero => omega
    | succ fuel =>
      have e : fmt_pair k v ++ post = bs :: (k ++ bs :: (v ++ post)) := by simp [fmt_pair]
      simp only [Info_encode, List.nil_append]
      rw [e]
      simp only [Info_RemoveKey_loop, skip_backslash_cons, scan_key_append k _ hk,
        scan_value_suffix v post hv hpost, Q_strkey_iff, hm]
      simp
      omega
  | cons p ps0 ih =>
    intro hclean hno pre fuel hlen
    cases fuel with
    | zero => omega
    | succ fuel =>
      have hp := hclean p (List.mem_cons_self _ _)
      have hnp := hno p (List.mem_cons_self _ _)
      obtain ⟨r, hr⟩ := encode_append_head ps0 k v post
      have e : Info_encode (p :: ps0) ++ (fmt_pair k v ++ post)
          = bs :: (p.1 ++ bs :: (p.2 ++ (Info_encode ps0 ++ (fmt_pair k v ++ post)))) := by
        simp [Info_encode, fmt_pair]
      have hlen2 : (Info_encode ps0 ++ (fmt_pair k v ++ post)).length < fuel := by
        rw [e] at hlen
        simp only [List.length_append, List.length_cons] at hlen ⊢
        omega
      have := ih (fun q hq => hclean q (List.mem_cons_of_mem _ hq))
        (fun q hq => hno q (List.mem_cons_of_mem _ hq)) (pre ++ fmt_pair p.1 p.2) fuel hlen2
      have e2 : pre ++ (Info_encode (p :: ps0) ++ (fmt_pair k v ++ post))
          = pre ++ fmt_pair p.1 p.2 ++ (Info_encode ps0 ++ (fmt_pair k v ++ post)) := by
        simp [Info_encode]
      rw [e2, e]
      simp only [Info_RemoveKey_loop, skip_backslash_cons, scan_key_append p.1 _ hp.1,
        scan_value_suffix p.2 _ hp.2 (Or.inr ⟨r, hr⟩), Q_strkey_iff, hnp]
      rw [if_neg (by simp), if_neg (by rw [hr]; simp), this]
      simp [Info_encode]

theorem encode_append (ps qs : List (List Byte × List Byte)) :
    Info_encode (ps ++ qs) = Info_encode ps ++ Info_encode qs := by
  induction ps with
  | nil => rfl
  | cons p ps ih => simp [Info_encode, ih]

theorem encode_head (ps : List (List Byte × List Byte)) :
    Info_encode ps = [] ∨ ∃ r, Info_encode ps = bs :: r := by
  cases ps with
  | nil => exact Or.inl rfl
  | cons p ps => exact Or.inr ⟨p.1 ++ bs :: (p.2 ++ Info_encode ps), by simp [Info_encode, fmt_pair]⟩

theorem pairs_encode (ps : List (List Byte × List Byte)) (h : pairs_clean ps) :
    Info_pairs (Info_encode ps) = ps := by
  induction ps with
  | nil => rfl
  | cons p ps ih =>
    have hp := h p (List.mem_cons_self _ _)
    have ih2 := ih (fun q hq => h q (List.mem_cons_of_mem _ hq))
    have e : Info_encode (p :: ps) = bs :: (p.1 ++ bs :: (p.2 ++ Info_encode ps)) := by
      simp [Info_encode, fmt_pair]
    rw [e, Info_pairs_cons_bs, split_fields_append _ _ hp.1]
    rcases encode_head ps with h0 | ⟨r, hr⟩
    · have : ps = [] := by
        cases ps with
        | nil => rfl
        | cons q qs => simp [Info_encode, fmt_pair] at h0
      subst this
      simp [Info_encode, split_fields_clean _ hp.2, pair_up]
    · rw [hr, split_fields_append _ _ hp.2]
      rw [hr, Info_pairs_cons_bs] at ih2
      simp [pair_up, ih2]

theorem first_match_split {α : Type} (f : α → Bool) (l : List α) (h : ∃ p ∈ l, f p = true) :
    ∃ l0 p l1, l = l0 ++ p :: l1 ∧ f p = true ∧ ∀ q ∈ l0, f q = false := by
  induction l with
  | nil => simp at h
  | cons a l ih =>
    cases ha : f a
    · have : ∃ p ∈ l, f p = true := by
        obtain ⟨p, hp, hfp⟩ := h
        rcases List.mem_cons.mp hp with e | hm
        · subst e; rw [ha] at hfp; cases hfp
        · exact ⟨p, hm, hfp⟩
      obtain ⟨l0, p, l1, e, hp, h0⟩ := ih this
      refine ⟨a :: l0, p, l1, by simp [e], hp, ?_⟩
      intro q hq
      rcases List.mem_cons.mp hq with e | hm
      · subst e; exact ha
      · exact h0 q hm
    · exact ⟨[], a, l, rfl, ha, by simp⟩

/-! ## `Info_SetValueForKey` -/

theorem validate_iff (s : List Byte) : Info_ValidateKeyValue s = true ↔ valid_kv s := by
  unfold valid_kv
  induction s with
  | nil => simp [Info_ValidateKeyValue]
  | cons c s ih =>
    by_cases h : c = bs ∨ c = dquote ∨ c = semicolon
    · simp only [Info_ValidateKeyValue, if_pos h, Bool.false_eq_true, false_iff]
      intro hh
      simp only [List.mem_cons, not_or] at hh
      rcases h with h | h | h
      · exact hh.1.1 h.symm
      · exact hh.2.1.1 h.symm
      · exact hh.2.2.1 h.symm
    · simp only [Info_ValidateKeyValue, if_neg h, ih]
      simp only [not_or] at h
      simp only [List.mem_cons, not_or]
      constructor
      · rintro ⟨a, b, c⟩
        exact ⟨⟨fun e => h.1 e.symm, a⟩, ⟨fun e => h.2.1 e.symm, b⟩, ⟨fun e => h.2.2 e.symm, c⟩⟩
      · rintro ⟨a, b, c⟩
        exact ⟨a.2, b.2, c.2⟩

theorem SetValueForKey_Big_eq (limit : Nat) (s key value : List Byte) :
    Info_SetValueForKey_Big limit s key value = Info_SetValueForKey limit s key value := rfl

theorem fmt_pair_length (key value : List Byte) :
    (fmt_pair key value).length = key.length + value.length + 2 := by
  simp [fmt_pair]
  omega

/-- The outcome of `Info_SetValueForKey` on a buffer below the limit with a valid
key and value, from the outcome `(n, r)` of `Info_RemoveKey`. -/
theorem SetValueForKey_eq (limit : Nat) (s key value : List Byte) (n : Nat) (r : List Byte)
    (hlen : s.length < limit) (hk : valid_kv key) (hk0 : key ≠ []) (hv : valid_kv value)
    (hr : Info_RemoveKey s key = some (n, r)) (hn : r.length + n = s.length) :
    Info_SetValueForKey limit s key value =
      if value = [] then .ok (true, r)
      else if limit ≤ key.length + value.length then .error .ERR_FATAL
      else if limit ≤ r.length + (key.length + value.length + 2) then .ok (false, r)
      else .ok (true, r ++ fmt_pair key value) := by
  have hk1 : Info_ValidateKeyValue key = true := (validate_iff key).mpr hk
  have hv1 : Info_ValidateKeyValue value = true := (validate_iff value).mpr hv
  have hl1 : s.length - n = r.length := by omega
  unfold Info_SetValueForKey
  simp only [ge_iff_le, hk1, hv1, hr, Com_sprintf, fmt_pair_length, hl1]
  rw [if_neg (by omega), if_neg (by simp [hk0]), if_neg (by simp)]
  by_cases h0 : value = []
  · simp [h0]
  · simp only [if_neg h0]
    by_cases h1 : limit ≤ key.length + value.length
    · rw [if_pos (by omega), if_pos h1]
    · rw [if_neg (by omega), if_neg h1]
      simp only []
      by_cases h2 : limit ≤ r.length + (key.length + value.length + 2)
      · rw [if_pos h2, if_pos h2]
      · rw [if_neg h2, if_neg h2]
        simp [strcpy_at]

/-! ## `Info_NextPair` -/

theorem copy_key_append (k r : List Byte) (h : bs ∉ k) :
    copy_key (k ++ bs :: r) = (k, some r) := by
  induction k with
  | nil => simp [copy_key]
  | cons c k ih =>
    simp only [List.mem_cons, not_or] at h
    have hc : c ≠ bs := fun e => h.1 e.symm
    simp [copy_key, hc, ih h.2]

theorem NextPair_encode (p : List Byte × List Byte) (ps : List (List Byte × List Byte))
    (hp : bs ∉ p.1 ∧ bs ∉ p.2) :
    Info_NextPair (Info_encode (p :: ps)) = (p.1, p.2, Info_encode ps) := by
  have e : Info_encode (p :: ps) = bs :: (p.1 ++ bs :: (p.2 ++ Info_encode ps)) := by
    simp [Info_encode, fmt_pair]
  rw [e]
  simp only [Info_NextPair, skip_backslash_cons, copy_key_append _ _ hp.1,
    scan_value_suffix _ _ hp.2 (encode_head ps)]

theorem next_pairs_encode (ps : List (List Byte × List Byte)) (h : pairs_clean ps) :
    ∀ (m : Nat), (next_pairs (ps.length + m) (Info_encode ps)).map (fun t => (t.1, t.2.1))
      = ps ++ List.replicate m ([], []) := by
  induction ps with
  | nil =>
    intro m
    induction m with
    | zero => rfl
    | succ m ih =>
      simp only [List.length_nil, Nat.zero_add, Info_encode, List.nil_append] at ih ⊢
      simp only [next_pairs, List.map_cons, List.replicate_succ]
      have e : Info_NextPair [] = ([], [], []) := rfl
      rw [e]
      simp only [ih]
  | cons p ps ih =>
    intro m
    have hp := h p (List.mem_cons_self _ _)
    have e : (p :: ps).length + m = (ps.length + m) + 1 := by simp; omega
    rw [e]
    simp only [next_pairs, NextPair_encode p ps hp, List.map_cons, List.cons_append]
    rw [ih (fun q hq => h q (List.mem_cons_of_mem _ hq)) m]

/-! ## Removal from a canonical info string -/

theorem filter_no_match (key : List Byte) (l : List (List Byte × List Byte))
    (h : ∀ p ∈ l, fold_eq p.1 key = false) :
    l.filter (fun p => !fold_eq p.1 key) = l := by
  apply List.filter_eq_self.mpr
  intro p hp
  simp [h p hp]

theorem no_match_of_countP (key : List Byte) (l : List (List Byte × List Byte))
    (h : l.countP (fun p => fold_eq p.1 key) = 0) : ∀ p ∈ l, fold_eq p.1 key = false := by
  intro p hp
  have := (List.countP_eq_zero.mp h) p hp
  simpa using this

/-- `Info_RemoveKey` on a canonical info string with at most one pair matching
`key`: the pairs that remain are those that do not match. -/
theorem RemoveKey_encode_uniq (key : List Byte) (ps : List (List Byte × List Byte))
    (hclean : pairs_clean ps) (huniq : ps.countP (fun p => fold_eq p.1 key) ≤ 1) :
    ∃ n, Info_RemoveKey (Info_encode ps) key
        = some (n, Info_encode (ps.filter (fun p => !fold_eq p.1 key))) ∧
      (Info_encode (ps.filter (fun p => !fold_eq p.1 key))).length + n
        = (Info_encode ps).length := by
  by_cases hex : ∃ p ∈ ps, fold_eq p.1 key = true
  · obtain ⟨ps0, p, ps1, e, hp, h0⟩ := first_match_split (fun p => fold_eq p.1 key) ps hex
    subst e
    have h1 : ∀ q ∈ ps1, fold_eq q.1 key = false := by
      apply no_match_of_countP
      simp only [List.countP_append, List.countP_cons, hp, if_true] at huniq
      omega
    have hpc := hclean p (by simp)
    have hc0 : pairs_clean ps0 := fun q hq => hclean q (by simp [hq])
    have hfil : (ps0 ++ p :: ps1).filter (fun p => !fold_eq p.1 key) = ps0 ++ ps1 := by
      simp [List.filter_append, List.filter_cons, hp, filter_no_match key ps0 h0,
        filter_no_match key ps1 h1]
    have henc : Info_encode (ps0 ++ p :: ps1)
        = Info_encode ps0 ++ (fmt_pair p.1 p.2 ++ Info_encode ps1) := by
      simp [encode_append, Info_encode]
    have := RemoveKey_loop_hit key p.1 p.2 (Info_encode ps1) hpc.1 hpc.2 hp (encode_head ps1)
      ps0 hc0 h0 [] _ (Nat.lt_succ_self _)
    refine ⟨p.1.length + p.2.length + 2, ?_, ?_⟩
    · unfold Info_RemoveKey
      rw [henc, hfil, encode_append]
      simpa using this
    · rw [hfil, henc, encode_append]
      simp only [List.length_append, fmt_pair_length]
      omega
  · have hno : ∀ p ∈ ps, fold_eq p.1 key = false := by
      intro p hp
      cases h : fold_eq p.1 key
      · rfl
      · exact absurd ⟨p, hp, h⟩ hex
    refine ⟨0, ?_, ?_⟩
    · rw [filter_no_match key ps hno]
      exact RemoveKey_loop_absent _ key _ _ (Nat.lt_succ_self _)
        (by rw [pairs_encode ps hclean]; exact hno)
    · rw [filter_no_match key ps hno]
      rfl

theorem valid_kv_clean (s : List Byte) (h : valid_kv s) : bs ∉ s := h.1

theorem lookup_absent (BIG : Nat) (key : List Byte) (ps : List (List Byte × List Byte))
    (h : ∀ p ∈ ps, fold_eq p.1 key = false) : lookup BIG key ps = .ok [] := by
  unfold lookup
  have : ps.find? (fun p => fold_eq p.1 key) = none := by
    apply List.find?_eq_none.mpr
    intro p hp
    simp [h p hp]
  rw [this]

/-- A lookup of `key` in a buffer that ends with the pair `\key\value` after
pairs that do not match. -/
theorem ValueForKey_appended (BIG : Nat) (key value : List Byte)
    (ps : List (List Byte × List Byte)) (hclean : pairs_clean ps)
    (hno : ∀ p ∈ ps, fold_eq p.1 key = false) (hk : bs ∉ key) (hk0 : key ≠ [])
    (hv : bs ∉ value) (hbig : value.length < BIG) :
    Info_ValueForKey BIG (Info_encode ps ++ fmt_pair key value) key = .ok value := by
  have e : Info_encode ps ++ fmt_pair key value = Info_encode (ps ++ [(key, value)]) := by
    simp [encode_append, Info_encode]
  have hc : pairs_clean (ps ++ [(key, value)]) := by
    intro q hq
    rcases List.mem_append.mp hq with h | h
    · exact hclean q h
    · simp only [List.mem_singleton] at h
      subst h
      exact ⟨hk, hv⟩
  rw [e, ValueForKey_eq BIG _ key hk0, pairs_encode _ hc]
  unfold lookup
  have hf : (ps ++ [(key, value)]).find? (fun p => fold_eq p.1 key) = some (key, value) := by
    rw [List.find?_append]
    have : ps.find? (fun p => fold_eq p.1 key) = none := by
      apply List.find?_eq_none.mpr
      intro p hp
      simp [hno p hp]
    rw [this]
    simp [fold_eq_self]
  rw [hf]
  simp only []
  rw [if_neg (by omega)]

/-! ## The claims -/

/-- C1 (counterexample).  In `\a\1\a\2` two pairs have the key `a`.
`Info_SetValueForKey` with key `a` and value `3` succeeds and leaves
`\a\2\a\3`: only the first pair was removed, and `Info_ValueForKey` then
returns `2`, the value of the pair that stayed, not `3`. -/
theorem set_then_get_duplicate_key :
    (cstr "\\a\\1\\a\\2").length < 1024 ∧
    valid_kv (cstr "a") ∧ cstr "a" ≠ [] ∧ valid_kv (cstr "3") ∧ cstr "3" ≠ [] ∧
    Info_SetValueForKey 1024 (cstr "\\a\\1\\a\\2") (cstr "a") (cstr "3")
      = .ok (true, cstr "\\a\\2\\a\\3") ∧
    Info_ValueForKey 8192 (cstr "\\a\\2\\a\\3") (cstr "a") = .ok (cstr "2") ∧
    cstr "2" ≠ cstr "3" := by
  refine ⟨by decide, by unfold valid_kv; decide, by decide, by unfold valid_kv; decide,
    by decide, rfl, rfl, by decide⟩

/-- C1 (amended).  For every canonical info string `s` (a concatenation of
`\key\value` pairs with backslash-free keys and values) with
`length(s) < limit` in which at most one pair has a key matching `key`, and
every valid non-empty `key` and `value`: if `Info_SetValueForKey` succeeds, then
`Info_ValueForKey` on the resulting buffer with the same key returns exactly
`value` (the limit being at most `BIG_INFO_STRING`). -/
theorem set_then_get (limit BIG : Nat) (ps : List (List Byte × List Byte))
    (key value s1 : List Byte) (hclean : pairs_clean ps)
    (huniq : ps.countP (fun p => fold_eq p.1 key) ≤ 1)
    (hlen : (Info_encode ps).length < limit) (hbig : limit ≤ BIG)
    (hk : valid_kv key) (hk0 : key ≠ []) (hv : valid_kv value) (hv0 : value ≠ [])
    (hset : Info_SetValueForKey limit (Info_encode ps) key value = .ok (true, s1)) :
    Info_ValueForKey BIG s1 key = .ok value := by
  obtain ⟨n, hr, hl⟩ := RemoveKey_encode_uniq key ps hclean huniq
  rw [SetValueForKey_eq limit _ key value n _ hlen hk hk0 hv hr hl, if_neg hv0] at hset
  by_cases h1 : limit ≤ key.length + value.length
  · rw [if_pos h1] at hset
    cases hset
  · rw [if_neg h1] at hset
    by_cases h2 : limit ≤ (Info_encode (ps.filter (fun p => !fold_eq p.1 key))).length
        + (key.length + value.length + 2)
    · rw [if_pos h2] at hset
      cases hset
    · rw [if_neg h2] at hset
      have e : Info_encode (ps.filter (fun p => !fold_eq p.1 key)) ++ fmt_pair key value = s1 := by
        injection hset with h
        exact (Prod.mk.inj h).2
      rw [← e]
      apply ValueForKey_appended BIG key value _ _ _ hk.1 hk0 hv.1 (by omega)
      · intro q hq
        exact hclean q (List.mem_filter.mp hq).1
      · intro q hq
        simpa using (List.mem_filter.mp hq).2

/-- C1 (witness): the amended statement at `\a\1\b\2`, key `A`, value `3`. -/
theorem set_then_get_witness :
    Info_SetValueForKey 1024 (Info_encode [(cstr "a", cstr "1"), (cstr "b", cstr "2")])
        (cstr "A") (cstr "3") = .ok (true, cstr "\\b\\2\\A\\3") ∧
    Info_ValueForKey 8192 (cstr "\\b\\2\\A\\3") (cstr "A") = .ok (cstr "3") :=
  ⟨rfl, set_then_get 1024 8192 [(cstr "a", cstr "1"), (cstr "b", cstr "2")] (cstr "A")
    (cstr "3") (cstr "\\b\\2\\A\\3") (by unfold pairs_clean; decide) (by decide)
    (by decide) (by decide) (by unfold valid_kv; decide) (by decide)
    (by unfold valid_kv; decide) (by decide) rfl⟩

/-- C2.  Whenever `Info_SetValueForKey` returns true with a non-empty value, the
resulting buffer is the buffer left by `Info_RemoveKey( s, key )` with the bytes
`\key\value` appended at its end, and its length is strictly below the limit.
In particular, on `\a\1` with key `a` and value `2` the result is `\a\2`, for
every limit that admits `\a\1` (so for the standard limit). -/
theorem set_appends_pair :
    (∀ (limit : Nat) (s key value s1 : List Byte), value ≠ [] →
      Info_SetValueForKey limit s key value = .ok (true, s1) →
      ∃ n r, Info_RemoveKey s key = some (n, r) ∧
        s1 = r ++ (bs :: key ++ bs :: value) ∧ s1.length < limit) ∧
    (∀ (limit : Nat), 4 < limit →
      Info_SetValueForKey limit (cstr "\\a\\1") (cstr "a") (cstr "2")
        = .ok (true, cstr "\\a\\2")) := by
  constructor
  · intro limit s key value s1 hv0 hset
    obtain ⟨n, r, hr, hl⟩ := RemoveKey_total s key
    have hlen : s.length < limit := by
      by_contra hc
      unfold Info_SetValueForKey at hset
      rw [if_pos (by omega)] at hset
      cases hset
    have hk1 : ¬ (Info_ValidateKeyValue key = false ∨ key = []) := by
      intro hc
      unfold Info_SetValueForKey at hset
      simp only [] at hset
      rw [if_neg (by omega), if_pos hc] at hset
      cases hset
    have hv1 : ¬ (Info_ValidateKeyValue value = false) := by
      intro hc
      unfold Info_SetValueForKey at hset
      simp only [] at hset
      rw [if_neg (by omega), if_neg hk1, if_pos hc] at hset
      cases hset
    have hk : valid_kv key := (validate_iff key).mp (by
      cases h : Info_ValidateKeyValue key
      · exact absurd (Or.inl h) hk1
      · rfl)
    have hk0 : key ≠ [] := fun h => hk1 (Or.inr h)
    have hv : valid_kv value := (validate_iff value).mp (by
      cases h : Info_ValidateKeyValue value
      · exact absurd h hv1
      · rfl)
    rw [SetValueForKey_eq limit s key value n r hlen hk hk0 hv hr hl, if_neg hv0] at hset
    by_cases h1 : limit ≤ key.length + value.length
    · rw [if_pos h1] at hset
      cases hset
    · rw [if_neg h1] at hset
      by_cases h2 : limit ≤ r.length + (key.length + value.length + 2)
      · rw [if_pos h2] at hset
        cases hset
      · rw [if_neg h2] at hset
        have e : r ++ fmt_pair key value = s1 := by
          injection hset with h
          exact (Prod.mk.inj h).2
        refine ⟨n, r, hr, e.symm, ?_⟩
        rw [← e, List.length_append, fmt_pair_length]
        omega
  · intro limit hlim
    have hr : Info_RemoveKey (cstr "\\a\\1") (cstr "a") = some (4, []) := rfl
    rw [SetValueForKey_eq limit _ _ _ 4 [] (by simpa using hlim) (by unfold valid_kv; decide)
      (by decide) (by unfold valid_kv; decide) hr rfl]
    have h1 : (cstr "a").length + (cstr "2").length = 2 := rfl
    rw [if_neg (by decide), if_neg (by rw [h1]; omega), if_neg (by rw [h1]; simp; omega)]
    rfl

/-- C2 (witness): the general statement applied to `\a\1`, key `a`, value `2` and
the limit 1024. -/
theorem set_appends_pair_witness :
    Info_SetValueForKey 1024 (cstr "\\a\\1") (cstr "a") (cstr "2") = .ok (true, cstr "\\a\\2") ∧
    ∃ n r, Info_RemoveKey (cstr "\\a\\1") (cstr "a") = some (n, r) ∧
      cstr "\\a\\2" = r ++ (bs :: cstr "a" ++ bs :: cstr "2") ∧ (cstr "\\a\\2").length < 1024 :=
  ⟨set_appends_pair.2 1024 (by decide),
   set_appends_pair.1 1024 (cstr "\\a\\1") (cstr "a") (cstr "2") (cstr "\\a\\2") (by decide) rfl⟩

/-- C3.  For every info string `s` (by the data model not longer than the big
limit) and key, `Info_ValueForKey` returns the value of the leftmost pair whose
key has the length of `key` and equals it byte by byte after folding through
`locase`; it returns the empty string when `key` is empty, when `s` is empty and
when no pair matches. -/
theorem get_leftmost_match (BIG : Nat) (s key : List Byte) :
    ((key = [] ∨ s = [] ∨ ∀ p ∈ Info_pairs s, fold_eq p.1 key = false) →
      Info_ValueForKey BIG s key = .ok []) ∧
    (s.length ≤ BIG → key ≠ [] → Info_ValueForKey BIG s key = .ok (spec_get s key)) ∧
    (s.length ≤ BIG → key ≠ [] →
      ∀ (ps0 ps1 : List (List Byte × List Byte)) (k v : List Byte),
        Info_pairs s = ps0 ++ (k, v) :: ps1 → (∀ p ∈ ps0, fold_eq p.1 key = false) →
        fold_eq k key = true → Info_ValueForKey BIG s key = .ok v) := by
  have hbound : s.length ≤ BIG → ∀ p ∈ Info_pairs s, p.2.length < BIG := by
    intro hlen p hp
    have := Info_pairs_length s p hp
    omega
  have hget : s.length ≤ BIG → key ≠ [] →
      Info_ValueForKey BIG s key = .ok (spec_get s key) := by
    intro hlen hk0
    rw [ValueForKey_eq BIG s key hk0, lookup_ok BIG key _ (hbound hlen)]
    rfl
  refine ⟨?_, hget, ?_⟩
  · rintro (h | h | h)
    · simp [Info_ValueForKey, h]
    · subst h
      by_cases hk0 : key = []
      · simp [Info_ValueForKey, hk0]
      · rw [ValueForKey_eq BIG _ key hk0]
        rfl
    · by_cases hk0 : key = []
      · simp [Info_ValueForKey, hk0]
      · rw [ValueForKey_eq BIG _ key hk0]
        exact lookup_absent BIG key _ h
  · intro hlen hk0 ps0 ps1 k v e h0 hm
    rw [hget hlen hk0]
    unfold spec_get
    have hf : (Info_pairs s).find? (fun p => fold_eq p.1 key) = some (k, v) := by
      rw [e, List.find?_append]
      have : ps0.find? (fun p => fold_eq p.1 key) = none := by
        apply List.find?_eq_none.mpr
        intro p hp
        simp [h0 p hp]
      rw [this]
      simp [hm]
    rw [hf]

/-- C3 (witness): on `\name\Dave\score\10` the key `Score` yields `10` and the
key `missing` yields the empty string. -/
theorem get_leftmost_match_witness :
    Info_ValueForKey 8192 (cstr "\\name\\Dave\\score\\10") (cstr "Score") = .ok (cstr "10") ∧
    Info_ValueForKey 8192 (cstr "\\name\\Dave\\score\\10") (cstr "missing") = .ok [] :=
  ⟨(get_leftmost_match 8192 (cstr "\\name\\Dave\\score\\10") (cstr "Score")).2.2
      (by decide) (by decide) [(cstr "name", cstr "Dave")] [] (cstr "score") (cstr "10")
      rfl (by decide) (by decide),
   (get_leftmost_match 8192 (cstr "\\name\\Dave\\score\\10") (cstr "missing")).1
      (Or.inr (Or.inr (by decide)))⟩

/-- C4 (counterexample).  In `\name\x\NAME\y` two pairs have a key matching
`name`.  `Info_SetValueForKey` with key `name` and the empty value returns true
and leaves `\NAME\y`: only the first pair was removed, and `Info_ValueForKey`
with `name` then returns `y`, not the empty string. -/
theorem delete_then_get_duplicate_key :
    (cstr "\\name\\x\\NAME\\y").length < 1024 ∧
    valid_kv (cstr "name") ∧ cstr "name" ≠ [] ∧
    Info_SetValueForKey 1024 (cstr "\\name\\x\\NAME\\y") (cstr "name") []
      = .ok (true, cstr "\\NAME\\y") ∧
    Info_ValueForKey 8192 (cstr "\\NAME\\y") (cstr "name") = .ok (cstr "y") ∧
    cstr "y" ≠ [] := by
  refine ⟨by decide, by unfold valid_kv; decide, by decide, rfl, rfl, by decide⟩

/-- C4 (amended).  For every info string `s` with `length(s) < limit` and every
valid non-empty key, `Info_SetValueForKey` with the empty value returns true and
leaves the buffer as `Info_RemoveKey` leaves it.  If moreover `s` is canonical (a
concatenation of `\key\value` pairs with backslash-free keys and values) and at
most one of its pairs has a key matching `key`, the resulting buffer is made of
the pairs of `s` that do not match, and `Info_ValueForKey` on it with that key
returns the empty string. -/
theorem delete_then_get (limit BIG : Nat) (s key : List Byte)
    (hlen : s.length < limit) (hk : valid_kv key) (hk0 : key ≠ []) :
    (∃ n r, Info_RemoveKey s key = some (n, r) ∧
      Info_SetValueForKey limit s key [] = .ok (true, r)) ∧
    (∀ (ps : List (List Byte × List Byte)), s = Info_encode ps → pairs_clean ps →
      ps.countP (fun p => fold_eq p.1 key) ≤ 1 →
      Info_SetValueForKey limit s key []
        = .ok (true, Info_encode (ps.filter (fun p => !fold_eq p.1 key))) ∧
      Info_ValueForKey BIG (Info_encode (ps.filter (fun p => !fold_eq p.1 key))) key
        = .ok []) := by
  have hv : valid_kv ([] : List Byte) := by unfold valid_kv; simp
  constructor
  · obtain ⟨n, r, hr, hl⟩ := RemoveKey_total s key
    refine ⟨n, r, hr, ?_⟩
    rw [SetValueForKey_eq limit s key [] n r hlen hk hk0 hv hr hl, if_pos rfl]
  · intro ps e hclean huniq
    subst e
    obtain ⟨n, hr, hl⟩ := RemoveKey_encode_uniq key ps hclean huniq
    constructor
    · rw [SetValueForKey_eq limit _ key [] n _ hlen hk hk0 hv hr hl, if_pos rfl]
    · have hc : pairs_clean (ps.filter (fun p => !fold_eq p.1 key)) := by
        intro q hq
        exact hclean q (List.mem_filter.mp hq).1
      rw [ValueForKey_eq BIG _ key hk0, pairs_encode _ hc]
      apply lookup_absent
      intro q hq
      simpa using (List.mem_filter.mp hq).2

/-- C4 (witness): deleting `B` from `\a\1\b\2` leaves `\a\1`, where `B` is no
longer found. -/
theorem delete_then_get_witness :
    Info_SetValueForKey 1024 (cstr "\\a\\1\\b\\2") (cstr "B") [] = .ok (true, cstr "\\a\\1") ∧
    Info_ValueForKey 8192 (cstr "\\a\\1") (cstr "B") = .ok [] :=
  (delete_then_get 1024 8192 (cstr "\\a\\1\\b\\2") (cstr "B") (by decide)
    (by unfold valid_kv; decide) (by decide)).2
    [(cstr "a", cstr "1"), (cstr "b", cstr "2")] rfl (by unfold pairs_clean; decide) (by decide)

/-- C5.  For every info string `s` with `length(s) < limit`: if `key` is empty, or
`key` contains a backslash, double quote or semicolon, or `value` contains a
backslash, double quote or semicolon, then `Info_SetValueForKey` (either tier)
returns false and leaves `s` byte-identical. -/
theorem set_rejects_invalid (limit : Nat) (s key value : List Byte) (hlen : s.length < limit)
    (hbad : key = [] ∨ (bs ∈ key ∨ dquote ∈ key ∨ semicolon ∈ key) ∨
      (bs ∈ value ∨ dquote ∈ value ∨ semicolon ∈ value)) :
    Info_SetValueForKey limit s key value = .ok (false, s) ∧
    Info_SetValueForKey_Big limit s key value = .ok (false, s) := by
  rw [SetValueForKey_Big_eq]
  refine ⟨?_, ?_⟩ <;>
  · unfold Info_SetValueForKey
    simp only []
    rw [if_neg (by omega)]
    by_cases hk : Info_ValidateKeyValue key = false ∨ key = []
    · rw [if_pos hk]
    · rw [if_neg hk]
      have hk1 : valid_kv key := (validate_iff key).mp (by
        cases h : Info_ValidateKeyValue key
        · exact absurd (Or.inl h) hk
        · rfl)
      have hv : Info_ValidateKeyValue value = false := by
        cases h : Info_ValidateKeyValue value
        · rfl
        · have hv1 := (validate_iff value).mp h
          unfold valid_kv at hk1 hv1
          rcases hbad with h0 | h0 | h0
          · exact absurd (Or.inr h0) hk
          · rcases h0 with h0 | h0 | h0
            · exact absurd h0 hk1.1
            · exact absurd h0 hk1.2.1
            · exact absurd h0 hk1.2.2
          · rcases h0 with h0 | h0 | h0
            · exact absurd h0 hv1.1
            · exact absurd h0 hv1.2.1
            · exact absurd h0 hv1.2.2
      rw [if_pos hv]

/-- C5 (witness): key `bad;key`, value `v` on `\a\1`. -/
theorem set_rejects_invalid_witness :
    Info_SetValueForKey 1024 (cstr "\\a\\1") (cstr "bad;key") (cstr "v")
      = .ok (false, cstr "\\a\\1") :=
  (set_rejects_invalid 1024 (cstr "\\a\\1") (cstr "bad;key") (cstr "v") (by decide)
    (Or.inr (Or.inl (Or.inr (Or.inr (by decide)))))).1

/-- C6 (counterexample).  On the empty info string with key `k` and a value of
1023 bytes `v` and the limit 1024, every premise of the claim holds (the buffer
is below the limit, key and value are valid and non-empty, and the length after
removal plus `1 + 1023 + 2` exceeds the limit), but `Info_SetValueForKey` does
not return false: the formatted pair is 1026 bytes long and does not fit
`newi[MAX_INFO_STRING+2]`, so `Com_sprintf` raises `ERR_FATAL`. -/
theorem oversize_pair_is_fatal :
    ([] : List Byte).length < 1024 ∧
    valid_kv (cstr "k") ∧ cstr "k" ≠ [] ∧
    valid_kv (List.replicate 1023 (0x76 : Byte)) ∧ List.replicate 1023 (0x76 : Byte) ≠ [] ∧
    Info_RemoveKey [] (cstr "k") = some (0, []) ∧
    1024 ≤ ([] : List Byte).length + ((cstr "k").length
      + (List.replicate 1023 (0x76 : Byte)).length + 2) ∧
    Info_SetValueForKey 1024 [] (cstr "k") (List.replicate 1023 (0x76 : Byte))
      = .error .ERR_FATAL := by
  have hk : valid_kv (cstr "k") := by unfold valid_kv; decide
  have hv : valid_kv (List.replicate 1023 (0x76 : Byte)) := by
    unfold valid_kv
    simp only [List.mem_replicate, not_and]
    exact ⟨fun _ => by decide, fun _ => by decide, fun _ => by decide⟩
  have hv0 : List.replicate 1023 (0x76 : Byte) ≠ [] := by
    intro h
    have := congrArg List.length h
    simp only [List.length_replicate, List.length_nil] at this
    omega
  have hl : (cstr "k").length = 1 := rfl
  refine ⟨by decide, hk, by decide, hv, hv0, rfl, ?_, ?_⟩
  · simp only [List.length_replicate, List.length_nil, hl]
    omega
  · rw [SetValueForKey_eq 1024 [] _ _ 0 [] (by decide) hk (by decide) hv rfl rfl,
      if_neg hv0, if_pos (by simp only [List.length_replicate, hl]; omega)]

/-- C6 (amended).  For every info string `s` with `length(s) < limit` and every
valid non-empty key and value whose formatted pair fits the scratch buffer
(`length(key) + length(value) < limit`): if the length of `s` after removing the
existing pair for `key`, plus `length(key) + length(value) + 2`, reaches or
exceeds `limit`, then `Info_SetValueForKey` (either tier) returns false and the
buffer is left exactly as `Info_RemoveKey( s, key )` leaves it. -/
theorem set_oversize_fails (limit : Nat) (s key value : List Byte) (n : Nat) (r : List Byte)
    (hlen : s.length < limit) (hk : valid_kv key) (hk0 : key ≠ [])
    (hv : valid_kv value) (hv0 : value ≠ [])
    (hfit : key.length + value.length < limit)
    (hr : Info_RemoveKey s key = some (n, r))
    (hover : limit ≤ r.length + (key.length + value.length + 2)) :
    Info_SetValueForKey limit s key value = .ok (false, r) ∧
    Info_SetValueForKey_Big limit s key value = .ok (false, r) := by
  obtain ⟨n1, r1, hr1, hl⟩ := RemoveKey_total s key
  rw [hr] at hr1
  have e := (Prod.mk.inj (Option.some.inj hr1))
  rw [← e.1, ← e.2] at hl
  rw [SetValueForKey_Big_eq, SetValueForKey_eq limit s key value n r hlen hk hk0 hv hr hl,
    if_neg hv0, if_neg (by omega), if_pos hover]
  exact ⟨rfl, rfl⟩

/-- C6 (witness): with the limit 9, the buffer `\a\1\b\2` and key `a`, value
`234`, removal leaves `\b\2` and `4 + 6` reaches the limit. -/
theorem set_oversize_fails_witness :
    Info_SetValueForKey 9 (cstr "\\a\\1\\b\\2") (cstr "a") (cstr "234")
      = .ok (false, cstr "\\b\\2") :=
  (set_oversize_fails 9 (cstr "\\a\\1\\b\\2") (cstr "a") (cstr "234") 4 (cstr "\\b\\2")
    (by decide) (by unfold valid_kv; decide) (by decide) (by unfold valid_kv; decide)
    (by decide) (by decide) rfl (by decide)).1

/-- C7 (counterexample).  The buffer `\a\1` is shorter than the limit 1024, the key
`name` and the value of 1020 bytes `x` are valid, and `Info_SetValueForKey`
neither returns true nor false: the formatted pair has 1026 bytes and
`Com_sprintf` raises `ERR_FATAL`. -/
theorem set_faults_below_limit :
    (cstr "\\a\\1").length < 1024 ∧
    Info_SetValueForKey 1024 (cstr "\\a\\1") (cstr "name") (List.replicate 1020 (0x78 : Byte))
      = .error .ERR_FATAL := by
  have hk : valid_kv (cstr "name") := by unfold valid_kv; decide
  have hv : valid_kv (List.replicate 1020 (0x78 : Byte)) := by
    unfold valid_kv
    simp only [List.mem_replicate, not_and]
    exact ⟨fun _ => by decide, fun _ => by decide, fun _ => by decide⟩
  have hl : (cstr "name").length = 4 := rfl
  have hr : Info_RemoveKey (cstr "\\a\\1") (cstr "name") = some (0, cstr "\\a\\1") := rfl
  have hv0 : List.replicate 1020 (0x78 : Byte) ≠ [] := by
    intro h
    have := congrArg List.length h
    simp only [List.length_replicate, List.length_nil] at this
    omega
  refine ⟨by decide, ?_⟩
  rw [SetValueForKey_eq 1024 _ _ _ 0 _ (by decide) hk (by decide) hv hr rfl,
    if_neg hv0, if_pos (by simp only [List.length_replicate, hl]; omega)]

/-- C7 (amended).  `Info_SetValueForKey` raises a fault exactly in two cases: the
buffer is `limit` bytes or longer on entry (`ERR_DROP`), or the buffer is
shorter, key and value are valid, the key and the value are non-empty and the
formatted pair `\key\value` does not fit the scratch buffer of `limit + 2`
bytes, that is `length(key) + length(value) >= limit` (`ERR_FATAL`, raised by
`Com_sprintf`).  In every other case (invalid content, and appends that are
oversize only together with the buffer) the call returns true or false. -/
theorem set_fault_iff (limit : Nat) (s key value : List Byte) :
    (limit ≤ s.length → Info_SetValueForKey limit s key value = .error .ERR_DROP) ∧
    (s.length < limit →
      ((valid_kv key ∧ key ≠ [] ∧ valid_kv value ∧ value ≠ [] ∧
          limit ≤ key.length + value.length) →
        Info_SetValueForKey limit s key value = .error .ERR_FATAL) ∧
      (¬ (valid_kv key ∧ key ≠ [] ∧ valid_kv value ∧ value ≠ [] ∧
          limit ≤ key.length + value.length) →
        ∃ b buf, Info_SetValueForKey limit s key value = .ok (b, buf))) := by
  refine ⟨?_, ?_⟩
  · intro h
    unfold Info_SetValueForKey
    simp only []
    rw [if_pos (by omega)]
  · intro hlen
    obtain ⟨n, r, hr, hl⟩ := RemoveKey_total s key
    constructor
    · rintro ⟨hk, hk0, hv, hv0, hbig⟩
      rw [SetValueForKey_eq limit s key value n r hlen hk hk0 hv hr hl, if_neg hv0, if_pos hbig]
    · intro hnot
      by_cases hk : Info_ValidateKeyValue key = false ∨ key = []
      · refine ⟨false, s, ?_⟩
        unfold Info_SetValueForKey
        simp only []
        rw [if_neg (by omega), if_pos hk]
      · by_cases hv : Info_ValidateKeyValue value = false
        · refine ⟨false, s, ?_⟩
          unfold Info_SetValueForKey
          simp only []
          rw [if_neg (by omega), if_neg hk, if_pos hv]
        · have hk1 : valid_kv key := (validate_iff key).mp (by
            cases h : Info_ValidateKeyValue key
            · exact absurd (Or.inl h) hk
            · rfl)
          have hk0 : key ≠ [] := fun h => hk (Or.inr h)
          have hv1 : valid_kv value := (validate_iff value).mp (by
            cases h : Info_ValidateKeyValue value
            · exact absurd h hv
            · rfl)
          rw [SetValueForKey_eq limit s key value n r hlen hk1 hk0 hv1 hr hl]
          by_cases hv0 : value = []
          · exact ⟨true, r, by rw [if_pos hv0]⟩
          · have hfit : ¬ limit ≤ key.length + value.length :=
              fun h => hnot ⟨hk1, hk0, hv1, hv0, h⟩
            rw [if_neg hv0, if_neg hfit]
            by_cases h2 : limit ≤ r.length + (key.length + value.length + 2)
            · exact ⟨false, r, by rw [if_pos h2]⟩
            · exact ⟨true, _, by rw [if_neg h2]⟩

/-- C7 (witness): the three outcomes at the limit 8: an entry fault on the
8-byte buffer `\a\1\b\2`, a formatting fault for key `abcd`, value `1234` on the
empty buffer, and a plain result for key `a`, value `1` on `\a\1`. -/
theorem set_fault_iff_witness :
    Info_SetValueForKey 8 (cstr "\\a\\1\\b\\2") (cstr "a") (cstr "1") = .error .ERR_DROP ∧
    Info_SetValueForKey 8 [] (cstr "abcd") (cstr "1234") = .error .ERR_FATAL ∧
    ∃ b buf, Info_SetValueForKey 8 (cstr "\\a\\1") (cstr "a") (cstr "1") = .ok (b, buf) :=
  ⟨(set_fault_iff 8 (cstr "\\a\\1\\b\\2") (cstr "a") (cstr "1")).1 (by decide),
   ((set_fault_iff 8 [] (cstr "abcd") (cstr "1234")).2 (by decide)).1
      ⟨by unfold valid_kv; decide, by decide, by unfold valid_kv; decide, by decide, by decide⟩,
   ((set_fault_iff 8 (cstr "\\a\\1") (cstr "a") (cstr "1")).2 (by decide)).2
      (fun h => absurd h.2.2.2.2 (by decide))⟩

/-- C8.  For every info string (a concatenation of `\key\value` pairs with
backslash-free keys and values) that contains a pair whose key matches `key`,
`Info_RemoveKey` deletes exactly the span `\k\v` of the first such pair, keeps
the bytes before and after it in their order, and returns the number of bytes
deleted: the length of the result is the length of `s` minus the returned
count, and the count is positive. -/
theorem remove_first_match (key : List Byte) (ps : List (List Byte × List Byte))
    (hclean : pairs_clean ps) (hex : ∃ p ∈ ps, fold_eq p.1 key = true) :
    ∃ (ps0 ps1 : List (List Byte × List Byte)) (k v : List Byte) (n : Nat) (r : List Byte),
      ps = ps0 ++ (k, v) :: ps1 ∧ (∀ q ∈ ps0, fold_eq q.1 key = false) ∧
      fold_eq k key = true ∧
      Info_encode ps = Info_encode ps0 ++ (bs :: k ++ bs :: v) ++ Info_encode ps1 ∧
      Info_RemoveKey (Info_encode ps) key = some (n, r) ∧
      r = Info_encode ps0 ++ Info_encode ps1 ∧
      n = (bs :: k ++ bs :: v).length ∧
      r.length = (Info_encode ps).length - n ∧ 0 < n := by
  obtain ⟨ps0, p, ps1, e, hp, h0⟩ := first_match_split (fun p => fold_eq p.1 key) ps hex
  subst e
  have hpc := hclean p (by simp)
  have hc0 : pairs_clean ps0 := fun q hq => hclean q (by simp [hq])
  have henc : Info_encode (ps0 ++ p :: ps1)
      = Info_encode ps0 ++ (fmt_pair p.1 p.2 ++ Info_encode ps1) := by
    simp [encode_append, Info_encode]
  have hit := RemoveKey_loop_hit key p.1 p.2 (Info_encode ps1) hpc.1 hpc.2 hp (encode_head ps1)
    ps0 hc0 h0 [] _ (Nat.lt_succ_self _)
  refine ⟨ps0, ps1, p.1, p.2, p.1.length + p.2.length + 2,
    Info_encode ps0 ++ Info_encode ps1, rfl, h0, hp, ?_, ?_, rfl, ?_, ?_, by omega⟩
  · rw [henc]
    simp [fmt_pair]
  · unfold Info_RemoveKey
    rw [henc]
    simpa using hit
  · simp
    omega
  · rw [henc]
    simp only [List.length_append, fmt_pair_length]
    omega

/-- C8 (witness): removing `B` from `\a\1\b\22\c\3` deletes the five bytes
`\b\22` and leaves `\a\1\c\3`. -/
theorem remove_first_match_witness :
    ∃ (ps0 ps1 : List (List Byte × List Byte)) (k v : List Byte) (n : Nat) (r : List Byte),
      [(cstr "a", cstr "1"), (cstr "b", cstr "22"), (cstr "c", cstr "3")]
        = ps0 ++ (k, v) :: ps1 ∧ (∀ q ∈ ps0, fold_eq q.1 (cstr "B") = false) ∧
      fold_eq k (cstr "B") = true ∧
      Info_encode [(cstr "a", cstr "1"), (cstr "b", cstr "22"), (cstr "c", cstr "3")]
        = Info_encode ps0 ++ (bs :: k ++ bs :: v) ++ Info_encode ps1 ∧
      Info_RemoveKey
        (Info_encode [(cstr "a", cstr "1"), (cstr "b", cstr "22"), (cstr "c", cstr "3")])
        (cstr "B") = some (n, r) ∧
      r = Info_encode ps0 ++ Info_encode ps1 ∧
      n = (bs :: k ++ bs :: v).length ∧
      r.length = (Info_encode
        [(cstr "a", cstr "1"), (cstr "b", cstr "22"), (cstr "c", cstr "3")]).length - n ∧
      0 < n :=
  remove_first_match (cstr "B") [(cstr "a", cstr "1"), (cstr "b", cstr "22"), (cstr "c", cstr "3")]
    (by unfold pairs_clean; decide) ⟨(cstr "b", cstr "22"), by decide, by decide⟩

/-- C9.  For every info string `s` and key such that no pair of `s` has a key
matching `key`, `Info_RemoveKey` returns 0 and leaves the buffer
byte-identical. -/
theorem remove_absent (s key : List Byte)
    (h : ∀ p ∈ Info_pairs s, fold_eq p.1 key = false) :
    Info_RemoveKey s key = some (0, s) :=
  RemoveKey_loop_absent s key _ s (Nat.lt_succ_self _) h

/-- C9 (witness): `c` is absent from `\a\1\b\2`. -/
theorem remove_absent_witness :
    Info_RemoveKey (cstr "\\a\\1\\b\\2") (cstr "c") = some (0, cstr "\\a\\1\\b\\2") :=
  remove_absent (cstr "\\a\\1\\b\\2") (cstr "c") (by decide)

/-- C10.  For every list of pairs with non-empty keys and with keys and values
free of backslashes, the successive calls of `Info_NextPair` from the beginning
of `\k1\v1...\kn\vn` return the `n` pairs, each once and in that order, none of
these steps leaves an empty key, and step `n + 1` (as every later step) leaves an
empty key and an empty value: the walk ends there. -/
theorem next_pair_walk (ps : List (List Byte × List Byte)) (hclean : pairs_clean ps)
    (hkeys : ∀ p ∈ ps, p.1 ≠ []) :
    (next_pairs ps.length (Info_encode ps)).map (fun t => (t.1, t.2.1)) = ps ∧
    (∀ t ∈ next_pairs ps.length (Info_encode ps), t.1 ≠ []) ∧
    (next_pairs (ps.length + 1) (Info_encode ps)).map (fun t => (t.1, t.2.1))
      = ps ++ [([], [])] ∧
    ∀ (m : Nat), (next_pairs (ps.length + m) (Info_encode ps)).map (fun t => (t.1, t.2.1))
      = ps ++ List.replicate m ([], []) := by
  have h0 := next_pairs_encode ps hclean 0
  simp only [Nat.add_zero, List.replicate_zero, List.append_nil] at h0
  refine ⟨h0, ?_, next_pairs_encode ps hclean 1, next_pairs_encode ps hclean⟩
  intro t ht
  have hm : (t.1, t.2.1) ∈ (next_pairs ps.length (Info_encode ps)).map (fun t => (t.1, t.2.1)) :=
    List.mem_map.mpr ⟨t, ht, rfl⟩
  rw [h0] at hm
  exact hkeys _ hm

/-- C10 (witness): the walk over `\name\Dave\score\10`. -/
theorem next_pair_walk_witness :
    (next_pairs 3 (cstr "\\name\\Dave\\score\\10")).map (fun t => (t.1, t.2.1))
      = [(cstr "name", cstr "Dave"), (cstr "score", cstr "10"), ([], [])] :=
  (next_pair_walk [(cstr "name", cstr "Dave"), (cstr "score", cstr "10")]
    (by unfold pairs_clean; decide) (by decide)).2.2.1

/-! ## `COM_Compress` -/

theorem skip_line_length (s : List Byte) : (skip_line s).length ≤ s.length := by
  induction s with
  | nil => simp [skip_line]
  | cons c s ih =>
    by_cases h : c = nl
    · simp [skip_line, h]
    · simp only [skip_line, if_neg h, List.length_cons]
      omega

theorem scan_block_end_length (s : List Byte) : (scan_block_end s).length ≤ s.length := by
  induction s with
  | nil => simp [scan_block_end]
  | cons c s ih =>
    by_cases h : c = star ∧ s.head? = some slash
    · simp [scan_block_end, h]
    · simp only [scan_block_end, if_neg h, List.length_cons]
      omega

theorem copy_quoted_append (s : List Byte) : (copy_quoted s).1 ++ (copy_quoted s).2 = s := by
  induction s with
  | nil => rfl
  | cons c s ih =>
    by_cases h : c = dquote
    · simp [copy_quoted, h]
    · simp [copy_quoted, h, ih]

theorem copy_quoted_length (s : List Byte) : (copy_quoted s).2.length ≤ s.length := by
  have h := congrArg List.length (copy_quoted_append s)
  simp only [List.length_append] at h
  omega

theorem slash_ne_nl : slash ≠ nl := by decide
theorem slash_ne_star : slash ≠ star := by decide

theorem body_inp_length (c : Byte) (rest : List Byte) (n w : Bool) :
    (COM_Compress_body c rest n w).inp.length ≤ rest.length := by
  unfold COM_Compress_body
  by_cases h1 : c = slash ∧ rest.head? = some slash
  · rw [if_pos h1]
    simp only [skip_line, h1.1, if_neg slash_ne_nl]
    exact skip_line_length rest
  · rw [if_neg h1]
    by_cases h2 : c = slash ∧ rest.head? = some star
    · rw [if_pos h2]
      have hs : ¬ (slash = star ∧ rest.head? = some slash) := fun h => slash_ne_star h.1
      simp only [scan_block_end, h2.1, if_neg hs, List.length_drop]
      have := scan_block_end_length rest
      omega
    · rw [if_neg h2]
      by_cases h3 : c = nl ∨ c = cr
      · rw [if_pos h3]
      · rw [if_neg h3]
        by_cases h4 : c = sp ∨ c = tab
        · rw [if_pos h4]
        · rw [if_neg h4]
          by_cases h5 : c = dquote
          · simp only [if_pos h5]
            have := copy_quoted_length rest
            cases hq : (copy_quoted rest).2 with
            | nil => simp
            | cons q r =>
              rw [hq] at this
              simp only [List.length_cons] at this ⊢
              omega
          · simp only [if_neg h5]
            exact le_refl _

theorem Compress_loop_total :
    ∀ (m : Nat) (inp : List Byte) (n w : Bool), inp.length ≤ m →
      ∃ r, ∀ (fuel : Nat) (out : List Byte), inp.length < fuel →
        COM_Compress_loop fuel inp out n w = some (out ++ r) := by
  intro m
  induction m with
  | zero =>
    intro inp n w h
    have : inp = [] := List.length_eq_zero.mp (by omega)
    subst this
    refine ⟨[], ?_⟩
    intro fuel out hf
    cases fuel with
    | zero => simp at hf
    | succ fuel => simp [COM_Compress_loop]
  | succ m ih =>
    intro inp n w h
    cases inp with
    | nil =>
      refine ⟨[], ?_⟩
      intro fuel out hf
      cases fuel with
      | zero => simp at hf
      | succ fuel => simp [COM_Compress_loop]
    | cons c rest =>
      have hb := body_inp_length c rest n w
      simp only [List.length_cons] at h
      obtain ⟨r, hr⟩ := ih (COM_Compress_body c rest n w).inp
        (COM_Compress_body c rest n w).newline (COM_Compress_body c rest n w).whitespace
        (by omega)
      refine ⟨(COM_Compress_body c rest n w).emit ++ r, ?_⟩
      intro fuel out hf
      cases fuel with
      | zero => simp at hf
      | succ fuel =>
        simp only [List.length_cons] at hf
        simp only [COM_Compress_loop]
        rw [hr fuel _ (by omega), List.append_assoc]

/-- With enough fuel the main loop returns, and what it writes is
`compress_from`. -/
theorem Compress_loop_eq (fuel : Nat) (inp out : List Byte) (n w : Bool)
    (hf : inp.length < fuel) :
    COM_Compress_loop fuel inp out n w = some (out ++ compress_from n w inp) := by
  obtain ⟨r, hr⟩ := Compress_loop_total inp.length inp n w (le_refl _)
  have h1 := hr (inp.length + 1) [] (Nat.lt_succ_self _)
  have h2 : compress_from n w inp = r := by
    unfold compress_from
    rw [h1]
    simp
  rw [h2]
  exact hr fuel out hf

theorem Compress_eq (s : List Byte) :
    COM_Compress s = some ((compress_from false false s).length, compress_from false false s) := by
  unfold COM_Compress
  rw [Compress_loop_eq _ s [] false false (Nat.lt_succ_self _)]
  simp

theorem compress_from_nil (n w : Bool) : compress_from n w [] = [] := rfl

theorem compress_from_cons (n w : Bool) (c : Byte) (rest : List Byte) :
    compress_from n w (c :: rest) =
      (COM_Compress_body c rest n w).emit ++
        compress_from (COM_Compress_body c rest n w).newline
          (COM_Compress_body c rest n w).whitespace (COM_Compress_body c rest n w).inp := by
  have hb := body_inp_length c rest n w
  have h1 : compress_from n w (c :: rest)
      = (COM_Compress_loop ((c :: rest).length + 1) (c :: rest) [] n w).getD [] := rfl
  rw [h1]
  simp only [COM_Compress_loop, List.nil_append]
  rw [Compress_loop_eq _ _ _ _ _ (by simp only [List.length_cons]; omega)]
  simp

theorem blank_cases (c : Byte) (h : is_blank c = true) :
    (c = nl ∨ c = cr) ∨ (c = sp ∨ c = tab) := by
  unfold is_blank at h
  simp only [decide_eq_true_eq] at h
  rcases h with h | h | h | h
  · exact Or.inl (Or.inl h)
  · exact Or.inl (Or.inr h)
  · exact Or.inr (Or.inl h)
  · exact Or.inr (Or.inr h)

theorem blank_ne_slash (c : Byte) (h : is_blank c = true) : c ≠ slash := by
  rcases blank_cases c h with (h | h) | (h | h) <;> subst h <;> decide

theorem blank_ne_dquote (c : Byte) (h : is_blank c = true) : c ≠ dquote := by
  rcases blank_cases c h with (h | h) | (h | h) <;> subst h <;> decide

theorem not_blank (c : Byte) (h : is_blank c = false) :
    ¬ (c = nl ∨ c = cr) ∧ ¬ (c = sp ∨ c = tab) := by
  unfold is_blank at h
  simp only [decide_eq_false_iff_not, not_or] at h
  exact ⟨fun e => e.elim h.1 h.2.1, fun e => e.elim h.2.2.1 h.2.2.2⟩

/-- A whitespace byte only sets a flag. -/
theorem compress_from_blank (n w : Bool) (c : Byte) (rest : List Byte)
    (h : is_blank c = true) :
    compress_from n w (c :: rest) = compress_from (n || is_break c) (w || !is_break c) rest := by
  have hs := blank_ne_slash c h
  rw [compress_from_cons]
  unfold COM_Compress_body
  rw [if_neg (fun e => hs e.1), if_neg (fun e => hs e.1)]
  by_cases h3 : c = nl ∨ c = cr
  · have hb : is_break c = true := by simp [is_break, h3]
    rw [if_pos h3, hb]
    simp
  · have hb : is_break c = false := by simp [is_break, h3]
    have h4 : c = sp ∨ c = tab := (blank_cases c h).resolve_left h3
    rw [if_neg h3, if_pos h4, hb]
    simp

/-- A byte that is neither whitespace, nor a quote, nor the start of a comment
is copied after the pending separator. -/
theorem compress_from_plain (n w : Bool) (c : Byte) (rest : List Byte)
    (hb : is_blank c = false) (hq : c ≠ dquote)
    (hc : ¬ (c = slash ∧ (rest.head? = some slash ∨ rest.head? = some star))) :
    compress_from n w (c :: rest) = pending_sep n w ++ c :: compress_from false false rest := by
  rw [compress_from_cons]
  unfold COM_Compress_body
  rw [if_neg (fun e => hc ⟨e.1, Or.inl e.2⟩), if_neg (fun e => hc ⟨e.1, Or.inr e.2⟩),
    if_neg (not_blank c hb).1, if_neg (not_blank c hb).2]
  simp only [if_neg hq, pending_sep]
  simp

theorem dquote_ne_slash : dquote ≠ slash := by decide

theorem dquote_not_blank : is_blank dquote = false := by decide

/-- A quoted section is copied whole, after the pending separator. -/
theorem compress_from_quote (n w : Bool) (rest : List Byte) :
    compress_from n w (dquote :: rest) =
      pending_sep n w ++ dquote :: ((copy_quoted rest).1 ++
        match (copy_quoted rest).2 with
        | [] => []
        | q :: r => q :: compress_from false false r) := by
  rw [compress_from_cons]
  unfold COM_Compress_body
  rw [if_neg (fun e => dquote_ne_slash e.1), if_neg (fun e => dquote_ne_slash e.1),
    if_neg (not_blank dquote dquote_not_blank).1, if_neg (not_blank dquote dquote_not_blank).2]
  simp only [if_pos rfl, pending_sep]
  cases hq : (copy_quoted rest).2 with
  | nil => simp [compress_from_nil]
  | cons q r => simp

theorem copy_quoted_closed (q r : List Byte) (h : dquote ∉ q) :
    copy_quoted (q ++ dquote :: r) = (q, dquote :: r) := by
  induction q with
  | nil => simp [copy_quoted]
  | cons c q ih =>
    simp only [List.mem_cons, not_or] at h
    have hc : c ≠ dquote := fun e => h.1 e.symm
    simp [copy_quoted, hc, ih h.2]

theorem copy_quoted_open (q : List Byte) (h : dquote ∉ q) : copy_quoted q = (q, []) := by
  induction q with
  | nil => rfl
  | cons c q ih =>
    simp only [List.mem_cons, not_or] at h
    have hc : c ≠ dquote := fun e => h.1 e.symm
    simp [copy_quoted, hc, ih h.2]

theorem compress_from_line_comment (n w : Bool) (rest : List Byte) :
    compress_from n w (slash :: slash :: rest) = compress_from n w (skip_line rest) := by
  rw [compress_from_cons]
  unfold COM_Compress_body
  rw [if_pos ⟨rfl, rfl⟩]
  simp [skip_line, slash_ne_nl]

theorem compress_from_block_comment (n w : Bool) (rest : List Byte) :
    compress_from n w (slash :: star :: rest)
      = compress_from n w ((scan_block_end (star :: rest)).drop 2) := by
  rw [compress_from_cons]
  unfold COM_Compress_body
  have h1 : ¬ (slash = slash ∧ (star :: rest).head? = some slash) := by
    intro h
    have := h.2
    simp only [List.head?_cons, Option.some.injEq] at this
    exact slash_ne_star this.symm
  rw [if_neg h1, if_pos ⟨rfl, rfl⟩]
  have h2 : scan_block_end (slash :: star :: rest) = scan_block_end (star :: rest) := by
    rw [scan_block_end]
    rw [if_neg (fun h => slash_ne_star h.1)]
  simp [h2]

/-! ### Whitespace runs and words -/

theorem compress_from_run (r : List Byte) (hr : blank_run r) :
    ∀ (n w : Bool) (rest : List Byte),
      compress_from n w (r ++ rest)
        = compress_from (n || r.any is_break) (w || r.any (fun c => !is_break c)) rest := by
  induction r with
  | nil => intro n w rest; simp
  | cons c r ih =>
    intro n w rest
    have hc := hr c (List.mem_cons_self _ _)
    rw [List.cons_append, compress_from_blank n w c _ hc,
      ih (fun d hd => hr d (List.mem_cons_of_mem _ hd))]
    simp [Bool.or_assoc]

theorem compress_from_trailing (r : List Byte) (hr : blank_run r) (n w : Bool) :
    compress_from n w r = [] := by
  have := compress_from_run r hr n w []
  simp only [List.append_nil] at this
  rw [this, compress_from_nil]

theorem pending_sep_run (r : List Byte) (hr : blank_run r) :
    pending_sep (false || r.any is_break) (false || r.any (fun c => !is_break c)) = run_sep r := by
  unfold pending_sep run_sep
  cases r with
  | nil => simp
  | cons c r =>
    simp only [Bool.false_or, reduceCtorEq, if_false]
    by_cases h : (c :: r).any is_break = true
    · simp [h]
    · simp only [h, if_false, Bool.false_eq_true]
      have : (c :: r).any (fun c => !is_break c) = true := by
        simp only [List.any_cons, Bool.or_eq_true, Bool.not_eq_true'] at h ⊢
        simp only [not_or] at h
        left
        simpa using h.1
      simp [this]

theorem compress_from_word (w : List Byte)
    (hw : ∀ c ∈ w, is_blank c = false ∧ c ≠ slash ∧ c ≠ dquote) (rest : List Byte) :
    compress_from false false (w ++ rest) = w ++ compress_from false false rest := by
  induction w with
  | nil => simp
  | cons c w ih =>
    have hc := hw c (List.mem_cons_self _ _)
    rw [List.cons_append, compress_from_plain false false c _ hc.1 hc.2.2 (fun e => hc.2.1 e.1),
      ih (fun d hd => hw d (List.mem_cons_of_mem _ hd))]
    simp [pending_sep]

theorem compress_from_segment (r w rest : List Byte) (hr : blank_run r) (hw : plain_word w) :
    compress_from false false (r ++ w ++ rest)
      = run_sep r ++ w ++ compress_from false false rest := by
  obtain ⟨hne, hall⟩ := hw
  cases w with
  | nil => exact absurd rfl hne
  | cons c w =>
    have hc := hall c (List.mem_cons_self _ _)
    rw [List.append_assoc, compress_from_run r hr, List.cons_append,
      compress_from_plain _ _ c _ hc.1 hc.2.2 (fun e => hc.2.1 e.1), pending_sep_run r hr,
      compress_from_word w (fun d hd => hall d (List.mem_cons_of_mem _ hd))]
    simp

theorem compress_from_join (segs : List (List Byte × List Byte)) (tail : List Byte)
    (htail : blank_run tail) (hsegs : ∀ p ∈ segs, blank_run p.1 ∧ plain_word p.2) :
    compress_from false false (join_runs segs ++ tail) = join_collapsed segs := by
  induction segs with
  | nil => simpa [join_runs, join_collapsed] using compress_from_trailing tail htail false false
  | cons p segs ih =>
    have hp := hsegs p (List.mem_cons_self _ _)
    simp only [join_runs, join_collapsed]
    rw [List.append_assoc, compress_from_segment p.1 p.2 _ hp.1 hp.2,
      ih (fun q hq => hsegs q (List.mem_cons_of_mem _ hq))]

/-- Every text without quotes and slashes is made of whitespace runs and
words, the runs between two words being non-empty. -/
theorem runs_and_words (s : List Byte) (hq : dquote ∉ s) (hs : slash ∉ s) :
    ∃ (segs : List (List Byte × List Byte)) (tail : List Byte),
      s = join_runs segs ++ tail ∧ blank_run tail ∧
      (∀ p ∈ segs, blank_run p.1 ∧ plain_word p.2) ∧ (∀ p ∈ segs.tail, p.1 ≠ []) := by
  induction s with
  | nil => exact ⟨[], [], rfl, by simp [blank_run], by simp, by simp⟩
  | cons c s ih =>
    simp only [List.mem_cons, not_or] at hq hs
    obtain ⟨segs, tail, e, htail, hsegs, hmax⟩ := ih hq.2 hs.2
    by_cases hb : is_blank c = true
    · cases segs with
      | nil =>
        refine ⟨[], c :: tail, by simp [e, join_runs], ?_, by simp, by simp⟩
        intro d hd
        rcases List.mem_cons.mp hd with h | h
        · rw [h]; exact hb
        · exact htail d h
      | cons p segs =>
        have hp := hsegs p (List.mem_cons_self _ _)
        refine ⟨(c :: p.1, p.2) :: segs, tail, by simp [e, join_runs], htail, ?_, hmax⟩
        intro q hq2
        rcases List.mem_cons.mp hq2 with h | h
        · subst h
          refine ⟨?_, hp.2⟩
          intro d hd
          rcases List.mem_cons.mp hd with h | h
          · rw [h]; exact hb
          · exact hp.1 d h
        · exact hsegs q (List.mem_cons_of_mem _ h)
    · have hb2 : is_blank c = false := by simpa using hb
      have hcw : is_blank c = false ∧ c ≠ slash ∧ c ≠ dquote :=
        ⟨hb2, fun e => hs.1 e.symm, fun e => hq.1 e.symm⟩
      cases segs with
      | nil =>
        refine ⟨[([], [c])], tail, by simp [e, join_runs], htail, ?_, by simp⟩
        intro q hq2
        simp only [List.mem_singleton] at hq2
        subst hq2
        refine ⟨by simp [blank_run], by simp, ?_⟩
        intro d hd
        simp only [List.mem_singleton] at hd
        subst hd
        exact hcw
      | cons p segs =>
        have hp := hsegs p (List.mem_cons_self _ _)
        by_cases hr : p.1 = []
        · refine ⟨([], c :: p.2) :: segs, tail, by simp [e, join_runs, hr], htail, ?_, hmax⟩
          intro q hq2
          rcases List.mem_cons.mp hq2 with h | h
          · subst h
            refine ⟨by simp [blank_run], by simp, ?_⟩
            intro d hd
            rcases List.mem_cons.mp hd with h | h
            · subst h; exact hcw
            · exact hp.2.2 d h
          · exact hsegs q (List.mem_cons_of_mem _ h)
        · refine ⟨([], [c]) :: p :: segs, tail, by simp [e, join_runs], htail, ?_, ?_⟩
          · intro q hq2
            rcases List.mem_cons.mp hq2 with h | h
            · subst h
              refine ⟨by simp [blank_run], by simp, ?_⟩
              intro d hd
              simp only [List.mem_singleton] at hd
              subst hd
              exact hcw
            · exact hsegs q h
          · intro q hq2
            simp only [List.tail_cons] at hq2 hmax
            rcases List.mem_cons.mp hq2 with h | h
            · subst h; exact hr
            · exact hmax q h

/-! ### Idempotence -/

theorem byte_cases (c : Byte) (rest : List Byte) :
    (c = slash ∧ ∃ r, rest = slash :: r) ∨ (c = slash ∧ ∃ r, rest = star :: r) ∨
    is_blank c = true ∨ c = dquote ∨
    (is_blank c = false ∧ c ≠ dquote ∧
      ¬ (c = slash ∧ (rest.head? = some slash ∨ rest.head? = some star))) := by
  by_cases h1 : c = slash ∧ rest.head? = some slash
  · left
    refine ⟨h1.1, ?_⟩
    cases rest with
    | nil => simp at h1
    | cons d r =>
      have := h1.2
      simp only [List.head?_cons, Option.some.injEq] at this
      exact ⟨r, by rw [this]⟩
  · by_cases h2 : c = slash ∧ rest.head? = some star
    · right; left
      refine ⟨h2.1, ?_⟩
      cases rest with
      | nil => simp at h2
      | cons d r =>
        have := h2.2
        simp only [List.head?_cons, Option.some.injEq] at this
        exact ⟨r, by rw [this]⟩
    · by_cases h3 : is_blank c = true
      · exact Or.inr (Or.inr (Or.inl h3))
      · by_cases h4 : c = dquote
        · exact Or.inr (Or.inr (Or.inr (Or.inl h4)))
        · refine Or.inr (Or.inr (Or.inr (Or.inr ⟨by simpa using h3, h4, ?_⟩)))
          rintro ⟨e, h | h⟩
          · exact h1 ⟨e, h⟩
          · exact h2 ⟨e, h⟩

theorem block_rest_length (r : List Byte) :
    ((scan_block_end (star :: r)).drop 2).length ≤ r.length := by
  have := scan_block_end_length (star :: r)
  simp only [List.length_drop, List.length_cons] at this ⊢
  omega

theorem copy_quoted_no_quote (s : List Byte) : dquote ∉ (copy_quoted s).1 := by
  induction s with
  | nil => simp [copy_quoted]
  | cons c s ih =>
    by_cases h : c = dquote
    · simp [copy_quoted, h]
    · simp only [copy_quoted, if_neg h, List.mem_cons, not_or]
      exact ⟨fun e => h e.symm, ih⟩

theorem copy_quoted_stop (s : List Byte) :
    (copy_quoted s).2 = [] ∨ ∃ r, (copy_quoted s).2 = dquote :: r := by
  induction s with
  | nil => left; rfl
  | cons c s ih =>
    by_cases h : c = dquote
    · right; exact ⟨s, by simp [copy_quoted, h]⟩
    · simpa [copy_quoted, h] using ih

theorem pending_sep_head (n w : Bool) (h : n = true ∨ w = true) (t : List Byte) :
    (pending_sep n w ++ t).head? = some nl ∨ (pending_sep n w ++ t).head? = some sp := by
  cases n <;> cases w <;> simp [pending_sep] at h ⊢

/-- With a flag set, what the loop writes starts with a separator. -/
theorem compress_from_head_flag :
    ∀ (m : Nat) (s : List Byte) (n w : Bool), s.length ≤ m → (n = true ∨ w = true) →
      compress_from n w s = [] ∨ (compress_from n w s).head? = some nl ∨
        (compress_from n w s).head? = some sp := by
  intro m
  induction m with
  | zero =>
    intro s n w h _
    have : s = [] := List.length_eq_zero.mp (by omega)
    subst this
    exact Or.inl rfl
  | succ m ih =>
    intro s n w hlen hf
    cases s with
    | nil => exact Or.inl rfl
    | cons c rest =>
      simp only [List.length_cons] at hlen
      rcases byte_cases c rest with ⟨hc, r, hr⟩ | ⟨hc, r, hr⟩ | hb | hq | ⟨hb, hq, hc⟩
      · subst hc; subst hr
        rw [compress_from_line_comment]
        have := skip_line_length r
        simp only [List.length_cons] at hlen
        exact ih _ n w (by omega) hf
      · subst hc; subst hr
        rw [compress_from_block_comment]
        have := block_rest_length r
        simp only [List.length_cons] at hlen
        exact ih _ n w (by omega) hf
      · rw [compress_from_blank n w c rest hb]
        apply ih rest _ _ (by omega)
        rcases hf with h | h
        · left; simp [h]
        · right; simp [h]
      · subst hq
        rw [compress_from_quote]
        exact Or.inr (pending_sep_head n w hf _)
      · rw [compress_from_plain n w c rest hb hq hc]
        exact Or.inr (pending_sep_head n w hf _)

theorem nl_ne_slash : nl ≠ slash := by decide
theorem nl_ne_star : nl ≠ star := by decide
theorem sp_ne_slash : sp ≠ slash := by decide
theorem sp_ne_star : sp ≠ star := by decide
theorem dquote_ne_star : dquote ≠ star := by decide

/-- What the loop writes does not start with `/` or `*` unless the input
does. -/
theorem compress_from_head (s : List Byte)
    (h : s.head? ≠ some slash ∧ s.head? ≠ some star) :
    (compress_from false false s).head? ≠ some slash ∧
      (compress_from false false s).head? ≠ some star := by
  cases s with
  | nil => simp [compress_from_nil]
  | cons c rest =>
    simp only [List.head?_cons, ne_eq, Option.some.injEq] at h
    rcases byte_cases c rest with ⟨hc, _⟩ | ⟨hc, _⟩ | hb | hq | ⟨hb, hq, hc⟩
    · exact absurd hc h.1
    · exact absurd hc h.1
    · rw [compress_from_blank false false c rest hb]
      have hf : (false || is_break c) = true ∨ (false || !is_break c) = true := by
        cases is_break c <;> simp
      rcases compress_from_head_flag rest.length rest _ _ (le_refl _) hf with e | e | e
      · rw [e]; simp
      · rw [e]
        simp only [ne_eq, Option.some.injEq]
        exact ⟨nl_ne_slash, nl_ne_star⟩
      · rw [e]
        simp only [ne_eq, Option.some.injEq]
        exact ⟨sp_ne_slash, sp_ne_star⟩
    · subst hq
      rw [compress_from_quote]
      simp only [pending_sep, Bool.false_eq_true, if_false, List.nil_append, List.head?_cons,
        ne_eq, Option.some.injEq]
      exact ⟨dquote_ne_slash, dquote_ne_star⟩
    · rw [compress_from_plain false false c rest hb hq hc]
      simp only [pending_sep, Bool.false_eq_true, if_false, List.nil_append, List.head?_cons,
        ne_eq, Option.some.injEq]
      exact h

theorem compress_from_pending (n w : Bool) (t : List Byte) :
    compress_from false false (pending_sep n w ++ t) = compress_from n (!n && w) t := by
  have h1 : is_blank nl = true := by decide
  have h2 : is_blank sp = true := by decide
  have h3 : is_break nl = true := by decide
  have h4 : is_break sp = false := by decide
  cases n <;> cases w
  · simp [pending_sep]
  · simp only [pending_sep, Bool.false_eq_true, if_false, if_true, List.singleton_append]
    rw [compress_from_blank false false sp t h2, h4]
    rfl
  · simp only [pending_sep, if_true, List.singleton_append]
    rw [compress_from_blank false false nl t h1, h3]
    rfl
  · simp only [pending_sep, if_true, List.singleton_append]
    rw [compress_from_blank false false nl t h1, h3]
    rfl

theorem pending_sep_norm (n w : Bool) : pending_sep n (!n && w) = pending_sep n w := by
  cases n <;> cases w <;> rfl

theorem compress_from_idem :
    ∀ (m : Nat) (s : List Byte) (n w : Bool), s.length ≤ m →
      compress_from false false (compress_from n w s) = compress_from n w s := by
  intro m
  induction m with
  | zero =>
    intro s n w h
    have : s = [] := List.length_eq_zero.mp (by omega)
    subst this
    rfl
  | succ m ih =>
    intro s n w hlen
    cases s with
    | nil => rfl
    | cons c rest =>
      simp only [List.length_cons] at hlen
      rcases byte_cases c rest with ⟨hc, r, hr⟩ | ⟨hc, r, hr⟩ | hb | hq | ⟨hb, hq, hc⟩
      · subst hc; subst hr
        rw [compress_from_line_comment]
        have := skip_line_length r
        simp only [List.length_cons] at hlen
        exact ih _ n w (by omega)
      · subst hc; subst hr
        rw [compress_from_block_comment]
        have := block_rest_length r
        simp only [List.length_cons] at hlen
        exact ih _ n w (by omega)
      · rw [compress_from_blank n w c rest hb]
        exact ih rest _ _ (by omega)
      · subst hq
        rw [compress_from_quote, compress_from_pending, compress_from_quote, pending_sep_norm]
        have hnq := copy_quoted_no_quote rest
        have hcl := copy_quoted_length rest
        rcases copy_quoted_stop rest with e | ⟨r, e⟩
        · rw [e]
          simp only [List.append_nil]
          rw [copy_quoted_open _ hnq]
          simp
        · rw [e]
          simp only []
          rw [copy_quoted_closed _ _ hnq]
          simp only []
          rw [e] at hcl
          simp only [List.length_cons] at hcl
          rw [ih r false false (by omega)]
      · rw [compress_from_plain n w c rest hb hq hc, compress_from_pending]
        have hc2 : ¬ (c = slash ∧ ((compress_from false false rest).head? = some slash ∨
            (compress_from false false rest).head? = some star)) := by
          rintro ⟨e, h⟩
          have hr : rest.head? ≠ some slash ∧ rest.head? ≠ some star :=
            ⟨fun h1 => hc ⟨e, Or.inl h1⟩, fun h1 => hc ⟨e, Or.inr h1⟩⟩
          have := compress_from_head rest hr
          rcases h with h | h
          · exact this.1 h
          · exact this.2 h
        rw [compress_from_plain _ _ c _ hb hq hc2, pending_sep_norm, ih rest false false (by omega)]

/-- C11.  `COM_Compress` is idempotent: it returns on every text, and on the
text it leaves it returns the same length and leaves the same text. -/
theorem compress_idempotent (s : List Byte) :
    ∃ (k : Nat) (t : List Byte), COM_Compress s = some (k, t) ∧ COM_Compress t = some (k, t) := by
  refine ⟨_, _, Compress_eq s, ?_⟩
  rw [Compress_eq, compress_from_idem _ s false false (le_refl _)]

theorem run_sep_no_cr (r : List Byte) (h : cr ∉ r) : run_sep r = run_sep_lf r := by
  have hany : r.any is_break = true ↔ nl ∈ r := by
    simp only [List.any_eq_true, is_break, decide_eq_true_eq]
    constructor
    · rintro ⟨x, hx, e | e⟩
      · rw [← e]; exact hx
      · exact absurd (e ▸ hx) h
    · intro hn
      exact ⟨nl, hn, Or.inl rfl⟩
  unfold run_sep run_sep_lf
  by_cases h0 : r = []
  · rw [if_pos h0, if_pos h0]
  · rw [if_neg h0, if_neg h0]
    by_cases hn : nl ∈ r
    · rw [if_pos (hany.mpr hn), if_pos hn]
    · rw [if_neg (fun e => hn (hany.mp e)), if_neg hn]

/-- C12 (counterexample).  `COM_Compress` turns `a`, carriage return, `b` into `a`,
line feed, `b`.  The carriage return is whitespace of the compressor and the
run it makes holds no `\n`, so by the words of the claim the run would become
a single space; and the result is not the input either, so the byte is not
copied unchanged. -/
theorem compress_cr_to_newline :
    COM_Compress (cstr "a\rb") = some (3, cstr "a\nb") ∧
    is_blank cr = true ∧ nl ∉ cstr "\r" ∧
    run_sep_lf (cstr "\r") = cstr " " ∧
    cstr "a\nb" ≠ cstr "a" ++ run_sep_lf (cstr "\r") ++ cstr "b" ∧
    cstr "a\nb" ≠ cstr "a\rb" := by
  refine ⟨rfl, by decide, by decide, by decide, by decide, by decide⟩

/-- C12 (amended).  Every text without double quotes and without `/` bytes is a
sequence of whitespace runs (space, tab, line feed, carriage return), each
followed by a non-empty word, and a last whitespace run; the runs between two
words are not empty, so runs and words are maximal.  `COM_Compress` replaces
each run that is followed by a word by a single newline (`\n`) if the run
contains a line feed or a carriage return and by a single space otherwise,
drops the last run, copies the words unchanged and returns the length of the
result.  E.g. `a   b\n\nc` becomes `a b\nc`.  A run without a carriage return
becomes what the claim said: a newline if it contains a `\n`, a space
otherwise. -/
theorem compress_collapses_runs :
    (∀ (s : List Byte), dquote ∉ s → slash ∉ s →
      ∃ (segs : List (List Byte × List Byte)) (tail : List Byte),
        s = join_runs segs ++ tail ∧ blank_run tail ∧
        (∀ p ∈ segs, blank_run p.1 ∧ plain_word p.2) ∧ (∀ p ∈ segs.tail, p.1 ≠ []) ∧
        COM_Compress s = some ((join_collapsed segs).length, join_collapsed segs)) ∧
    (∀ (segs : List (List Byte × List Byte)) (tail : List Byte), blank_run tail →
      (∀ p ∈ segs, blank_run p.1 ∧ plain_word p.2) →
      COM_Compress (join_runs segs ++ tail)
        = some ((join_collapsed segs).length, join_collapsed segs)) ∧
    COM_Compress (cstr "a   b\n\nc") = some (5, cstr "a b\nc") ∧
    (∀ (r : List Byte), cr ∉ r → run_sep r = run_sep_lf r) := by
  have h2 : ∀ (segs : List (List Byte × List Byte)) (tail : List Byte), blank_run tail →
      (∀ p ∈ segs, blank_run p.1 ∧ plain_word p.2) →
      COM_Compress (join_runs segs ++ tail)
        = some ((join_collapsed segs).length, join_collapsed segs) := by
    intro segs tail htail hsegs
    rw [Compress_eq, compress_from_join segs tail htail hsegs]
  refine ⟨?_, h2, rfl, run_sep_no_cr⟩
  intro s hq hs
  obtain ⟨segs, tail, e, htail, hsegs, hmax⟩ := runs_and_words s hq hs
  refine ⟨segs, tail, e, htail, hsegs, hmax, ?_⟩
  rw [e]
  exact h2 segs tail htail hsegs

/-- C12 (witness): `a   b\n\nc` as the words `a`, `b`, `c` after the runs ``,
three spaces, two line feeds. -/
theorem compress_collapses_runs_witness :
    COM_Compress (join_runs [([], cstr "a"), (cstr "   ", cstr "b"), (cstr "\n\n", cstr "c")] ++ [])
      = some (5, cstr "a b\nc") :=
  compress_collapses_runs.2.1 [([], cstr "a"), (cstr "   ", cstr "b"), (cstr "\n\n", cstr "c")] []
    (by intro c hc; cases hc)
    (by unfold blank_run plain_word; set_option maxRecDepth 8000 in decide)

/-- C13.  `COM_Compress` copies quoted sections byte for byte.  A text `"q"` with
no double quote in `q` comes back unchanged, whatever `q` holds.  More
generally, whenever the main loop stands at a double quote (so outside a
comment), it writes the pending separator and then the section up to and with
its closing quote, and goes on after that quote with both flags cleared. -/
theorem compress_keeps_quoted :
    (∀ (q : List Byte), dquote ∉ q →
      COM_Compress (dquote :: q ++ [dquote]) = some (q.length + 2, dquote :: q ++ [dquote])) ∧
    (∀ (fuel : Nat) (out : List Byte) (n w : Bool) (q rest : List Byte), dquote ∉ q →
      COM_Compress_loop (fuel + 1) (dquote :: q ++ dquote :: rest) out n w
        = COM_Compress_loop fuel rest (out ++ (pending_sep n w ++ dquote :: q ++ [dquote]))
            false false) ∧
    (∀ (n w : Bool) (q rest : List Byte), dquote ∉ q →
      compress_from n w (dquote :: q ++ dquote :: rest)
        = pending_sep n w ++ dquote :: q ++ dquote :: compress_from false false rest) := by
  have h3 : ∀ (n w : Bool) (q rest : List Byte), dquote ∉ q →
      compress_from n w (dquote :: q ++ dquote :: rest)
        = pending_sep n w ++ dquote :: q ++ dquote :: compress_from false false rest := by
    intro n w q rest hq
    rw [List.cons_append, compress_from_quote, copy_quoted_closed q rest hq]
    simp
  refine ⟨?_, ?_, h3⟩
  · intro q hq
    have := h3 false false q [] hq
    rw [Compress_eq, this]
    simp [pending_sep, compress_from_nil]
  · intro fuel out n w q rest hq
    have hb : COM_Compress_body dquote (q ++ dquote :: rest) n w
        = ⟨rest, pending_sep n w ++ dquote :: q ++ [dquote], false, false⟩ := by
      unfold COM_Compress_body
      rw [if_neg (fun e => dquote_ne_slash e.1), if_neg (fun e => dquote_ne_slash e.1),
        if_neg (not_blank dquote dquote_not_blank).1,
        if_neg (not_blank dquote dquote_not_blank).2]
      simp only [if_pos rfl, copy_quoted_closed q rest hq, pending_sep]
      simp
    rw [List.cons_append, COM_Compress_loop, hb]

/-- C13 (witness): the quoted text `"a  /* b */ // c` + line feed + tab + `"`. -/
theorem compress_keeps_quoted_witness :
    COM_Compress (dquote :: cstr "a  /* b */ // c\n\t" ++ [dquote])
      = some ((cstr "a  /* b */ // c\n\t").length + 2,
          dquote :: cstr "a  /* b */ // c\n\t" ++ [dquote]) :=
  compress_keeps_quoted.1 (cstr "a  /* b */ // c\n\t") (by decide)

/-! ## The lexer -/

theorem count_nl_append (a b : List Byte) : count_nl (a ++ b) = count_nl a + count_nl b := by
  induction a with
  | nil => simp [count_nl]
  | cons c a ih =>
    rw [List.cons_append]
    simp only [count_nl]
    rw [ih]
    omega

theorem nl_le_space (sc : Bool) : char_int sc nl ≤ 32 := by
  cases sc <;> decide

theorem gt_space_ne_nl (sc : Bool) (c : Byte) (h : 32 < char_int sc c) : c ≠ nl := by
  intro e
  subst e
  have := nl_le_space sc
  omega

/-- `SkipWhitespace` passes over a beginning of `data` made of bytes not greater
than space, counting its `\n` bytes, and stops at the end of the text or at
the first byte greater than space. -/
theorem SkipWhitespace_spec (sc : Bool) :
    ∀ (data : List Byte) (l : Nat) (h : Bool),
      ∃ cons, (∀ c ∈ cons, char_int sc c ≤ 32) ∧
        ((data = cons ∧
            SkipWhitespace sc data l h = (none, l + count_nl cons, h || decide (nl ∈ cons))) ∨
         (∃ c rest, 32 < char_int sc c ∧ data = cons ++ c :: rest ∧
            SkipWhitespace sc data l h
              = (some (c :: rest), l + count_nl cons, h || decide (nl ∈ cons)))) := by
  intro data
  induction data with
  | nil =>
    intro l h
    exact ⟨[], by simp, Or.inl ⟨rfl, by simp [SkipWhitespace, count_nl]⟩⟩
  | cons c s ih =>
    intro l h
    by_cases hc : char_int sc c ≤ 32
    · by_cases hn : c = nl
      · obtain ⟨cons, hall, hres⟩ := ih (l + 1) true
        refine ⟨c :: cons, ?_, ?_⟩
        · intro d hd
          rcases List.mem_cons.mp hd with e | e
          · rw [e]; exact hc
          · exact hall d e
        · rcases hres with ⟨e, hr⟩ | ⟨d, rest, hd, e, hr⟩
          · left
            refine ⟨by rw [e], ?_⟩
            simp only [SkipWhitespace, if_pos hc, if_pos hn, hr, count_nl]
            simp [hn]
            omega
          · right
            refine ⟨d, rest, hd, by rw [e]; rfl, ?_⟩
            simp only [SkipWhitespace, if_pos hc, if_pos hn, hr, count_nl]
            simp [hn]
            omega
      · obtain ⟨cons, hall, hres⟩ := ih l h
        have hn2 : ¬ nl = c := fun e => hn e.symm
        refine ⟨c :: cons, ?_, ?_⟩
        · intro d hd
          rcases List.mem_cons.mp hd with e | e
          · rw [e]; exact hc
          · exact hall d e
        · rcases hres with ⟨e, hr⟩ | ⟨d, rest, hd, e, hr⟩
          · left
            refine ⟨by rw [e], ?_⟩
            simp only [SkipWhitespace, if_pos hc, if_neg hn, hr, count_nl]
            simp [hn2]
          · right
            refine ⟨d, rest, hd, by rw [e]; rfl, ?_⟩
            simp only [SkipWhitespace, if_pos hc, if_neg hn, hr, count_nl]
            simp [hn2]
    · refine ⟨[], by simp, Or.inr ⟨c, s, by omega, rfl, ?_⟩⟩
      simp [SkipWhitespace, hc, count_nl]

theorem skip_line_spec (s : List Byte) :
    ∃ cons, s = cons ++ skip_line s ∧ count_nl cons = 0 := by
  induction s with
  | nil => exact ⟨[], rfl, rfl⟩
  | cons c s ih =>
    by_cases h : c = nl
    · exact ⟨[], by simp [skip_line, h], rfl⟩
    · obtain ⟨cons, e, hc⟩ := ih
      refine ⟨c :: cons, ?_, ?_⟩
      · simp only [skip_line, if_neg h, List.cons_append]
        rw [← e]
      · simp [count_nl, h, hc]

theorem scan_block_lines_spec :
    ∀ (s : List Byte) (l : Nat),
      ∃ cons, s = cons ++ (scan_block_lines s l).1 ∧
        (scan_block_lines s l).2 = l + count_nl cons ∧
        ((scan_block_lines s l).1 = [] ∨
          ∃ r, (scan_block_lines s l).1 = star :: slash :: r) := by
  intro s
  induction s with
  | nil => intro l; exact ⟨[], rfl, rfl, Or.inl rfl⟩
  | cons c s ih =>
    intro l
    by_cases h : c = star ∧ s.head? = some slash
    · refine ⟨[], by simp [scan_block_lines, h], by simp [scan_block_lines, h, count_nl], ?_⟩
      right
      cases s with
      | nil => simp at h
      | cons d r =>
        have := h.2
        simp only [List.head?_cons, Option.some.injEq] at this
        exact ⟨r, by simp [scan_block_lines, h, this]⟩
    · obtain ⟨cons, e, hl, hs⟩ := ih (if c = nl then l + 1 else l)
      refine ⟨c :: cons, ?_, ?_, ?_⟩
      · simp only [scan_block_lines, if_neg h, List.cons_append]
        rw [← e]
      · simp only [scan_block_lines, if_neg h, hl, count_nl]
        by_cases hn : c = nl
        · simp [hn]
          omega
        · simp [hn]
      · simpa only [scan_block_lines, if_neg h] using hs

theorem star_ne_nl : star ≠ nl := by decide

theorem count_nl_opener (a b : Byte) (ha : a = slash) (hb : b = slash ∨ b = star) :
    count_nl [a, b] = 0 := by
  subst ha
  rcases hb with h | h <;> subst h <;> decide

/-- The head loop of the lexer returns with enough fuel, and its outcome is as
`skip_outcome_ok` says. -/
theorem skip_loop_spec (sc allow : Bool) :
    ∀ (fuel : Nat) (data : List Byte) (lines : Nat) (hnl : Bool), data.length < fuel →
      ∃ o, skip_loop sc allow fuel data lines hnl = some o ∧
        skip_outcome_ok sc allow data lines o := by
  intro fuel
  induction fuel with
  | zero => intro data lines hnl h; omega
  | succ fuel ih =>
    intro data lines hnl hlen
    obtain ⟨cons, hall, hres⟩ := SkipWhitespace_spec sc data lines hnl
    rcases hres with ⟨e, hr⟩ | ⟨c, rest, hc, e, hr⟩
    · refine ⟨.exhausted (lines + count_nl cons), ?_, ?_⟩
      · simp only [skip_loop, hr]
      · simp only [skip_outcome_ok, e]
    · by_cases hb : (hnl || decide (nl ∈ cons)) = true ∧ allow = false
      · refine ⟨.lineBreak (c :: rest) (lines + count_nl cons), ?_, ?_⟩
        · simp only [skip_loop, hr, if_pos hb]
        · exact ⟨hb.2, by simp, cons, e, rfl⟩
      · by_cases h1 : c = slash ∧ rest.head? = some slash
        · cases rest with
          | nil => simp at h1
          | cons d r =>
            have hd : d = slash := by
              have := h1.2
              simpa using this
            obtain ⟨cons2, e2, hc2⟩ := skip_line_spec r
            have hlen2 : (skip_line r).length < fuel := by
              have := skip_line_length r
              rw [e] at hlen
              simp only [List.length_append, List.length_cons] at hlen
              omega
            obtain ⟨o, ho, hok⟩ := ih (skip_line r) (lines + count_nl cons)
              (hnl || decide (nl ∈ cons)) hlen2
            refine ⟨o, ?_, ?_⟩
            · simp only [skip_loop, hr, if_neg hb, if_pos h1, List.drop_one, List.tail_cons]
              exact ho
            · have hpre : data = (cons ++ [c, d] ++ cons2) ++ skip_line r := by
                rw [e]
                simp only [List.append_assoc, List.cons_append, List.nil_append]
                rw [← e2]
              have hcnt : count_nl (cons ++ [c, d] ++ cons2) = count_nl cons := by
                rw [count_nl_append, count_nl_append, count_nl_opener c d h1.1 (Or.inl hd), hc2]
                omega
              cases o with
              | exhausted l =>
                simp only [skip_outcome_ok] at hok ⊢
                rw [hok, hpre, count_nl_append, hcnt]
                omega
              | lineBreak d2 l =>
                obtain ⟨ha, hne, cons3, e3, hl3⟩ := hok
                refine ⟨ha, hne, (cons ++ [c, d] ++ cons2) ++ cons3, ?_, ?_⟩
                · rw [hpre, e3]
                  simp only [List.append_assoc]
                · rw [hl3, count_nl_append, hcnt]
                  omega
              | atToken c2 rest2 l =>
                obtain ⟨hg, hno, cons3, e3, hl3⟩ := hok
                refine ⟨hg, hno, (cons ++ [c, d] ++ cons2) ++ cons3, ?_, ?_⟩
                · rw [hpre, e3]
                  simp only [List.append_assoc]
                · rw [hl3, count_nl_append, hcnt]
                  omega
        · by_cases h2 : c = slash ∧ rest.head? = some star
          · cases rest with
            | nil => simp at h2
            | cons d r =>
              have hd : d = star := by
                have := h2.2
                simpa using this
              obtain ⟨cons2, e2, hl2, hs2⟩ := scan_block_lines_spec r (lines + count_nl cons)
              have hlen2 : ((scan_block_lines r (lines + count_nl cons)).1.drop 2).length
                  < fuel := by
                have h3 := congrArg List.length e2
                rw [e] at hlen
                simp only [List.length_append, List.length_cons, List.length_drop] at hlen h3 ⊢
                omega
              obtain ⟨o, ho, hok⟩ := ih ((scan_block_lines r (lines + count_nl cons)).1.drop 2)
                (scan_block_lines r (lines + count_nl cons)).2
                (hnl || decide (nl ∈ cons)) hlen2
              refine ⟨o, ?_, ?_⟩
              · simp only [skip_loop, hr, if_neg hb, if_neg h1, if_pos h2, List.drop_one,
                  List.tail_cons]
                exact ho
              · obtain ⟨cons4, e4, hc4⟩ : ∃ cons4,
                    (scan_block_lines r (lines + count_nl cons)).1
                      = cons4 ++ (scan_block_lines r (lines + count_nl cons)).1.drop 2 ∧
                    count_nl cons4 = 0 := by
                  rcases hs2 with h0 | ⟨r2, h0⟩
                  · exact ⟨[], by rw [h0]; rfl, rfl⟩
                  · exact ⟨[star, slash], by rw [h0]; rfl, by decide⟩
                have hpre : data = (cons ++ [c, d] ++ cons2 ++ cons4)
                    ++ (scan_block_lines r (lines + count_nl cons)).1.drop 2 := by
                  rw [e]
                  simp only [List.append_assoc, List.cons_append, List.nil_append]
                  rw [← e4, ← e2]
                have hcnt : lines + count_nl (cons ++ [c, d] ++ cons2 ++ cons4)
                    = (scan_block_lines r (lines + count_nl cons)).2 := by
                  rw [count_nl_append, count_nl_append, count_nl_append,
                    count_nl_opener c d h2.1 (Or.inr hd), hc4, hl2]
                  omega
                cases o with
                | exhausted l =>
                  simp only [skip_outcome_ok] at hok ⊢
                  rw [hok, hpre, count_nl_append, ← hcnt]
                  omega
                | lineBreak d2 l =>
                  obtain ⟨ha, hne, cons3, e3, hl3⟩ := hok
                  refine ⟨ha, hne, (cons ++ [c, d] ++ cons2 ++ cons4) ++ cons3, ?_, ?_⟩
                  · rw [hpre, e3]
                    simp only [List.append_assoc]
                  · rw [hl3, count_nl_append, ← hcnt]
                    omega
                | atToken c2 rest2 l =>
                  obtain ⟨hg, hno, cons3, e3, hl3⟩ := hok
                  refine ⟨hg, hno, (cons ++ [c, d] ++ cons2 ++ cons4) ++ cons3, ?_, ?_⟩
                  · rw [hpre, e3]
                    simp only [List.append_assoc]
                  · rw [hl3, count_nl_append, ← hcnt]
                    omega
          · refine ⟨.atToken c rest (lines + count_nl cons), ?_, ?_⟩
            · simp only [skip_loop, hr, if_neg hb, if_neg h1, if_neg h2]
            · refine ⟨hc, ?_, cons, e, rfl⟩
              rintro ⟨e1, h | h⟩
              · exact h1 ⟨e1, h⟩
              · exact h2 ⟨e1, h⟩

/-! ### The token rules -/

theorem token_push_foldl (C : Nat) :
    ∀ (xs tok : List Byte), tok.length ≤ C - 1 →
      xs.foldl (token_push C) tok = tok ++ xs.take (C - 1 - tok.length) := by
  intro xs
  induction xs with
  | nil => intro tok _; simp
  | cons x xs ih =>
    intro tok h
    simp only [List.foldl_cons]
    by_cases hl : tok.length < C - 1
    · have hp : token_push C tok x = tok ++ [x] := by simp [token_push, hl]
      rw [hp, ih _ (by simp only [List.length_append, List.length_singleton]; omega)]
      have e : C - 1 - tok.length = (C - 1 - (tok ++ [x]).length) + 1 := by
        simp only [List.length_append, List.length_singleton]
        omega
      rw [e, List.take_succ_cons]
      simp
    · have hp : token_push C tok x = tok := by simp [token_push, hl]
      rw [hp, ih _ h]
      have e : C - 1 - tok.length = 0 := by omega
      simp [e]

theorem token_push_foldl_nil (C : Nat) (xs : List Byte) :
    xs.foldl (token_push C) [] = xs.take (C - 1) := by
  have := token_push_foldl C xs [] (by simp)
  simpa using this

theorem word_token_eq (sc : Bool) (C : Nat) :
    ∀ (rest : List Byte) (c : Byte) (tok : List Byte),
      word_token sc C c rest tok
        = ((c :: rest.takeWhile (gt_space sc)).foldl (token_push C) tok,
            rest.dropWhile (gt_space sc)) := by
  intro rest
  induction rest with
  | nil => intro c tok; simp [word_token]
  | cons d s ih =>
    intro c tok
    by_cases hd : 32 < char_int sc d
    · have hg : gt_space sc d = true := by simp [gt_space, hd]
      simp only [word_token, if_pos hd, ih, List.takeWhile_cons, hg, List.dropWhile_cons,
        if_true, List.foldl_cons]
    · have hg : gt_space sc d = false := by simp [gt_space, hd]
      simp [word_token, hd, List.takeWhile_cons, hg, List.dropWhile_cons]

theorem word_token_sep_eq (sc : Bool) (C : Nat) (is_sep : Byte → Bool) :
    ∀ (rest : List Byte) (c : Byte) (tok : List Byte),
      word_token_sep sc C is_sep c rest tok
        = ((c :: rest.takeWhile (word_byte_sep sc is_sep)).foldl (token_push C) tok,
            rest.dropWhile (word_byte_sep sc is_sep)) := by
  intro rest
  induction rest with
  | nil => intro c tok; simp [word_token_sep]
  | cons d s ih =>
    intro c tok
    by_cases hd : 32 < char_int sc d ∧ is_sep d = false
    · have hg : word_byte_sep sc is_sep d = true := by
        simp [word_byte_sep, gt_space, hd.1, hd.2]
      simp only [word_token_sep, if_pos hd, ih, List.takeWhile_cons, hg, List.dropWhile_cons,
        if_true, List.foldl_cons]
    · have hg : word_byte_sep sc is_sep d = false := by
        simp only [word_byte_sep, gt_space, Bool.and_eq_false_imp, decide_eq_true_eq,
          Bool.not_eq_eq_eq_not, Bool.not_false]
        intro h1
        by_contra h2
        exact hd ⟨h1, by simpa using h2⟩
      simp [word_token_sep, hd, List.takeWhile_cons, hg, List.dropWhile_cons]

theorem quoted_token_eq (C : Nat) :
    ∀ (rest tok : List Byte) (l : Nat),
      quoted_token C rest tok l
        = ((rest.takeWhile not_quote).foldl (token_push C) tok,
            (rest.dropWhile not_quote).drop 1,
            l + count_nl (rest.takeWhile not_quote)) := by
  intro rest
  induction rest with
  | nil => intro tok l; simp [quoted_token, count_nl]
  | cons c s ih =>
    intro tok l
    by_cases hc : c = dquote
    · have hq : not_quote c = false := by simp [not_quote, hc]
      simp [quoted_token, hc, List.takeWhile_cons, List.dropWhile_cons, hq, count_nl]
      simp [← hc, hq]
    · have hq : not_quote c = true := by simp [not_quote, hc]
      simp only [quoted_token, if_neg hc, ih, List.takeWhile_cons, hq, List.dropWhile_cons,
        if_true, List.foldl_cons, count_nl]
      by_cases hn : c = nl
      · simp [hn]
        omega
      · simp [hn]

/-- The plain variant at a bare word. -/
theorem ParseExt_word (sc : Bool) (C : Nat) (st : ParseSession) (data : List Byte)
    (allow : Bool) (c : Byte) (rest : List Byte) (lines1 : Nat)
    (hskip : skip_loop sc allow (data.length + 1) data st.com_lines false
      = some (.atToken c rest lines1)) (hq : c ≠ dquote) :
    COM_ParseExt sc C st (some data) allow
      = some ⟨((c :: rest).takeWhile (gt_space sc)).take (C - 1),
          some ((c :: rest).dropWhile (gt_space sc)),
          { st with com_lines := lines1, com_tokenline := lines1 }⟩ := by
  obtain ⟨o, ho, hok⟩ := skip_loop_spec sc allow _ data st.com_lines false (Nat.lt_succ_self _)
  rw [hskip] at ho
  cases ho
  have hg : gt_space sc c = true := by simp [gt_space, hok.1]
  simp only [COM_ParseExt, hskip, if_neg hq, word_token_eq, token_push_foldl_nil,
    List.takeWhile_cons, List.dropWhile_cons, hg, if_true]

/-- Both variants at a quoted string. -/
theorem Parse_quoted (sc : Bool) (C : Nat) (is_sep : Byte → Bool) (st : ParseSession)
    (data : List Byte) (allow : Bool) (rest : List Byte) (lines1 : Nat)
    (hskip : skip_loop sc allow (data.length + 1) data st.com_lines false
      = some (.atToken dquote rest lines1)) :
    COM_ParseExt sc C st (some data) allow
      = some ⟨(rest.takeWhile not_quote).take (C - 1),
          some ((rest.dropWhile not_quote).drop 1),
          { st with com_lines := lines1 + count_nl (rest.takeWhile not_quote),
                    com_tokenline := lines1 }⟩ ∧
    COM_ParseSep sc C is_sep st (some data) allow
      = some ⟨(rest.takeWhile not_quote).take (C - 1),
          some ((rest.dropWhile not_quote).drop 1),
          { st with com_lines := lines1 + count_nl (rest.takeWhile not_quote),
                    com_tokenline := lines1 }⟩ := by
  constructor
  · simp only [COM_ParseExt, hskip, quoted_token_eq, token_push_foldl_nil, if_true]
  · simp only [COM_ParseSep, hskip, quoted_token_eq, token_push_foldl_nil, if_true]

/-- The separator-aware variant at a separator and at a bare word. -/
theorem ParseSep_word (sc : Bool) (C : Nat) (is_sep : Byte → Bool) (st : ParseSession)
    (data : List Byte) (allow : Bool) (c : Byte) (rest : List Byte) (lines1 : Nat)
    (hskip : skip_loop sc allow (data.length + 1) data st.com_lines false
      = some (.atToken c rest lines1)) (hq : c ≠ dquote) :
    (is_sep c = true →
      COM_ParseSep sc C is_sep st (some data) allow
        = some ⟨[c], some rest, { st with com_lines := lines1, com_tokenline := lines1 }⟩) ∧
    (is_sep c = false →
      COM_ParseSep sc C is_sep st (some data) allow
        = some ⟨((c :: rest).takeWhile (word_byte_sep sc is_sep)).take (C - 1),
            some ((c :: rest).dropWhile (word_byte_sep sc is_sep)),
            { st with com_lines := lines1, com_tokenline := lines1 }⟩) := by
  obtain ⟨o, ho, hok⟩ := skip_loop_spec sc allow _ data st.com_lines false (Nat.lt_succ_self _)
  rw [hskip] at ho
  cases ho
  constructor
  · intro hs
    simp only [COM_ParseSep, hskip, if_neg hq, if_pos hs]
  · intro hs
    have hg : word_byte_sep sc is_sep c = true := by
      simp [word_byte_sep, gt_space, hok.1, hs]
    simp only [COM_ParseSep, hskip, if_neg hq, hs, Bool.false_eq_true, if_false,
      word_token_sep_eq, token_push_foldl_nil, List.takeWhile_cons, List.dropWhile_cons, hg,
      if_true]

theorem skip_loop_at_token (sc allow : Bool) (fuel : Nat) (c : Byte) (rest : List Byte)
    (l : Nat) (hc : 32 < char_int sc c)
    (hno : ¬ (c = slash ∧ (rest.head? = some slash ∨ rest.head? = some star))) :
    skip_loop sc allow (fuel + 1) (c :: rest) l false = some (.atToken c rest l) := by
  have h1 : ¬ char_int sc c ≤ 32 := by omega
  simp only [skip_loop, SkipWhitespace, if_neg h1]
  rw [if_neg (by simp), if_neg (fun h => hno ⟨h.1, Or.inl h.2⟩),
    if_neg (fun h => hno ⟨h.1, Or.inr h.2⟩)]

theorem SkipWhitespace_run (sc : Bool) (c : Byte) (rest : List Byte) (hc : 32 < char_int sc c) :
    ∀ (ws : List Byte) (l : Nat) (h : Bool), (∀ b ∈ ws, char_int sc b ≤ 32) →
      SkipWhitespace sc (ws ++ c :: rest) l h
        = (some (c :: rest), l + count_nl ws, h || decide (nl ∈ ws)) := by
  intro ws
  induction ws with
  | nil =>
    intro l h _
    have h1 : ¬ char_int sc c ≤ 32 := by omega
    simp [SkipWhitespace, h1, count_nl]
  | cons b ws ih =>
    intro l h hall
    have hb := hall b (List.mem_cons_self _ _)
    have hws : ∀ x ∈ ws, char_int sc x ≤ 32 := fun x hx => hall x (List.mem_cons_of_mem _ hx)
    by_cases hn : b = nl
    · rw [List.cons_append]
      simp only [SkipWhitespace, if_pos hb, if_pos hn]
      rw [ih _ _ hws]
      simp [count_nl, hn]
      omega
    · have hn2 : ¬ nl = b := fun e => hn e.symm
      rw [List.cons_append]
      simp only [SkipWhitespace, if_pos hb, if_neg hn]
      rw [ih _ _ hws]
      simp [count_nl, hn, hn2]

/-- C14.  Bare-word rule.  When the head loop of the lexer stops at a byte `c`
that is not a double quote (the first byte after the skipped whitespace and
comments), `COM_ParseExt` returns the maximal run of bytes greater than space
that starts there, cut to `MAX_TOKEN_CHARS - 1` bytes, and leaves the cursor
just past the run.  `COM_ParseSep` returns `c` alone, the cursor one byte
further, when `c` is a separator, and otherwise the maximal run of bytes that
are greater than space and no separators, cut in the same way.  With the
table of `Com_InitSeparators` or any other.  E.g. `// c\nfoo "bar baz" 42`
gives `foo`, `bar baz`, `42` and then the empty token of the exhausted
cursor. -/
theorem bare_word_rule :
    (∀ (sc : Bool) (C : Nat) (is_sep : Byte → Bool) (st : ParseSession) (data : List Byte)
      (allow : Bool) (c : Byte) (rest : List Byte) (lines1 : Nat),
      skip_loop sc allow (data.length + 1) data st.com_lines false
        = some (.atToken c rest lines1) →
      c ≠ dquote →
      COM_ParseExt sc C st (some data) allow
        = some ⟨((c :: rest).takeWhile (gt_space sc)).take (C - 1),
            some ((c :: rest).dropWhile (gt_space sc)),
            { st with com_lines := lines1, com_tokenline := lines1 }⟩ ∧
      (is_sep c = true →
        COM_ParseSep sc C is_sep st (some data) allow
          = some ⟨[c], some rest, { st with com_lines := lines1, com_tokenline := lines1 }⟩) ∧
      (is_sep c = false →
        COM_ParseSep sc C is_sep st (some data) allow
          = some ⟨((c :: rest).takeWhile (word_byte_sep sc is_sep)).take (C - 1),
              some ((c :: rest).dropWhile (word_byte_sep sc is_sep)),
              { st with com_lines := lines1, com_tokenline := lines1 }⟩)) ∧
    (∀ (sc : Bool), lex_all sc 1024 23 ⟨[], 1, 0⟩ (some (cstr "// c\nfoo \"bar baz\" 42"))
      = some [cstr "foo", cstr "bar baz", cstr "42", []]) := by
  constructor
  · intro sc C is_sep st data allow c rest lines1 hskip hq
    exact ⟨ParseExt_word sc C st data allow c rest lines1 hskip hq,
      ParseSep_word sc C is_sep st data allow c rest lines1 hskip hq⟩
  · intro sc
    cases sc <;> rfl

/-- C14 (witness): the first call on `// c\nfoo "bar baz" 42`, and a call of the
separator-aware variant on `a=b` and on `=b`. -/
theorem bare_word_rule_witness :
    COM_ParseExt true 1024 ⟨[], 1, 0⟩ (some (cstr "// c\nfoo \"bar baz\" 42")) true
      = some ⟨cstr "foo", some (cstr " \"bar baz\" 42"), ⟨[], 2, 2⟩⟩ ∧
    COM_ParseSep true 1024 Com_InitSeparators ⟨[], 1, 0⟩ (some (cstr "a=b")) true
      = some ⟨cstr "a", some (cstr "=b"), ⟨[], 1, 1⟩⟩ ∧
    COM_ParseSep true 1024 Com_InitSeparators ⟨[], 1, 0⟩ (some (cstr "=b")) true
      = some ⟨cstr "=", some (cstr "b"), ⟨[], 1, 1⟩⟩ :=
  ⟨(bare_word_rule.1 true 1024 Com_InitSeparators ⟨[], 1, 0⟩
      (cstr "// c\nfoo \"bar baz\" 42") true 0x66 (cstr "oo \"bar baz\" 42") 2 rfl
      (by decide)).1,
   (bare_word_rule.1 true 1024 Com_InitSeparators ⟨[], 1, 0⟩ (cstr "a=b") true 0x61
      (cstr "=b") 1 rfl (by decide)).2.2 rfl,
   (bare_word_rule.1 true 1024 Com_InitSeparators ⟨[], 1, 0⟩ (cstr "=b") true 0x3d
      (cstr "b") 1 rfl (by decide)).2.1 rfl⟩

/-- C15.  Quoted-token rule, both variants.  When the head loop of the lexer
stops at a double quote, the token is made of the bytes between that quote and
the next double quote or the end of the input, cut to `MAX_TOKEN_CHARS - 1`
bytes; the closing quote is not in the token and the cursor is just past it;
without a closing quote the token is all that follows and the cursor is at the
end of the input (not `NULL`); no fault is raised. -/
theorem quoted_token_rule (sc : Bool) (C : Nat) (is_sep : Byte → Bool) (st : ParseSession)
    (data : List Byte) (allow : Bool) (rest : List Byte) (lines1 : Nat)
    (hskip : skip_loop sc allow (data.length + 1) data st.com_lines false
      = some (.atToken dquote rest lines1)) :
    (COM_ParseExt sc C st (some data) allow
      = some ⟨(rest.takeWhile not_quote).take (C - 1),
          some ((rest.dropWhile not_quote).drop 1),
          { st with com_lines := lines1 + count_nl (rest.takeWhile not_quote),
                    com_tokenline := lines1 }⟩ ∧
    COM_ParseSep sc C is_sep st (some data) allow
      = some ⟨(rest.takeWhile not_quote).take (C - 1),
          some ((rest.dropWhile not_quote).drop 1),
          { st with com_lines := lines1 + count_nl (rest.takeWhile not_quote),
                    com_tokenline := lines1 }⟩) ∧
    dquote ∉ rest.takeWhile not_quote ∧
    (∀ (q r : List Byte), dquote ∉ q → rest = q ++ dquote :: r →
      rest.takeWhile not_quote = q ∧ (rest.dropWhile not_quote).drop 1 = r) ∧
    (dquote ∉ rest →
      rest.takeWhile not_quote = rest ∧ (rest.dropWhile not_quote).drop 1 = []) := by
  have htw : ∀ (q : List Byte), dquote ∉ q → ∀ (t : List Byte),
      (q ++ dquote :: t).takeWhile not_quote = q ∧
      (q ++ dquote :: t).dropWhile not_quote = dquote :: t := by
    intro q
    induction q with
    | nil => intro _ t; simp [not_quote]
    | cons x q ih =>
      intro h t
      simp only [List.mem_cons, not_or] at h
      have hx : not_quote x = true := by simp [not_quote]; exact fun e => h.1 e.symm
      have := ih h.2 t
      simp [List.takeWhile_cons, List.dropWhile_cons, hx, this.1, this.2]
  have hall : ∀ (q : List Byte), dquote ∉ q →
      q.takeWhile not_quote = q ∧ q.dropWhile not_quote = [] := by
    intro q
    induction q with
    | nil => intro _; simp
    | cons x q ih =>
      intro h
      simp only [List.mem_cons, not_or] at h
      have hx : not_quote x = true := by simp [not_quote]; exact fun e => h.1 e.symm
      have := ih h.2
      simp [List.takeWhile_cons, List.dropWhile_cons, hx, this.1, this.2]
  refine ⟨Parse_quoted sc C is_sep st data allow rest lines1 hskip, ?_, ?_, ?_⟩
  · intro hm
    have := List.mem_takeWhile_imp hm
    simp [not_quote] at this
  · intro q r hq e
    subst e
    have := htw q hq r
    rw [this.1, this.2]
    exact ⟨rfl, rfl⟩
  · intro h
    have := hall rest h
    rw [this.1, this.2]
    exact ⟨rfl, rfl⟩

/-- C15 (witness): ` "bar // x` + line feed + `baz" 42` yields the token
`bar // x` + line feed + `baz`, the cursor at ` 42` and one more line. -/
theorem quoted_token_rule_witness :
    COM_ParseExt true 1024 ⟨[], 1, 0⟩ (some (cstr " \"bar // x\nbaz\" 42")) true
      = some ⟨cstr "bar // x\nbaz", some (cstr " 42"), ⟨[], 2, 1⟩⟩ :=
  (quoted_token_rule true 1024 Com_InitSeparators ⟨[], 1, 0⟩ (cstr " \"bar // x\nbaz\" 42")
    true (cstr "bar // x\nbaz\" 42") 1 rfl).1.1

/-! ### Line tracking and progress -/

theorem count_nl_eq_zero (l : List Byte) (h : ∀ b ∈ l, b ≠ nl) : count_nl l = 0 := by
  induction l with
  | nil => rfl
  | cons c l ih =>
    have hc := h c (List.mem_cons_self _ _)
    simp [count_nl, hc, ih (fun b hb => h b (List.mem_cons_of_mem _ hb))]

theorem count_nl_word (sc : Bool) (l : List Byte) :
    count_nl (l.takeWhile (gt_space sc)) = 0 := by
  apply count_nl_eq_zero
  intro b hb
  have := List.mem_takeWhile_imp hb
  simp only [gt_space, decide_eq_true_eq] at this
  exact gt_space_ne_nl sc b this

theorem count_nl_word_sep (sc : Bool) (is_sep : Byte → Bool) (l : List Byte) :
    count_nl (l.takeWhile (word_byte_sep sc is_sep)) = 0 := by
  apply count_nl_eq_zero
  intro b hb
  have := List.mem_takeWhile_imp hb
  simp only [word_byte_sep, gt_space, Bool.and_eq_true, decide_eq_true_eq] at this
  exact gt_space_ne_nl sc b this.1

theorem dropWhile_not_quote (l : List Byte) :
    l.dropWhile not_quote = [] ∨ ∃ r, l.dropWhile not_quote = dquote :: r := by
  induction l with
  | nil => left; rfl
  | cons c l ih =>
    by_cases hc : c = dquote
    · right
      exact ⟨l, by simp [List.dropWhile_cons, not_quote, hc]⟩
    · have hq : not_quote c = true := by simp [not_quote, hc]
      simpa [List.dropWhile_cons, hq] using ih

theorem dquote_ne_nl : dquote ≠ nl := by decide

theorem dropWhile_length_le (p : Byte → Bool) (l : List Byte) :
    (l.dropWhile p).length ≤ l.length := by
  have := congrArg List.length (List.takeWhile_append_dropWhile p l)
  simp only [List.length_append] at this
  omega

/-- After the closing quote: the bytes between the opening quote and the new
cursor, and their `\n` count. -/
theorem quoted_consumed (rest : List Byte) :
    ∃ cons, rest = cons ++ (rest.dropWhile not_quote).drop 1 ∧
      count_nl cons = count_nl (rest.takeWhile not_quote) := by
  have e := (List.takeWhile_append_dropWhile not_quote rest).symm
  rcases dropWhile_not_quote rest with h | ⟨r, h⟩
  · refine ⟨rest.takeWhile not_quote, ?_, rfl⟩
    rw [h] at e ⊢
    simpa using e
  · refine ⟨rest.takeWhile not_quote ++ [dquote], ?_, ?_⟩
    · rw [h] at e ⊢
      simpa using e
    · rw [count_nl_append]
      simp [count_nl, dquote_ne_nl]

/-- One call of the plain variant: it returns, the line counter follows the
bytes consumed, and with line breaks allowed a cursor that is not `NULL` has
moved on. -/
theorem ParseExt_step (sc : Bool) (C : Nat) (st : ParseSession) (data : List Byte)
    (allow : Bool) :
    ∃ r, COM_ParseExt sc C st (some data) allow = some r ∧
      call_advances data st.com_lines r ∧
      (allow = true → ∀ d, r.data_p = some d → d.length < data.length) := by
  obtain ⟨o, ho, hok⟩ := skip_loop_spec sc allow _ data st.com_lines false (Nat.lt_succ_self _)
  cases o with
  | exhausted l =>
    refine ⟨⟨[], none, { st with com_lines := l, com_tokenline := 0 }⟩, by
      simp only [COM_ParseExt, ho], hok, ?_⟩
    intro _ d hd
    cases hd
  | lineBreak d l =>
    obtain ⟨ha, _, cons, e, hl⟩ := hok
    refine ⟨⟨[], some d, { st with com_lines := l, com_tokenline := 0 }⟩, by
      simp only [COM_ParseExt, ho], ⟨cons, e, hl⟩, ?_⟩
    intro h
    rw [ha] at h
    cases h
  | atToken c rest l =>
    obtain ⟨hg, _, cons, e, hl⟩ := hok
    have hlen : rest.length < data.length := by
      rw [e]
      simp only [List.length_append, List.length_cons]
      omega
    by_cases hq : c = dquote
    · subst hq
      refine ⟨_, (Parse_quoted sc C (fun _ => false) st data allow rest l ho).1, ?_, ?_⟩
      · obtain ⟨cons2, e2, hc2⟩ := quoted_consumed rest
        refine ⟨cons ++ dquote :: cons2, ?_, ?_⟩
        · rw [e]
          simp only [List.append_assoc, List.cons_append]
          rw [← e2]
        · simp only []
          rw [count_nl_append, hl]
          simp only [count_nl, if_neg dquote_ne_nl, hc2]
          omega
      · intro _ d hd
        injection hd with hd
        rw [← hd]
        have := dropWhile_length_le not_quote rest
        simp only [List.length_drop]
        omega
    · have hgs : gt_space sc c = true := by simp [gt_space, hg]
      refine ⟨_, ParseExt_word sc C st data allow c rest l ho hq, ?_, ?_⟩
      · refine ⟨cons ++ (c :: rest).takeWhile (gt_space sc), ?_, ?_⟩
        · rw [e, List.append_assoc, List.takeWhile_append_dropWhile]
        · simp only []
          rw [count_nl_append, count_nl_word, hl]
          omega
      · intro _ d hd
        injection hd with hd
        rw [← hd]
        have := dropWhile_length_le (gt_space sc) rest
        simp only [List.dropWhile_cons, hgs, if_true]
        omega

/-- One call of the separator-aware variant: it returns and the line counter
follows the bytes consumed. -/
theorem ParseSep_step (sc : Bool) (C : Nat) (is_sep : Byte → Bool) (st : ParseSession)
    (data : List Byte) (allow : Bool) :
    ∃ r, COM_ParseSep sc C is_sep st (some data) allow = some r ∧
      call_advances data st.com_lines r := by
  obtain ⟨o, ho, hok⟩ := skip_loop_spec sc allow _ data st.com_lines false (Nat.lt_succ_self _)
  cases o with
  | exhausted l =>
    exact ⟨⟨[], none, { st with com_lines := l, com_tokenline := 0 }⟩, by
      simp only [COM_ParseSep, ho], hok⟩
  | lineBreak d l =>
    obtain ⟨_, _, cons, e, hl⟩ := hok
    exact ⟨⟨[], some d, { st with com_lines := l, com_tokenline := 0 }⟩, by
      simp only [COM_ParseSep, ho], ⟨cons, e, hl⟩⟩
  | atToken c rest l =>
    obtain ⟨hg, _, cons, e, hl⟩ := hok
    by_cases hq : c = dquote
    · subst hq
      refine ⟨_, (Parse_quoted sc C is_sep st data allow rest l ho).2, ?_⟩
      obtain ⟨cons2, e2, hc2⟩ := quoted_consumed rest
      refine ⟨cons ++ dquote :: cons2, ?_, ?_⟩
      · rw [e]
        simp only [List.append_assoc, List.cons_append]
        rw [← e2]
      · simp only []
        rw [count_nl_append, hl]
        simp only [count_nl, if_neg dquote_ne_nl, hc2]
        omega
    · cases hs : is_sep c
      · refine ⟨_, (ParseSep_word sc C is_sep st data allow c rest l ho hq).2 hs, ?_⟩
        refine ⟨cons ++ (c :: rest).takeWhile (word_byte_sep sc is_sep), ?_, ?_⟩
        · rw [e, List.append_assoc, List.takeWhile_append_dropWhile]
        · simp only []
          rw [count_nl_append, count_nl_word_sep, hl]
          omega
      · refine ⟨_, (ParseSep_word sc C is_sep st data allow c rest l ho hq).1 hs, ?_⟩
        refine ⟨cons ++ [c], by rw [e]; simp, ?_⟩
        simp only []
        rw [count_nl_append, hl]
        simp [count_nl, gt_space_ne_nl sc c hg]

theorem run_calls_lines (sc : Bool) (C : Nat) (is_sep : Byte → Bool) (input : List Byte) :
    ∀ (calls : List LexCall) (st : ParseSession) (cur : Option (List Byte)),
      lines_agree input st.com_lines cur →
      ∃ st1 cur1, run_calls sc C is_sep calls st cur = some (st1, cur1) ∧
        lines_agree input st1.com_lines cur1 := by
  intro calls
  induction calls with
  | nil => intro st cur h; exact ⟨st, cur, rfl, h⟩
  | cons call calls ih =>
    intro st cur h
    have key : ∀ (r : ParseOut) (data : List Byte), cur = some data →
        call_advances data st.com_lines r → lines_agree input r.session.com_lines r.data_p := by
      intro r data e hadv
      subst e
      obtain ⟨cons0, e0, hl0⟩ := h
      unfold call_advances at hadv
      cases hd : r.data_p with
      | none =>
        rw [hd] at hadv
        simp only [lines_agree]
        rw [hadv, hl0, e0, count_nl_append]
        omega
      | some d =>
        rw [hd] at hadv
        obtain ⟨cons, e1, hl1⟩ := hadv
        refine ⟨cons0 ++ cons, ?_, ?_⟩
        · rw [e0, e1, List.append_assoc]
        · rw [hl1, hl0, count_nl_append]
          omega
    cases call with
    | ext allow =>
      cases cur with
      | none =>
        simp only [run_calls, COM_ParseExt]
        exact ih _ _ h
      | some data =>
        obtain ⟨r, hr, hadv, _⟩ := ParseExt_step sc C st data allow
        simp only [run_calls, hr]
        exact ih _ _ (key r data rfl hadv)
    | sep allow =>
      cases cur with
      | none =>
        simp only [run_calls, COM_ParseSep]
        exact ih _ _ h
      | some data =>
        obtain ⟨r, hr, hadv⟩ := ParseSep_step sc C is_sep st data allow
        simp only [run_calls, hr]
        exact ih _ _ (key r data rfl hadv)

/-- C17.  Line tracking.  After `COM_BeginParseSession`, for every input and
every sequence of calls of `COM_ParseExt` and `COM_ParseSep` over it, with any
`allowLineBreaks`, every call returns and `com_lines` is 1 plus the number of
`\n` bytes in the part of the input before the cursor, or in the whole input
once the cursor is `NULL`. -/
theorem line_tracking (sc : Bool) (C : Nat) (is_sep : Byte → Bool) (name input : List Byte)
    (st0 : ParseSession) (h0 : COM_BeginParseSession C name = .ok st0)
    (calls : List LexCall) :
    ∃ st cur, run_calls sc C is_sep calls st0 (some input) = some (st, cur) ∧
      lines_agree input st.com_lines cur := by
  have hl : st0.com_lines = 1 := by
    unfold COM_BeginParseSession at h0
    cases hs : Com_sprintf C name with
    | error e => rw [hs] at h0; cases h0
    | ok k =>
      rw [hs] at h0
      injection h0 with h0
      rw [← h0]
  apply run_calls_lines sc C is_sep input calls st0 (some input)
  exact ⟨[], rfl, by rw [hl]; rfl⟩

/-- C17 (witness): over `// c\nfoo "bar baz" 42` the first call takes `com_lines`
from 1 to 2, where it stays. -/
theorem line_tracking_witness :
    (∃ st cur, run_calls true 1024 Com_InitSeparators [.ext true, .sep false, .ext true]
        ⟨cstr "x", 1, 0⟩ (some (cstr "// c\nfoo \"bar baz\" 42")) = some (st, cur) ∧
      lines_agree (cstr "// c\nfoo \"bar baz\" 42") st.com_lines cur) ∧
    (run_calls true 1024 Com_InitSeparators [.ext true]
        ⟨cstr "x", 1, 0⟩ (some (cstr "// c\nfoo \"bar baz\" 42"))).map (fun p => p.1.com_lines)
      = some 2 ∧
    (run_calls true 1024 Com_InitSeparators [.ext true, .sep false, .ext true]
        ⟨cstr "x", 1, 0⟩ (some (cstr "// c\nfoo \"bar baz\" 42"))).map (fun p => p.1.com_lines)
      = some 2 :=
  ⟨line_tracking true 1024 Com_InitSeparators (cstr "x") (cstr "// c\nfoo \"bar baz\" 42")
    ⟨cstr "x", 1, 0⟩ rfl [.ext true, .sep false, .ext true], rfl, rfl⟩

/-! ### `SkipBracedSection` -/

theorem brace_depth_cons (t : List Byte) (ts : List (List Byte)) (d : Int) :
    (if t = [lbrace] then d + 1 else if t = [rbrace] then d - 1 else d) + brace_depth ts
      = d + brace_depth (t :: ts) := by
  simp only [brace_depth]
  by_cases h1 : t = [lbrace]
  · simp only [if_pos h1]
    omega
  · by_cases h2 : t = [rbrace]
    · simp only [if_neg h1, if_pos h2]
      omega
    · simp only [if_neg h1, if_neg h2]
      omega

theorem ParseExt_total (sc : Bool) (C : Nat) (st : ParseSession) (p : Option (List Byte)) :
    ∃ r, COM_ParseExt sc C st p true = some r ∧
      (∀ d, r.data_p = some d → ∃ data, p = some data ∧ d.length < data.length) := by
  cases p with
  | none =>
    refine ⟨⟨[], none, { st with com_tokenline := 0 }⟩, rfl, ?_⟩
    intro d hd
    cases hd
  | some data =>
    obtain ⟨r, hr, _, hp⟩ := ParseExt_step sc C st data true
    exact ⟨r, hr, fun d hd => ⟨data, rfl, hp rfl d hd⟩⟩

theorem parse_trace_succ (sc : Bool) (C : Nat) (n : Nat) (st : ParseSession)
    (p : Option (List Byte)) (r : ParseOut) (h : COM_ParseExt sc C st p true = some r) :
    parse_trace sc C (n + 1) st p = r :: parse_trace sc C n r.session r.data_p := by
  simp only [parse_trace, h]

/-- The loop of `SkipBracedSection` entered with the depth `d0`: it reads the
tokens of a trace `tr ++ [last]`, after none of `tr` the depth is zero or the
cursor `NULL`, and after `last` the depth is zero or the cursor is `NULL`. -/
theorem SkipBraced_loop_spec (sc : Bool) (C : Nat) :
    ∀ (fuel : Nat) (st : ParseSession) (p : Option (List Byte)) (d0 : Int),
      0 < fuel → (∀ data, p = some data → data.length + 1 < fuel) →
      ∃ (tr : List ParseOut) (last : ParseOut),
        parse_trace sc C (tr.length + 1) st p = tr ++ [last] ∧
        (∀ (pre : List ParseOut) (x : ParseOut) (post : List ParseOut),
          tr ++ [last] = pre ++ x :: post → post ≠ [] →
          d0 + brace_depth ((pre ++ [x]).map (fun r => r.token)) ≠ 0 ∧ x.data_p ≠ none) ∧
        (d0 + brace_depth ((tr ++ [last]).map (fun r => r.token)) = 0 ∨ last.data_p = none) ∧
        SkipBracedSection_loop sc C fuel st p d0 = some (last.session, last.data_p) := by
  intro fuel
  induction fuel with
  | zero => intro st p d0 h; omega
  | succ fuel ih =>
    intro st p d0 _ hfuel
    obtain ⟨r, hr, hprog⟩ := ParseExt_total sc C st p
    have hd1 := brace_depth_cons r.token [] d0
    simp only [brace_depth, add_zero] at hd1
    by_cases hcont : (if r.token = [lbrace] then d0 + 1
        else if r.token = [rbrace] then d0 - 1 else d0) ≠ 0 ∧ r.data_p ≠ none
    · obtain ⟨d, hd⟩ : ∃ d, r.data_p = some d := by
        cases h : r.data_p with
        | none => exact absurd h hcont.2
        | some d => exact ⟨d, rfl⟩
      obtain ⟨data, hp, hlt⟩ := hprog d hd
      have hf := hfuel data hp
      obtain ⟨tr, last, htr, hmid, hend, hloop⟩ := ih r.session r.data_p
        (if r.token = [lbrace] then d0 + 1 else if r.token = [rbrace] then d0 - 1 else d0)
        (by omega) (by
          intro data2 h2
          rw [hd] at h2
          injection h2 with h2
          rw [← h2]
          omega)
      refine ⟨r :: tr, last, ?_, ?_, ?_, ?_⟩
      · rw [List.length_cons, parse_trace_succ sc C _ st p r hr, htr]
        rfl
      · intro pre x post e hpost
        cases pre with
        | nil =>
          simp only [List.nil_append, List.cons_append, List.cons.injEq] at e
          rw [← e.1]
          simp only [List.nil_append, List.map_cons, List.map_nil]
          rw [← brace_depth_cons, brace_depth, add_zero]
          exact hcont
        | cons y pre =>
          simp only [List.cons_append, List.cons.injEq] at e
          have := hmid pre x post e.2 hpost
          refine ⟨?_, this.2⟩
          rw [← e.1]
          simp only [List.cons_append, List.map_cons]
          rw [← brace_depth_cons]
          exact this.1
      · rcases hend with h | h
        · left
          simp only [List.cons_append, List.map_cons]
          rw [← brace_depth_cons]
          exact h
        · exact Or.inr h
      · simp only [SkipBracedSection_loop, hr]
        rw [if_pos hcont]
        exact hloop
    · refine ⟨[], r, ?_, ?_, ?_, ?_⟩
      · rw [List.length_nil, parse_trace_succ sc C _ st p r hr]
        rfl
      · intro pre x post e hpost
        cases pre with
        | nil =>
          simp only [List.nil_append, List.cons.injEq] at e
          exact absurd e.2.symm hpost
        | cons y pre =>
          simp only [List.nil_append, List.cons_append, List.cons.injEq] at e
          have := congrArg List.length e.2
          simp only [List.length_nil, List.length_append, List.length_cons] at this
          omega
      · simp only [List.nil_append, List.map_cons, List.map_nil]
        rw [← brace_depth_cons, brace_depth, add_zero]
        by_cases h1 : (if r.token = [lbrace] then d0 + 1
            else if r.token = [rbrace] then d0 - 1 else d0) = 0
        · exact Or.inl h1
        · right
          by_contra h2
          exact hcont ⟨h1, h2⟩
      · simp only [SkipBracedSection_loop, hr]
        rw [if_neg hcont]

/-- C19.  `SkipBracedSection` returns on every input.  It reads tokens with
`COM_ParseExt( program, qtrue )` and stops right after the first token after
which the running depth (tokens equal to `{` minus tokens equal to `}`) is
zero, or after the call that leaves the cursor `NULL`: no earlier token
brings the depth to zero, and when the depth is not zero at the end the cursor
is `NULL`.  No fault is raised.  E.g. on `{ a { b } c } d` the cursor ends at
` d`, just past the matching brace. -/
theorem skip_braced_section :
    (∀ (sc : Bool) (C : Nat) (st : ParseSession) (program : Option (List Byte)),
      ∃ (tr : List ParseOut) (last : ParseOut),
        parse_trace sc C (tr.length + 1) st program = tr ++ [last] ∧
        (∀ (pre : List ParseOut) (x : ParseOut) (post : List ParseOut),
          tr ++ [last] = pre ++ x :: post → post ≠ [] →
          brace_depth ((pre ++ [x]).map (fun r => r.token)) ≠ 0 ∧ x.data_p ≠ none) ∧
        (brace_depth ((tr ++ [last]).map (fun r => r.token)) = 0 ∨ last.data_p = none) ∧
        SkipBracedSection sc C st program = some (last.session, last.data_p)) ∧
    (∀ (sc : Bool),
      (SkipBracedSection sc 1024 ⟨[], 1, 0⟩ (some (cstr "\x7b a \x7b b \x7d c \x7d d"))).map (fun r => r.2)
        = some (some (cstr " d"))) ∧
    (∀ (sc : Bool),
      (SkipBracedSection sc 1024 ⟨[], 1, 0⟩ (some (cstr "\x7b a \x7b b \x7d c"))).map (fun r => r.2)
        = some none) := by
  refine ⟨?_, ?_, ?_⟩
  · intro sc C st program
    obtain ⟨tr, last, h1, h2, h3, h4⟩ := SkipBraced_loop_spec sc C
      ((program.getD []).length + 2) st program 0 (by omega) (by
        intro data h
        subst h
        simp only [Option.getD_some]
        omega)
    refine ⟨tr, last, h1, ?_, ?_, h4⟩
    · intro pre x post e hpost
      have := h2 pre x post e hpost
      simpa using this
    · simpa using h3
  · intro sc
    cases sc <;> rfl
  · intro sc
    cases sc <;> rfl

/-! ### The lexer on compressed text -/

theorem blank_not_gt (sc : Bool) (c : Byte) (h : is_blank c = true) : gt_space sc c = false := by
  rcases blank_cases c h with (h | h) | (h | h) <;> subst h <;> cases sc <;> decide

theorem words_from_flush (sc : Bool) :
    ∀ (s cur : List Byte), (s = [] ∨ ∃ c r, s = c :: r ∧ gt_space sc c = false) →
      words_from sc s cur = flush_word cur ++ words_from sc s [] := by
  intro s cur h
  rcases h with h | ⟨c, r, h, hc⟩
  · subst h
    simp [words_from, flush_word]
  · subst h
    simp [words_from, hc, flush_word]

theorem words_from_run (sc : Bool) :
    ∀ (tw dw cur : List Byte), (∀ b ∈ tw, gt_space sc b = true) →
      words_from sc (tw ++ dw) cur = words_from sc dw (cur ++ tw) := by
  intro tw
  induction tw with
  | nil => intro dw cur _; simp
  | cons c tw ih =>
    intro dw cur h
    have hc := h c (List.mem_cons_self _ _)
    rw [List.cons_append, words_from, if_pos hc, ih _ _ (fun b hb => h b (List.mem_cons_of_mem _ hb))]
    simp

theorem dropWhile_head (p : Byte → Bool) (l : List Byte) :
    l.dropWhile p = [] ∨ ∃ c r, l.dropWhile p = c :: r ∧ p c = false := by
  induction l with
  | nil => left; rfl
  | cons c l ih =>
    by_cases hc : p c = true
    · simpa [List.dropWhile_cons, hc] using ih
    · right
      exact ⟨c, l, by simp [List.dropWhile_cons, hc], by simpa using hc⟩

/-- The first word of a text that starts with a byte greater than space. -/
theorem words_from_token (sc : Bool) (c : Byte) (rest : List Byte) (hc : gt_space sc c = true) :
    words_from sc (c :: rest) []
      = (c :: rest).takeWhile (gt_space sc)
        :: words_from sc ((c :: rest).dropWhile (gt_space sc)) [] := by
  have e := (List.takeWhile_append_dropWhile (gt_space sc) (c :: rest)).symm
  have hne : (c :: rest).takeWhile (gt_space sc) ≠ [] := by
    simp [List.takeWhile_cons, hc]
  have h1 : words_from sc ((c :: rest).takeWhile (gt_space sc)
      ++ (c :: rest).dropWhile (gt_space sc)) []
      = words_from sc ((c :: rest).dropWhile (gt_space sc))
          ([] ++ (c :: rest).takeWhile (gt_space sc)) :=
    words_from_run sc _ _ [] (fun b hb => List.mem_takeWhile_imp hb)
  rw [← e] at h1
  rw [h1, words_from_flush sc _ _ (dropWhile_head (gt_space sc) (c :: rest))]
  simp [flush_word, hne]

theorem words_from_ws (sc : Bool) :
    ∀ (ws rest : List Byte), (∀ b ∈ ws, char_int sc b ≤ 32) →
      words_from sc (ws ++ rest) [] = words_from sc rest [] := by
  intro ws
  induction ws with
  | nil => intro rest _; rfl
  | cons b ws ih =>
    intro rest h
    have hb := h b (List.mem_cons_self _ _)
    have hg : gt_space sc b = false := by
      simp only [gt_space, decide_eq_false_iff_not]
      omega
    rw [List.cons_append, words_from, hg]
    simp only [Bool.false_eq_true, if_false, flush_word, if_true, List.nil_append]
    exact ih rest (fun x hx => h x (List.mem_cons_of_mem _ hx))

/-- What the loop of the compressor writes has the words of the input. -/
theorem words_from_compress (sc : Bool) :
    ∀ (s : List Byte), dquote ∉ s → slash ∉ s → ∀ (n w : Bool) (cur : List Byte),
      words_from sc (compress_from n w s) cur
        = if n = true ∨ w = true then flush_word cur ++ words_from sc s []
          else words_from sc s cur := by
  intro s
  induction s with
  | nil =>
    intro _ _ n w cur
    rw [compress_from_nil]
    by_cases h : n = true ∨ w = true
    · rw [if_pos h]
      simp [words_from, flush_word]
    · rw [if_neg h]
  | cons c s ih =>
    intro hq hs n w cur
    simp only [List.mem_cons, not_or] at hq hs
    have ih2 := ih hq.2 hs.2
    by_cases hb : is_blank c = true
    · have hg := blank_not_gt sc c hb
      rw [compress_from_blank n w c s hb, ih2]
      have hf : (n || is_break c) = true ∨ (w || !is_break c) = true := by
        cases is_break c <;> simp
      rw [if_pos hf]
      by_cases h : n = true ∨ w = true
      · rw [if_pos h]
        simp [words_from, hg, flush_word]
      · rw [if_neg h]
        simp [words_from, hg]
    · have hb2 : is_blank c = false := by simpa using hb
      have hcs : c ≠ slash := fun e => hs.1 e.symm
      have hcq : c ≠ dquote := fun e => hq.1 e.symm
      rw [compress_from_plain n w c s hb2 hcq (fun e => hcs e.1)]
      have hstep : ∀ (cur2 : List Byte),
          words_from sc (c :: compress_from false false s) cur2 = words_from sc (c :: s) cur2 := by
        intro cur2
        simp only [words_from]
        rw [ih2 false false, ih2 false false]
        simp
      by_cases h : n = true ∨ w = true
      · rw [if_pos h]
        have hp : ∃ x, pending_sep n w = [x] ∧ gt_space sc x = false := by
          cases n <;> cases w <;> simp [pending_sep] at h ⊢ <;> cases sc <;> decide
        obtain ⟨x, hx, hgx⟩ := hp
        rw [hx, List.singleton_append, words_from, hgx]
        simp only [Bool.false_eq_true, if_false]
        rw [hstep]
      · rw [if_neg h]
        have hp : pending_sep n w = [] := by
          cases n <;> cases w <;> simp [pending_sep] at h ⊢
        rw [hp, List.nil_append, hstep]

theorem compress_from_mem :
    ∀ (s : List Byte), dquote ∉ s → slash ∉ s → ∀ (n w : Bool),
      ∀ b ∈ compress_from n w s, b ∈ s ∨ b = nl ∨ b = sp := by
  intro s
  induction s with
  | nil =>
    intro _ _ n w b hb
    rw [compress_from_nil] at hb
    cases hb
  | cons c s ih =>
    intro hq hs n w b hb
    simp only [List.mem_cons, not_or] at hq hs
    by_cases hbl : is_blank c = true
    · rw [compress_from_blank n w c s hbl] at hb
      rcases ih hq.2 hs.2 _ _ b hb with h | h
      · exact Or.inl (List.mem_cons_of_mem _ h)
      · exact Or.inr h
    · have hb2 : is_blank c = false := by simpa using hbl
      have hcs : c ≠ slash := fun e => hs.1 e.symm
      have hcq : c ≠ dquote := fun e => hq.1 e.symm
      rw [compress_from_plain n w c s hb2 hcq (fun e => hcs e.1)] at hb
      rcases List.mem_append.mp hb with h | h
      · right
        cases n <;> cases w <;> simp [pending_sep] at h <;> simp [h]
      · rcases List.mem_cons.mp h with h | h
        · left; rw [h]; exact List.mem_cons_self _ _
        · rcases ih hq.2 hs.2 _ _ b h with h | h
          · exact Or.inl (List.mem_cons_of_mem _ h)
          · exact Or.inr h

theorem skip_loop_plain (sc : Bool) (fuel : Nat) (data : List Byte) (l : Nat)
    (cons : List Byte) (c : Byte) (rest : List Byte)
    (hall : ∀ b ∈ cons, char_int sc b ≤ 32) (hc : 32 < char_int sc c)
    (e : data = cons ++ c :: rest) (hs : c ≠ slash) :
    skip_loop sc true (fuel + 1) data l false
      = some (.atToken c rest (l + count_nl cons)) := by
  subst e
  simp only [skip_loop, SkipWhitespace_run sc c rest hc cons l false hall]
  rw [if_neg (by simp), if_neg (fun h => hs h.1), if_neg (fun h => hs h.1)]

theorem skip_loop_all_ws (sc allow : Bool) (fuel : Nat) (data : List Byte) (l : Nat)
    (hall : ∀ b ∈ data, char_int sc b ≤ 32) :
    ∃ l1, skip_loop sc allow (fuel + 1) data l false = some (.exhausted l1) := by
  obtain ⟨cons, _, hres⟩ := SkipWhitespace_spec sc data l false
  rcases hres with ⟨_, hr⟩ | ⟨c, rest, hc, e, _⟩
  · exact ⟨l + count_nl cons, by simp only [skip_loop, hr]⟩
  · have := hall c (by rw [e]; simp)
    omega

theorem lex_all_succ (sc : Bool) (C : Nat) (fuel : Nat) (st : ParseSession)
    (data : List Byte) (r : ParseOut) (h : COM_ParseExt sc C st (some data) true = some r) :
    lex_all sc C (fuel + 1) st (some data)
      = match lex_all sc C fuel r.session r.data_p with
        | none => none
        | some ts => some (r.token :: ts) := by
  simp only [lex_all, h]

theorem lex_all_null (sc : Bool) (C : Nat) (fuel : Nat) (st : ParseSession) :
    lex_all sc C (fuel + 1) st none = some [] := rfl

/-- The tokens of a text without quotes and slashes: its words, cut to the
token capacity, and the empty token of the exhausted cursor. -/
theorem lex_all_plain (sc : Bool) (C : Nat) :
    ∀ (m : Nat) (t : List Byte), t.length ≤ m → dquote ∉ t → slash ∉ t →
      ∀ (fuel : Nat) (st : ParseSession), t.length + 2 ≤ fuel →
        lex_all sc C fuel st (some t)
          = some ((words_from sc t []).map (fun x => x.take (C - 1)) ++ [[]]) := by
  intro m
  induction m with
  | zero =>
    intro t h _ _ fuel st hf
    have : t = [] := List.length_eq_zero.mp (by omega)
    subst this
    obtain ⟨f, rfl⟩ : ∃ f, fuel = f + 2 := ⟨fuel - 2, by simp at hf; omega⟩
    rfl
  | succ m ih =>
    intro t hlen hq hs fuel st hf
    obtain ⟨f, rfl⟩ : ∃ f, fuel = f + 2 := ⟨fuel - 2, by omega⟩
    obtain ⟨cons, hall, hres⟩ := SkipWhitespace_spec sc t st.com_lines false
    rcases hres with ⟨e, _⟩ | ⟨c, rest, hc, e, _⟩
    · obtain ⟨l1, hl1⟩ := skip_loop_all_ws sc true t.length t st.com_lines (by rw [e]; exact hall)
      have hw : words_from sc t [] = [] := by
        have := words_from_ws sc t [] (by rw [e]; exact hall)
        simpa [words_from, flush_word] using this
      have hp : COM_ParseExt sc C st (some t) true
          = some ⟨[], none, { st with com_lines := l1, com_tokenline := 0 }⟩ := by
        simp only [COM_ParseExt, hl1]
      rw [lex_all_succ sc C _ st t _ hp, hw]
      simp only [lex_all_null]
      rfl
    · have hcs : c ≠ slash := by
        intro h
        apply hs
        rw [e, h]
        simp
      have hcq : c ≠ dquote := by
        intro h
        apply hq
        rw [e, h]
        simp
      have hskip := skip_loop_plain sc t.length t st.com_lines cons c rest hall hc e hcs
      have hg : gt_space sc c = true := by simp [gt_space, hc]
      have hp := ParseExt_word sc C st t true c rest _ hskip hcq
      have hsub : ∀ b ∈ (c :: rest).dropWhile (gt_space sc), b ∈ t := by
        intro b hb
        rw [e]
        apply List.mem_append_right
        exact (List.dropWhile_sublist _).subset hb
      have hdl : ((c :: rest).dropWhile (gt_space sc)).length < t.length := by
        have := dropWhile_length_le (gt_space sc) rest
        rw [e]
        simp only [List.dropWhile_cons, hg, if_true, List.length_append, List.length_cons]
        omega
      have hrec := ih ((c :: rest).dropWhile (gt_space sc)) (by omega)
        (fun h => hq (hsub _ h)) (fun h => hs (hsub _ h)) (f + 1)
        { st with com_lines := st.com_lines + count_nl cons,
                  com_tokenline := st.com_lines + count_nl cons } (by omega)
      have hw : words_from sc t [] = (c :: rest).takeWhile (gt_space sc)
          :: words_from sc ((c :: rest).dropWhile (gt_space sc)) [] := by
        rw [e, words_from_ws sc cons _ hall, words_from_token sc c rest hg]
      rw [lex_all_succ sc C _ st t _ hp]
      simp only [hrec, hw]
      simp

/-- C19 (witness): the general statement at `{ a } b`, where the cursor ends at
` b`. -/
theorem skip_braced_section_witness :
    (∃ (tr : List ParseOut) (last : ParseOut),
      parse_trace true 1024 (tr.length + 1) ⟨[], 1, 0⟩ (some (cstr "\x7b a \x7d b")) = tr ++ [last] ∧
      (∀ (pre : List ParseOut) (x : ParseOut) (post : List ParseOut),
        tr ++ [last] = pre ++ x :: post → post ≠ [] →
        brace_depth ((pre ++ [x]).map (fun r => r.token)) ≠ 0 ∧ x.data_p ≠ none) ∧
      (brace_depth ((tr ++ [last]).map (fun r => r.token)) = 0 ∨ last.data_p = none) ∧
      SkipBracedSection true 1024 ⟨[], 1, 0⟩ (some (cstr "\x7b a \x7d b"))
        = some (last.session, last.data_p)) ∧
    (SkipBracedSection true 1024 ⟨[], 1, 0⟩ (some (cstr "\x7b a \x7d b"))).map (fun r => r.2)
      = some (some (cstr " b")) :=
  ⟨skip_braced_section.1 true 1024 ⟨[], 1, 0⟩ (some (cstr "\x7b a \x7d b")), rfl⟩

/-! ## The terminal step of `Info_NextPair` and the frame of `Info_SetValueForKey` -/

/-- C21 (counterexample).  At a lone backslash `Info_NextPair` returns an empty key
and an empty value, but the cursor it returns is the end of the string, not the
cursor it was given.  At a backslash followed by another backslash, as in
`\\x\k\v`, it returns an empty key together with the value `x` and the cursor
`\k\v`. -/
theorem next_pair_empty_key_moves :
    Info_NextPair (cstr "\\") = ([], [], []) ∧ ([] : List Byte) ≠ cstr "\\" ∧
    Info_NextPair (cstr "\\\\x\\k\\v") = ([], cstr "x", cstr "\\k\\v") ∧
    cstr "x" ≠ [] ∧ cstr "\\k\\v" ≠ cstr "\\\\x\\k\\v" := by
  refine ⟨rfl, by decide, rfl, by decide, by decide⟩

/-- C21 (amended).  `Info_NextPair` returns an empty key exactly at the end of the
string, at a lone backslash and at a backslash immediately followed by another
backslash.  At the end of the string it returns an empty key, an empty value
and the cursor it was given.  At a lone backslash it returns an empty key and
an empty value, with the cursor at the end of the string.  At a backslash
followed by another backslash it returns an empty key, the value is the field
that follows the second backslash, and the cursor is just past that field. -/
theorem next_pair_terminal :
    (∀ (s : List Byte),
      (Info_NextPair s).1 = [] ↔ (s = [] ∨ s = [bs] ∨ ∃ r, s = bs :: bs :: r)) ∧
    Info_NextPair [] = ([], [], []) ∧
    Info_NextPair [bs] = ([], [], []) ∧
    (∀ (v rest : List Byte), bs ∉ v → (rest = [] ∨ ∃ r, rest = bs :: r) →
      Info_NextPair (bs :: bs :: (v ++ rest)) = ([], v, rest)) := by
  have hkey : ∀ (t : List Byte), (copy_key t).1 = [] ↔ (t = [] ∨ ∃ r, t = bs :: r) := by
    intro t
    cases t with
    | nil => simp [copy_key]
    | cons c t =>
      by_cases hc : c = bs
      · simp [copy_key, hc]
      · simp [copy_key, hc]
  have hnp : ∀ (s : List Byte), (Info_NextPair s).1 = (copy_key (skip_backslash s)).1 := by
    intro s
    unfold Info_NextPair
    cases h : copy_key (skip_backslash s) with
    | mk k o =>
      cases o with
      | none => rfl
      | some s1 => rfl
  refine ⟨?_, rfl, ?_, ?_⟩
  · intro s
    rw [hnp, hkey]
    cases s with
    | nil => simp [skip_backslash]
    | cons c t =>
      by_cases hc : c = bs
      · subst hc
        rw [skip_backslash_cons]
        constructor
        · rintro (h | ⟨r, h⟩)
          · exact Or.inr (Or.inl (by rw [h]))
          · exact Or.inr (Or.inr ⟨r, by rw [h]⟩)
        · rintro (h | h | ⟨r, h⟩)
          · cases h
          · left
            injection h
          · right
            injection h with _ h2
            exact ⟨r, h2⟩
      · have hs : skip_backslash (c :: t) = c :: t := by simp [skip_backslash, hc]
        rw [hs]
        constructor
        · rintro (h | ⟨r, h⟩)
          · cases h
          · injection h with h1 _
            exact absurd h1 hc
        · rintro (h | h | ⟨r, h⟩)
          · cases h
          · injection h with h1 _
            exact absurd h1 hc
          · injection h with h1 _
            exact absurd h1 hc
  · simp [Info_NextPair, skip_backslash, copy_key]
  · intro v rest hv hrest
    simp only [Info_NextPair, skip_backslash_cons]
    have : copy_key (bs :: (v ++ rest)) = ([], some (v ++ rest)) := by simp [copy_key]
    rw [this]
    simp only [scan_value_suffix v rest hv hrest]

/-- C21 (witness): at `\\x\k\v` the key is empty, the value is `x` and the cursor is
`\k\v`. -/
theorem next_pair_terminal_witness :
    Info_NextPair (bs :: bs :: (cstr "x" ++ cstr "\\k\\v")) = ([], cstr "x", cstr "\\k\\v") :=
  next_pair_terminal.2.2.2 (cstr "x") (cstr "\\k\\v") (by decide) (Or.inr ⟨cstr "k\\v", rfl⟩)

theorem fold_eq_symm (a b : List Byte) : fold_eq a b = fold_eq b a := by
  unfold fold_eq
  by_cases h : a.length = b.length ∧ a.map locase = b.map locase
  · have h2 : b.length = a.length ∧ b.map locase = a.map locase := ⟨h.1.symm, h.2.symm⟩
    rw [decide_eq_true h, decide_eq_true h2]
  · have h2 : ¬ (b.length = a.length ∧ b.map locase = a.map locase) :=
      fun h3 => h ⟨h3.1.symm, h3.2.symm⟩
    rw [decide_eq_false h, decide_eq_false h2]

theorem fold_eq_trans (a key k2 : List Byte) (h1 : fold_eq a key = true)
    (h2 : fold_eq a k2 = true) : fold_eq k2 key = true := by
  unfold fold_eq at h1 h2 ⊢
  simp only [decide_eq_true_eq] at h1 h2 ⊢
  exact ⟨h2.1.symm.trans h1.1, h2.2.symm.trans h1.2⟩

/-- `Info_RemoveKey` on a canonical info string leaves a canonical info string in
which every key that does not match `key` is looked up as before. -/
theorem RemoveKey_encode_any (key : List Byte) (ps : List (List Byte × List Byte))
    (hclean : pairs_clean ps) :
    ∃ (n : Nat) (qs : List (List Byte × List Byte)),
      Info_RemoveKey (Info_encode ps) key = some (n, Info_encode qs) ∧
      (Info_encode qs).length + n = (Info_encode ps).length ∧ pairs_clean qs ∧
      ∀ (k2 : List Byte), fold_eq k2 key = false →
        qs.find? (fun p => fold_eq p.1 k2) = ps.find? (fun p => fold_eq p.1 k2) := by
  by_cases hex : ∃ p ∈ ps, fold_eq p.1 key = true
  · obtain ⟨ps0, p, ps1, e, hp, h0⟩ := first_match_split (fun p => fold_eq p.1 key) ps hex
    subst e
    have hpc := hclean p (by simp)
    have hc0 : pairs_clean ps0 := fun q hq => hclean q (by simp [hq])
    have hc1 : pairs_clean (ps0 ++ ps1) := by
      intro q hq
      rcases List.mem_append.mp hq with h | h
      · exact hclean q (by simp [h])
      · exact hclean q (by simp [h])
    have henc : Info_encode (ps0 ++ p :: ps1)
        = Info_encode ps0 ++ (fmt_pair p.1 p.2 ++ Info_encode ps1) := by
      simp [encode_append, Info_encode]
    have := RemoveKey_loop_hit key p.1 p.2 (Info_encode ps1) hpc.1 hpc.2 hp (encode_head ps1)
      ps0 hc0 h0 [] _ (Nat.lt_succ_self _)
    refine ⟨p.1.length + p.2.length + 2, ps0 ++ ps1, ?_, ?_, hc1, ?_⟩
    · unfold Info_RemoveKey
      rw [henc, encode_append]
      simpa using this
    · rw [henc, encode_append]
      simp only [List.length_append, fmt_pair_length]
      omega
    · intro k2 hk2
      have hpk : fold_eq p.1 k2 = false := by
        cases h : fold_eq p.1 k2
        · rfl
        · have := fold_eq_trans p.1 key k2 hp h
          rw [this] at hk2
          cases hk2
      have h2 : (p :: ps1).find? (fun q => fold_eq q.1 k2)
          = ps1.find? (fun q => fold_eq q.1 k2) := by
        rw [List.find?_cons]
        simp only [hpk]
      rw [List.find?_append, List.find?_append, h2]
  · have hno : ∀ p ∈ ps, fold_eq p.1 key = false := by
      intro p hp
      cases h : fold_eq p.1 key
      · rfl
      · exact absurd ⟨p, hp, h⟩ hex
    refine ⟨0, ps, ?_, rfl, hclean, fun _ _ => rfl⟩
    exact RemoveKey_loop_absent _ key _ _ (Nat.lt_succ_self _)
      (by rw [pairs_encode ps hclean]; exact hno)

/-- C22.  `Info_SetValueForKey` leaves every other key untouched: for every
canonical info string `s` (a concatenation of `\key\value` pairs with
backslash-free keys and values), every key and value and every key `k2` that
does not match `key`, whenever the call returns, with true or with false,
`Info_ValueForKey` with `k2` gives the same on the buffer left by the call as on
`s`.  A call returns only if `length(s) < limit`; it returns false with the
buffer as it was when the key or the value is not valid. -/
theorem set_keeps_other_keys (limit BIG : Nat) (ps : List (List Byte × List Byte))
    (key value k2 : List Byte) (b : Bool) (s1 : List Byte) (hclean : pairs_clean ps)
    (hne : fold_eq k2 key = false)
    (hset : Info_SetValueForKey limit (Info_encode ps) key value = .ok (b, s1)) :
    Info_ValueForKey BIG s1 k2 = Info_ValueForKey BIG (Info_encode ps) k2 := by
  by_cases hlen : (Info_encode ps).length < limit
  swap
  · unfold Info_SetValueForKey at hset
    simp only [ge_iff_le] at hset
    rw [if_pos (by omega)] at hset
    cases hset
  by_cases hkv : Info_ValidateKeyValue key = false ∨ key = []
  · unfold Info_SetValueForKey at hset
    simp only [ge_iff_le] at hset
    rw [if_neg (by omega), if_pos hkv] at hset
    injection hset with h
    rw [← (Prod.mk.inj h).2]
  by_cases hvv : Info_ValidateKeyValue value = false
  · unfold Info_SetValueForKey at hset
    simp only [ge_iff_le] at hset
    rw [if_neg (by omega), if_neg hkv, if_pos hvv] at hset
    injection hset with h
    rw [← (Prod.mk.inj h).2]
  have hk : valid_kv key :=
    (validate_iff key).mp (by
      cases hx : Info_ValidateKeyValue key
      · exact absurd (Or.inl hx) hkv
      · rfl)
  have hk0 : key ≠ [] := fun e => hkv (Or.inr e)
  have hv : valid_kv value :=
    (validate_iff value).mp (by
      cases hx : Info_ValidateKeyValue value
      · exact absurd hx hvv
      · rfl)
  by_cases hk2 : k2 = []
  · simp [Info_ValueForKey, hk2]
  · obtain ⟨n, qs, hr, hl, hcq, hfind⟩ := RemoveKey_encode_any key ps hclean
    have hlook : lookup BIG k2 qs = lookup BIG k2 ps := by
      unfold lookup
      rw [hfind k2 hne]
    have hkeep : Info_ValueForKey BIG (Info_encode qs) k2
        = Info_ValueForKey BIG (Info_encode ps) k2 := by
      rw [ValueForKey_eq BIG _ k2 hk2, ValueForKey_eq BIG _ k2 hk2, pairs_encode _ hcq,
        pairs_encode _ hclean, hlook]
    have happ : Info_ValueForKey BIG (Info_encode qs ++ fmt_pair key value) k2
        = Info_ValueForKey BIG (Info_encode ps) k2 := by
      have e : Info_encode qs ++ fmt_pair key value = Info_encode (qs ++ [(key, value)]) := by
        simp [encode_append, Info_encode]
      have hc : pairs_clean (qs ++ [(key, value)]) := by
        intro q hq
        rcases List.mem_append.mp hq with h | h
        · exact hcq q h
        · simp only [List.mem_singleton] at h
          subst h
          exact ⟨hk.1, hv.1⟩
      have hkk : fold_eq key k2 = false := by rw [fold_eq_symm]; exact hne
      rw [e, ValueForKey_eq BIG _ k2 hk2, ValueForKey_eq BIG _ k2 hk2, pairs_encode _ hc,
        pairs_encode _ hclean, ← hlook]
      unfold lookup
      simp [List.find?_append, List.find?_cons, hkk]
    rw [SetValueForKey_eq limit _ key value n _ hlen hk hk0 hv hr hl] at hset
    by_cases h0 : value = []
    · rw [if_pos h0] at hset
      injection hset with h
      rw [← (Prod.mk.inj h).2]
      exact hkeep
    · rw [if_neg h0] at hset
      by_cases h1 : limit ≤ key.length + value.length
      · rw [if_pos h1] at hset
        cases hset
      · rw [if_neg h1] at hset
        by_cases h2 : limit ≤ (Info_encode qs).length + (key.length + value.length + 2)
        · rw [if_pos h2] at hset
          injection hset with h
          rw [← (Prod.mk.inj h).2]
          exact hkeep
        · rw [if_neg h2] at hset
          injection hset with h
          rw [← (Prod.mk.inj h).2]
          exact happ

/-- C22 (witness): replacing `A` in `\a\1\b\2` leaves `\b\2\A\3`, where `b` is
still `2`. -/
theorem set_keeps_other_keys_witness :
    Info_SetValueForKey 1024 (Info_encode [(cstr "a", cstr "1"), (cstr "b", cstr "2")])
        (cstr "A") (cstr "3") = .ok (true, cstr "\\b\\2\\A\\3") ∧
    Info_ValueForKey 8192 (cstr "\\b\\2\\A\\3") (cstr "b")
      = Info_ValueForKey 8192 (Info_encode [(cstr "a", cstr "1"), (cstr "b", cstr "2")])
          (cstr "b") :=
  ⟨rfl, set_keeps_other_keys 1024 8192 [(cstr "a", cstr "1"), (cstr "b", cstr "2")] (cstr "A")
    (cstr "3") (cstr "b") true (cstr "\\b\\2\\A\\3") (by unfold pairs_clean; decide)
    (by decide) rfl⟩

/-! ## The write and read positions of `COM_Compress` -/

/-- A pass that meets a comment or a whitespace byte writes nothing. -/
theorem body_silent (c : Byte) (rest : List Byte) (n w : Bool) (out_pos in_pos : Nat)
    (h : (c = slash ∧ (rest.head? = some slash ∨ rest.head? = some star)) ∨
      is_blank c = true) :
    (COM_Compress_body c rest n w).emit = [] ∧
    COM_Compress_body_writes c rest n w out_pos in_pos = [] := by
  unfold COM_Compress_body COM_Compress_body_writes
  by_cases h1 : c = slash ∧ rest.head? = some slash
  · simp only [if_pos h1, and_self]
  · by_cases h2 : c = slash ∧ rest.head? = some star
    · simp only [if_neg h1, if_pos h2, and_self]
    · have hb : is_blank c = true := by
        rcases h with ⟨e, h | h⟩ | h
        · exact absurd ⟨e, h⟩ h1
        · exact absurd ⟨e, h⟩ h2
        · exact h
      by_cases h3 : c = nl ∨ c = cr
      · simp only [if_neg h1, if_neg h2, if_pos h3, and_self]
      · have h4 : c = sp ∨ c = tab := (blank_cases c hb).resolve_left h3
        simp only [if_neg h1, if_neg h2, if_neg h3, if_pos h4, and_self]

/-- A pass at a byte that is copied: what it leaves and what it writes. -/
theorem body_plain (c : Byte) (rest : List Byte) (n w : Bool) (out_pos in_pos : Nat)
    (hb : is_blank c = false) (hq : c ≠ dquote)
    (hc : ¬ (c = slash ∧ (rest.head? = some slash ∨ rest.head? = some star))) :
    COM_Compress_body c rest n w = ⟨rest, pending_sep n w ++ [c], false, false⟩ ∧
    COM_Compress_body_writes c rest n w out_pos in_pos
      = (List.range' out_pos (pending_sep n w).length).map (fun o => (o, in_pos))
        ++ [(out_pos + (pending_sep n w).length, in_pos)] := by
  have h1 : ¬ (c = slash ∧ rest.head? = some slash) := fun e => hc ⟨e.1, Or.inl e.2⟩
  have h2 : ¬ (c = slash ∧ rest.head? = some star) := fun e => hc ⟨e.1, Or.inr e.2⟩
  have h3 := (not_blank c hb).1
  have h4 := (not_blank c hb).2
  unfold COM_Compress_body COM_Compress_body_writes
  simp only [if_neg h1, if_neg h2, if_neg h3, if_neg h4, if_neg hq]
  cases n <;> cases w <;> simp [pending_sep]

/-- A pass at a double quote: what it leaves and what it writes. -/
theorem body_quote (rest : List Byte) (n w : Bool) (out_pos in_pos : Nat) :
    (COM_Compress_body dquote rest n w).emit
      = pending_sep n w ++ dquote :: (copy_quoted rest).1 ++ ((copy_quoted rest).2.take 1) ∧
    (COM_Compress_body dquote rest n w).inp = (copy_quoted rest).2.drop 1 ∧
    (COM_Compress_body dquote rest n w).newline = false ∧
    (COM_Compress_body dquote rest n w).whitespace = false ∧
    COM_Compress_body_writes dquote rest n w out_pos in_pos
      = (List.range' out_pos (pending_sep n w).length).map (fun o => (o, in_pos))
        ++ (out_pos + (pending_sep n w).length, in_pos)
        :: ((List.range (copy_quoted rest).1.length).map
              (fun j => (out_pos + (pending_sep n w).length + 1 + j, in_pos + 1 + j))
            ++ (List.range ((copy_quoted rest).2.take 1).length).map
              (fun j => (out_pos + (pending_sep n w).length + 1 + (copy_quoted rest).1.length + j,
                in_pos + 1 + (copy_quoted rest).1.length + j))) := by
  have h1 : ¬ (dquote = slash ∧ rest.head? = some slash) := fun e => dquote_ne_slash e.1
  have h2 : ¬ (dquote = slash ∧ rest.head? = some star) := fun e => dquote_ne_slash e.1
  have h3 := (not_blank dquote dquote_not_blank).1
  have h4 := (not_blank dquote dquote_not_blank).2
  unfold COM_Compress_body COM_Compress_body_writes
  simp only [if_neg h1, if_neg h2, if_neg h3, if_neg h4, if_true]
  have hr1 : List.range 1 = [0] := rfl
  cases hcq : (copy_quoted rest).2 with
  | nil => cases n <;> cases w <;> simp [pending_sep]
  | cons q r => cases n <;> cases w <;> simp [pending_sep, hr1]


theorem pending_sep_length (n w : Bool) :
    (pending_sep n w).length ≤ 1 ∧
    (0 < (pending_sep n w).length → n = true ∨ w = true) := by
  cases n <;> cases w <;> simp [pending_sep]

/-- One pass of the main loop, entered with the write position at or before
the read position (strictly before when a separator is pending): every write
is at or before the read position of that moment, which lies inside the bytes
the pass consumes; the writes are at consecutive positions from `out_pos`;
and the same relation between the two positions holds when the pass ends. -/
theorem body_writes_facts (c : Byte) (rest : List Byte) (n w : Bool) (out_pos in_pos : Nat)
    (h1 : out_pos ≤ in_pos) (h2 : n = true ∨ w = true → out_pos < in_pos) :
    (∀ e ∈ COM_Compress_body_writes c rest n w out_pos in_pos,
      e.1 ≤ e.2 ∧ in_pos ≤ e.2 ∧
        e.2 + (COM_Compress_body c rest n w).inp.length < in_pos + (rest.length + 1)) ∧
    (COM_Compress_body_writes c rest n w out_pos in_pos).map Prod.fst
      = List.range' out_pos (COM_Compress_body c rest n w).emit.length ∧
    out_pos + (COM_Compress_body c rest n w).emit.length
        + (COM_Compress_body c rest n w).inp.length ≤ in_pos + (rest.length + 1) ∧
    ((COM_Compress_body c rest n w).newline = true ∨
        (COM_Compress_body c rest n w).whitespace = true →
      out_pos + (COM_Compress_body c rest n w).emit.length
        + (COM_Compress_body c rest n w).inp.length < in_pos + (rest.length + 1)) := by
  have hlen := body_inp_length c rest n w
  have hp := pending_sep_length n w
  by_cases hs : (c = slash ∧ (rest.head? = some slash ∨ rest.head? = some star)) ∨
      is_blank c = true
  · obtain ⟨he, hw⟩ := body_silent c rest n w out_pos in_pos hs
    rw [hw, he]
    refine ⟨fun e he => absurd he (List.not_mem_nil e), rfl, ?_, fun _ => ?_⟩ <;>
      simp only [List.length_nil] <;> omega
  rcases byte_cases c rest with ⟨e, r, hr⟩ | ⟨e, r, hr⟩ | hb | hq | ⟨hb, hq, hc⟩
  · exact absurd (Or.inl ⟨e, Or.inl (by rw [hr]; rfl)⟩) hs
  · exact absurd (Or.inl ⟨e, Or.inr (by rw [hr]; rfl)⟩) hs
  · exact absurd (Or.inr hb) hs
  · subst hq
    obtain ⟨he, hi, hn, hw, hwr⟩ := body_quote rest n w out_pos in_pos
    have hsplit := congrArg List.length (copy_quoted_append rest)
    simp only [List.length_append] at hsplit
    have hil : (COM_Compress_body dquote rest n w).inp.length
        = (copy_quoted rest).2.length - 1 := by rw [hi, List.length_drop]
    have hel : (COM_Compress_body dquote rest n w).emit.length
        = (pending_sep n w).length + 1 + (copy_quoted rest).1.length
          + min 1 (copy_quoted rest).2.length := by
      rw [he]
      simp only [List.length_append, List.length_cons, List.length_take]
      omega
    rw [hwr, hil, hel, hn, hw]
    refine ⟨?_, ?_, ?_, fun h => ?_⟩
    · intro e he
      simp only [List.mem_append, List.mem_map, List.mem_cons, List.mem_range,
        List.mem_range'_1, List.length_take] at he
      rcases he with ⟨o, ho, rfl⟩ | rfl | ⟨j, hj, rfl⟩ | ⟨j, hj, rfl⟩
      · have := hp.2 (by omega)
        have := h2 this
        simp only
        omega
      · have : (pending_sep n w).length = 0 ∨ out_pos < in_pos := by
          rcases Nat.eq_zero_or_pos (pending_sep n w).length with h | h
          · exact Or.inl h
          · exact Or.inr (h2 (hp.2 h))
        simp only
        omega
      · have : (pending_sep n w).length = 0 ∨ out_pos < in_pos := by
          rcases Nat.eq_zero_or_pos (pending_sep n w).length with h | h
          · exact Or.inl h
          · exact Or.inr (h2 (hp.2 h))
        simp only
        omega
      · have : (pending_sep n w).length = 0 ∨ out_pos < in_pos := by
          rcases Nat.eq_zero_or_pos (pending_sep n w).length with h | h
          · exact Or.inl h
          · exact Or.inr (h2 (hp.2 h))
        simp only
        omega
    · have hf1 : (Prod.fst ∘ fun o : Nat => (o, in_pos)) = id := rfl
      have hf2 : (Prod.fst ∘ fun j : Nat =>
          (out_pos + (pending_sep n w).length + 1 + j, in_pos + 1 + j))
          = fun j => out_pos + (pending_sep n w).length + 1 + j := rfl
      have hf3 : (Prod.fst ∘ fun j : Nat =>
          (out_pos + (pending_sep n w).length + 1 + (copy_quoted rest).1.length + j,
            in_pos + 1 + (copy_quoted rest).1.length + j))
          = fun j => out_pos + (pending_sep n w).length + 1 + (copy_quoted rest).1.length + j :=
        rfl
      simp only [List.map_append, List.map_map, List.map_cons, List.length_take, hf1, hf2, hf3,
        List.map_id, ← List.range'_eq_map_range]
      rw [List.range'_append_1, ← List.range'_succ, List.range'_append_1]
      congr 1
      omega
    · have : (pending_sep n w).length = 0 ∨ out_pos < in_pos := by
        rcases Nat.eq_zero_or_pos (pending_sep n w).length with h | h
        · exact Or.inl h
        · exact Or.inr (h2 (hp.2 h))
      omega
    · rcases h with h | h <;> cases h
  · obtain ⟨hbd, hwr⟩ := body_plain c rest n w out_pos in_pos hb hq hc
    rw [hwr, hbd]
    have : (pending_sep n w).length = 0 ∨ out_pos < in_pos := by
      rcases Nat.eq_zero_or_pos (pending_sep n w).length with h | h
      · exact Or.inl h
      · exact Or.inr (h2 (hp.2 h))
    refine ⟨?_, ?_, ?_, fun h => ?_⟩
    · intro e he
      simp only [List.mem_append, List.mem_map, List.mem_singleton, List.mem_range'_1] at he
      rcases he with ⟨o, ho, rfl⟩ | rfl
      · simp only
        omega
      · simp only
        omega
    · have hf1 : (Prod.fst ∘ fun o : Nat => (o, in_pos)) = id := rfl
      simp only [List.map_append, List.map_map, List.map_cons, List.map_nil, hf1, List.map_id,
        List.length_append, List.length_singleton]
      rw [List.range'_1_concat]
    · simp only [List.length_append, List.length_singleton]
      omega
    · rcases h with h | h <;> cases h


theorem Compress_writes_nil (fuel out_pos in_pos : Nat) (n w : Bool) :
    COM_Compress_writes (fuel + 1) [] out_pos in_pos n w = [(out_pos, in_pos)] := rfl

theorem Compress_writes_cons (fuel : Nat) (c : Byte) (rest : List Byte) (out_pos in_pos : Nat)
    (n w : Bool) :
    COM_Compress_writes (fuel + 1) (c :: rest) out_pos in_pos n w =
      COM_Compress_body_writes c rest n w out_pos in_pos ++
        COM_Compress_writes fuel (COM_Compress_body c rest n w).inp
          (out_pos + (COM_Compress_body c rest n w).emit.length)
          (in_pos + (rest.length + 1 - (COM_Compress_body c rest n w).inp.length))
          (COM_Compress_body c rest n w).newline
          (COM_Compress_body c rest n w).whitespace := rfl

/-- The whole loop, entered at read position `in_pos` with the write position
at or before it (strictly before when a separator is pending): every write,
the final terminator included, is at or before the read position of that
moment, the read position stays inside the text, the writes fill consecutive
positions, and the write position at the end is at or before the end of the
text. -/
theorem Compress_writes_facts (m : Nat) :
    ∀ (inp : List Byte), inp.length ≤ m →
    ∀ (fuel out_pos in_pos : Nat) (n w : Bool), inp.length < fuel → out_pos ≤ in_pos →
      (n = true ∨ w = true → out_pos < in_pos) →
      (∀ e ∈ COM_Compress_writes fuel inp out_pos in_pos n w,
        e.1 ≤ e.2 ∧ in_pos ≤ e.2 ∧ e.2 ≤ in_pos + inp.length) ∧
      (COM_Compress_writes fuel inp out_pos in_pos n w).map Prod.fst
        = List.range' out_pos ((compress_from n w inp).length + 1) ∧
      out_pos + (compress_from n w inp).length ≤ in_pos + inp.length := by
  induction m with
  | zero =>
    intro inp hm fuel out_pos in_pos n w hf h1 h2
    have hnil : inp = [] := List.length_eq_zero.mp (Nat.le_zero.mp hm)
    subst hnil
    obtain ⟨f, rfl⟩ : ∃ f, fuel = f + 1 := ⟨fuel - 1, by omega⟩
    rw [Compress_writes_nil, compress_from_nil]
    refine ⟨?_, rfl, ?_⟩
    · intro e he
      rw [List.mem_singleton] at he
      subst he
      simp only [List.length_nil]
      omega
    · simp only [List.length_nil]
      omega
  | succ m ih =>
    intro inp hm fuel out_pos in_pos n w hf h1 h2
    obtain ⟨f, rfl⟩ : ∃ f, fuel = f + 1 := ⟨fuel - 1, by omega⟩
    cases inp with
    | nil =>
      rw [Compress_writes_nil, compress_from_nil]
      refine ⟨?_, rfl, ?_⟩
      · intro e he
        rw [List.mem_singleton] at he
        subst he
        simp only [List.length_nil]
        omega
      · simp only [List.length_nil]
        omega
    | cons c rest =>
      simp only [List.length_cons] at hm hf
      have hlen := body_inp_length c rest n w
      obtain ⟨b1, b2, b3, b4⟩ := body_writes_facts c rest n w out_pos in_pos h1 h2
      obtain ⟨r1, r2, r3⟩ := ih (COM_Compress_body c rest n w).inp (by omega) f
        (out_pos + (COM_Compress_body c rest n w).emit.length)
        (in_pos + (rest.length + 1 - (COM_Compress_body c rest n w).inp.length))
        (COM_Compress_body c rest n w).newline (COM_Compress_body c rest n w).whitespace
        (by omega) (by omega) (fun h => by have := b4 h; omega)
      rw [Compress_writes_cons, compress_from_cons]
      refine ⟨?_, ?_, ?_⟩
      · intro e he
        rcases List.mem_append.mp he with he | he
        · have := b1 e he
          simp only [List.length_cons]
          omega
        · have := r1 e he
          simp only [List.length_cons]
          omega
      · rw [List.map_append, b2, r2, List.range'_append_1, List.length_append]
        congr 1
        omega
      · simp only [List.length_append, List.length_cons]
        omega


/-! ## The in-place run of `COM_Compress` -/


theorem byte_at_drop (buf : List Byte) (i k : Nat) :
    byte_at buf (i + k) = byte_at (buf.drop i) k := by
  unfold byte_at
  rw [List.getD_eq_getElem?_getD, List.getD_eq_getElem?_getD, List.getElem?_drop]

theorem byte_at_head (buf : List Byte) (i : Nat) (x : Byte) (r : List Byte)
    (h : buf.drop i = x :: r) : byte_at buf i = x := by
  have := byte_at_drop buf i 0
  rw [Nat.add_zero, h] at this
  rw [this]
  rfl

theorem drop_tail (buf : List Byte) (i : Nat) (a r : List Byte)
    (h : buf.drop i = a ++ r) : buf.drop (i + a.length) = r := by
  rw [← List.drop_drop, h, List.drop_left]

theorem drop_next (buf : List Byte) (i : Nat) (x : Byte) (r : List Byte)
    (h : buf.drop i = x :: r) : buf.drop (i + 1) = r :=
  drop_tail buf i [x] r h

theorem drop_length (buf : List Byte) (i : Nat) (x : Byte) (r : List Byte)
    (h : buf.drop i = x :: r) : i + (r.length + 1) = buf.length := by
  have h1 := congrArg List.length h
  simp only [List.length_drop, List.length_cons] at h1
  omega

theorem take_succ_set (buf : List Byte) (o : Nat) (b : Byte) (h : o < buf.length) :
    (buf.set o b).take (o + 1) = buf.take o ++ [b] := by
  rw [List.set_eq_take_cons_drop b h, List.take_append_eq_append_take]
  simp [List.take_take, Nat.min_eq_left (Nat.le_of_lt h), List.length_take]

/-- The line-comment scan on the buffer stops where the scan on the text
stops. -/
theorem mem_skip_line_eq (junk : List Byte) :
    ∀ (inp : List Byte), (0 : Byte) ∉ inp → ∀ (fuel : Nat) (buf : List Byte) (i : Nat),
      buf.drop i = inp ++ 0 :: junk → inp.length < fuel →
      mem_skip_line fuel buf i = some (i + (inp.length - (skip_line inp).length)) := by
  intro inp
  induction inp with
  | nil =>
    intro _ fuel buf i hd hf
    obtain ⟨f, rfl⟩ : ∃ f, fuel = f + 1 := ⟨fuel - 1, by simp at hf; omega⟩
    have hb : byte_at buf i = 0 := byte_at_head buf i 0 junk hd
    simp [mem_skip_line, hb, skip_line]
  | cons c s ih =>
    intro h0 fuel buf i hd hf
    obtain ⟨f, rfl⟩ : ∃ f, fuel = f + 1 := ⟨fuel - 1, by simp at hf; omega⟩
    have hb : byte_at buf i = c := byte_at_head buf i c _ hd
    have hc0 : c ≠ 0 := fun e => h0 (by rw [e]; exact List.mem_cons_self _ _)
    have hs0 : (0 : Byte) ∉ s := fun e => h0 (List.mem_cons_of_mem _ e)
    have hlen := skip_line_length s
    simp only [List.length_cons] at hf
    by_cases hn : c = nl
    · simp [mem_skip_line, hb, skip_line, hn]
    · have hstep : mem_skip_line (f + 1) buf i = mem_skip_line f buf (i + 1) := by
        simp only [mem_skip_line, hb]
        rw [if_pos ⟨hc0, hn⟩]
      rw [hstep, ih hs0 f buf (i + 1) (drop_next buf i c _ hd) (by omega)]
      simp only [skip_line, if_neg hn, List.length_cons]
      congr 1
      omega


theorem byte_at_second (buf : List Byte) (i : Nat) (x y : Byte) (s junk : List Byte)
    (hy : y ≠ 0) (h : buf.drop i = x :: (s ++ 0 :: junk)) :
    byte_at buf (i + 1) = y ↔ s.head? = some y := by
  have hd := drop_next buf i x _ h
  cases s with
  | nil =>
    rw [byte_at_head buf (i + 1) 0 junk hd]
    simp only [List.head?_nil]
    constructor
    · intro e
      exact absurd e.symm hy
    · intro e
      cases e
  | cons z s =>
    rw [byte_at_head buf (i + 1) z _ hd]
    simp only [List.head?_cons, Option.some.injEq]

/-- The block-comment scan on the buffer stops where the scan on the text
stops. -/
theorem mem_scan_block_end_eq (junk : List Byte) :
    ∀ (inp : List Byte), (0 : Byte) ∉ inp → ∀ (fuel : Nat) (buf : List Byte) (i : Nat),
      buf.drop i = inp ++ 0 :: junk → inp.length < fuel →
      mem_scan_block_end fuel buf i
        = some (i + (inp.length - (scan_block_end inp).length)) := by
  intro inp
  induction inp with
  | nil =>
    intro _ fuel buf i hd hf
    obtain ⟨f, rfl⟩ : ∃ f, fuel = f + 1 := ⟨fuel - 1, by simp at hf; omega⟩
    have hb : byte_at buf i = 0 := byte_at_head buf i 0 junk hd
    simp [mem_scan_block_end, hb, scan_block_end]
  | cons c s ih =>
    intro h0 fuel buf i hd hf
    obtain ⟨f, rfl⟩ : ∃ f, fuel = f + 1 := ⟨fuel - 1, by simp at hf; omega⟩
    have hb : byte_at buf i = c := byte_at_head buf i c _ hd
    have hb1 := byte_at_second buf i c slash s junk (by decide) hd
    have hc0 : c ≠ 0 := fun e => h0 (by rw [e]; exact List.mem_cons_self _ _)
    have hs0 : (0 : Byte) ∉ s := fun e => h0 (List.mem_cons_of_mem _ e)
    have hlen := scan_block_end_length s
    simp only [List.length_cons] at hf
    by_cases hn : c = star ∧ s.head? = some slash
    · have hstop : ¬ (c ≠ 0 ∧ (c ≠ star ∨ byte_at buf (i + 1) ≠ slash)) := by
        rintro ⟨_, h | h⟩
        · exact h hn.1
        · exact h (hb1.mpr hn.2)
      simp only [mem_scan_block_end, hb, if_neg hstop, scan_block_end, if_pos hn,
        Nat.sub_self, Nat.add_zero]
    · have hgo : c ≠ 0 ∧ (c ≠ star ∨ byte_at buf (i + 1) ≠ slash) := by
        refine ⟨hc0, ?_⟩
        by_cases h1 : c = star
        · exact Or.inr (fun e => hn ⟨h1, hb1.mp e⟩)
        · exact Or.inl h1
      have hstep : mem_scan_block_end (f + 1) buf i = mem_scan_block_end f buf (i + 1) := by
        simp only [mem_scan_block_end, hb]
        rw [if_pos hgo]
      rw [hstep, ih hs0 f buf (i + 1) (drop_next buf i c _ hd) (by omega)]
      simp only [scan_block_end, if_neg hn, List.length_cons]
      congr 1
      omega

theorem skip_line_suffix (s : List Byte) : ∃ a, s = a ++ skip_line s := by
  induction s with
  | nil => exact ⟨[], rfl⟩
  | cons c s ih =>
    by_cases h : c = nl
    · exact ⟨[], by simp [skip_line, h]⟩
    · obtain ⟨a, ha⟩ := ih
      refine ⟨c :: a, ?_⟩
      simp only [skip_line, if_neg h, List.cons_append]
      rw [← ha]

theorem scan_block_end_suffix (s : List Byte) : ∃ a, s = a ++ scan_block_end s := by
  induction s with
  | nil => exact ⟨[], rfl⟩
  | cons c s ih =>
    by_cases h : c = star ∧ s.head? = some slash
    · exact ⟨[], by simp [scan_block_end, h]⟩
    · obtain ⟨a, ha⟩ := ih
      refine ⟨c :: a, ?_⟩
      simp only [scan_block_end, if_neg h, List.cons_append]
      rw [← ha]

theorem scan_block_end_stop (s : List Byte) :
    scan_block_end s = [] ∨ ∃ r, scan_block_end s = star :: slash :: r := by
  induction s with
  | nil => exact Or.inl rfl
  | cons c s ih =>
    by_cases h : c = star ∧ s.head? = some slash
    · right
      cases s with
      | nil => simp at h
      | cons y r =>
        simp only [List.head?_cons, Option.some.injEq] at h
        exact ⟨r, by simp [scan_block_end, h.1, h.2]⟩
    · simp only [scan_block_end, if_neg h]
      exact ih

/-- The unread part of the buffer after a scan that stops at a suffix `x` of
the text. -/
theorem drop_suffix (buf : List Byte) (i : Nat) (inp a x junk : List Byte)
    (hs : inp = a ++ x) (hd : buf.drop i = inp ++ 0 :: junk) :
    buf.drop (i + (inp.length - x.length)) = x ++ 0 :: junk := by
  have hl : inp.length - x.length = a.length := by
    rw [hs, List.length_append]
    omega
  rw [hl]
  apply drop_tail buf i a
  rw [hd, hs, List.append_assoc]


/-- The store `*out++ = b; in++;` made with `out` at or before `in`: the unread
part of the buffer is untouched and `b` is appended to the part written. -/
theorem put_next_facts (m : CompressMem) (b x : Byte) (r : List Byte)
    (hd : m.buf.drop m.in_pos = x :: r) (ho : m.out_pos ≤ m.in_pos) :
    (m.buf.set m.out_pos b).drop (m.in_pos + 1) = r ∧
    (m.buf.set m.out_pos b).take (m.out_pos + 1) = m.buf.take m.out_pos ++ [b] := by
  have hl := drop_length m.buf m.in_pos x r hd
  refine ⟨?_, take_succ_set m.buf m.out_pos b (by omega)⟩
  rw [List.drop_set_of_lt b m.buf (by omega)]
  exact drop_next m.buf m.in_pos x r hd

/-- The store of a pending separator, `*out++ = b;` with `out` before `in`: the
unread part of the buffer, the byte at `in` included, is untouched. -/
theorem put_pending_facts (m : CompressMem) (b x : Byte) (r : List Byte)
    (hd : m.buf.drop m.in_pos = x :: r) (ho : m.out_pos < m.in_pos) :
    (m.buf.set m.out_pos b).drop m.in_pos = x :: r ∧
    (m.buf.set m.out_pos b).take (m.out_pos + 1) = m.buf.take m.out_pos ++ [b] := by
  have hl := drop_length m.buf m.in_pos x r hd
  refine ⟨?_, take_succ_set m.buf m.out_pos b (by omega)⟩
  rw [List.drop_set_of_lt b m.buf ho]
  exact hd

theorem range_shift (a b k : Nat) :
    (a, b) :: (List.range k).map (fun j => (a + 1 + j, b + 1 + j))
      = (List.range (k + 1)).map (fun j => (a + j, b + j)) := by
  rw [List.range_succ_eq_map, List.map_cons, List.map_map]
  simp only [Nat.add_zero, List.cons.injEq, true_and]
  apply List.map_congr_left
  intro j _
  simp only [Function.comp, Prod.mk.injEq]
  omega

/-- The copy loop of a quoted section on the buffer, entered with `out` at or
before `in`, copies what the loop on the text copies and stops where it
stops; the byte in `c` at the break is the one at `in`. -/
theorem mem_copy_quoted_eq (junk : List Byte) :
    ∀ (inp : List Byte), (0 : Byte) ∉ inp → ∀ (fuel : Nat) (m : CompressMem),
      m.buf.drop m.in_pos = inp ++ 0 :: junk → m.out_pos ≤ m.in_pos → inp.length < fuel →
      ∃ m1, mem_copy_quoted fuel m = some (m1, byte_at m1.buf m1.in_pos) ∧
        m1.buf.drop m1.in_pos = (copy_quoted inp).2 ++ 0 :: junk ∧
        m1.in_pos = m.in_pos + (copy_quoted inp).1.length ∧
        m1.out_pos = m.out_pos + (copy_quoted inp).1.length ∧
        m1.buf.take m1.out_pos = m.buf.take m.out_pos ++ (copy_quoted inp).1 ∧
        m1.buf.length = m.buf.length ∧
        m1.newline = m.newline ∧ m1.whitespace = m.whitespace ∧
        m1.stores = m.stores ++
          (List.range (copy_quoted inp).1.length).map (fun j => (m.out_pos + j, m.in_pos + j)) := by
  intro inp
  induction inp with
  | nil =>
    intro _ fuel m hd ho hf
    obtain ⟨f, rfl⟩ : ∃ f, fuel = f + 1 := ⟨fuel - 1, by simp at hf; omega⟩
    have hb : byte_at m.buf m.in_pos = 0 := byte_at_head m.buf m.in_pos 0 junk hd
    refine ⟨m, ?_, ?_⟩
    · simp [mem_copy_quoted, hb]
    · simp [copy_quoted, hd]
  | cons c s ih =>
    intro h0 fuel m hd ho hf
    obtain ⟨f, rfl⟩ : ∃ f, fuel = f + 1 := ⟨fuel - 1, by simp at hf; omega⟩
    have hb : byte_at m.buf m.in_pos = c := byte_at_head m.buf m.in_pos c _ hd
    have hc0 : c ≠ 0 := fun e => h0 (by rw [e]; exact List.mem_cons_self _ _)
    have hs0 : (0 : Byte) ∉ s := fun e => h0 (List.mem_cons_of_mem _ e)
    simp only [List.length_cons] at hf
    by_cases hq : c = dquote
    · refine ⟨m, ?_, ?_⟩
      · have hstop : ¬ (c ≠ 0 ∧ c ≠ dquote) := fun h => h.2 hq
        simp only [mem_copy_quoted, hb, if_neg hstop]
      · simp [copy_quoted, hq, hd]
    · obtain ⟨p1, p2⟩ := put_next_facts m c c _ hd ho
      obtain ⟨m1, e1, e2, e3, e4, e5, e6, e7, e8, e9⟩ :=
        ih hs0 f (next_in (put_out m c)) p1 (Nat.succ_le_succ ho) (by omega)
      refine ⟨m1, ?_, ?_, ?_, ?_, ?_, ?_, e7, e8, ?_⟩
      · have hstep : mem_copy_quoted (f + 1) m = mem_copy_quoted f (next_in (put_out m c)) := by
          simp only [mem_copy_quoted, hb]
          rw [if_pos ⟨hc0, hq⟩]
        rw [hstep, e1]
      · simp only [copy_quoted, if_neg hq]
        exact e2
      · simp only [copy_quoted, if_neg hq, List.length_cons]
        rw [e3]
        show m.in_pos + 1 + _ = _
        omega
      · simp only [copy_quoted, if_neg hq, List.length_cons]
        rw [e4]
        show m.out_pos + 1 + _ = _
        omega
      · simp only [copy_quoted, if_neg hq]
        rw [e5]
        show (m.buf.set m.out_pos c).take (m.out_pos + 1) ++ _ = _
        rw [p2, List.append_assoc]
        rfl
      · rw [e6]
        show (m.buf.set m.out_pos c).length = _
        rw [List.length_set]
      · simp only [copy_quoted, if_neg hq, List.length_cons]
        rw [e9]
        show m.stores ++ [(m.out_pos, m.in_pos)] ++
          (List.range _).map (fun j => (m.out_pos + 1 + j, m.in_pos + 1 + j)) = _
        rw [List.append_assoc, ← range_shift]
        rfl


/-- The stores of a pending separator leave the unread bytes intact, because
`out` is before `in` while a separator is pending. -/
theorem put_pending_eq (junk : List Byte) (m : CompressMem) (c : Byte) (rest : List Byte)
    (hd : m.buf.drop m.in_pos = (c :: rest) ++ 0 :: junk)
    (hp : m.newline = true ∨ m.whitespace = true → m.out_pos < m.in_pos) :
    mem_advance junk m (put_pending m) 0 (c :: rest) (pending_sep m.newline m.whitespace)
      ((List.range' m.out_pos (pending_sep m.newline m.whitespace).length).map
        (fun o => (o, m.in_pos))) ∧
    (put_pending m).newline = false ∧ (put_pending m).whitespace = false := by
  unfold mem_advance put_pending pending_sep
  cases hn : m.newline
  · cases hw : m.whitespace
    · simp [hd, hn, hw]
    · obtain ⟨p1, p2⟩ := put_pending_facts m sp c _ hd (hp (Or.inr hw))
      simp [put_out, hn, p1, p2]
  · obtain ⟨p1, p2⟩ := put_pending_facts m nl c _ hd (hp (Or.inl hn))
    simp [put_out, p1, p2]


/-- One pass of the main loop on the buffer, entered with `out` at or before
`in` (before `in` while a separator is pending), does what the pass on the
text does: it leaves the same text to read, stores the same bytes, and makes
the stores listed by `COM_Compress_body_writes`. -/
theorem mem_body_eq (junk : List Byte) (m : CompressMem) (c : Byte) (rest : List Byte)
    (fuel : Nat) (h0 : (0 : Byte) ∉ c :: rest)
    (hd : m.buf.drop m.in_pos = (c :: rest) ++ 0 :: junk) (hf : rest.length + 1 < fuel)
    (ho : m.out_pos ≤ m.in_pos)
    (hp : m.newline = true ∨ m.whitespace = true → m.out_pos < m.in_pos) :
    ∃ m1, mem_body fuel m c = some m1 ∧
      mem_advance junk m m1
        (rest.length + 1 - (COM_Compress_body c rest m.newline m.whitespace).inp.length)
        (COM_Compress_body c rest m.newline m.whitespace).inp
        (COM_Compress_body c rest m.newline m.whitespace).emit
        (COM_Compress_body_writes c rest m.newline m.whitespace m.out_pos m.in_pos) ∧
      m1.newline = (COM_Compress_body c rest m.newline m.whitespace).newline ∧
      m1.whitespace = (COM_Compress_body c rest m.newline m.whitespace).whitespace := by
  have hs1 := byte_at_second m.buf m.in_pos c slash rest junk (by decide) hd
  have hs2 := byte_at_second m.buf m.in_pos c star rest junk (by decide) hd
  have hlen := drop_length m.buf m.in_pos c _ hd
  by_cases h1 : c = slash ∧ rest.head? = some slash
  · have h1m : c = slash ∧ byte_at m.buf (m.in_pos + 1) = slash := ⟨h1.1, hs1.mpr h1.2⟩
    have hbody : COM_Compress_body c rest m.newline m.whitespace
        = ⟨skip_line (c :: rest), [], m.newline, m.whitespace⟩ := by
      unfold COM_Compress_body
      rw [if_pos h1]
    have hw : COM_Compress_body_writes c rest m.newline m.whitespace m.out_pos m.in_pos = [] := by
      unfold COM_Compress_body_writes
      rw [if_pos h1]
    have hm : mem_body fuel m c
        = (mem_skip_line fuel m.buf m.in_pos).map (fun i => { m with in_pos := i }) := by
      unfold mem_body
      rw [if_pos h1m]
    obtain ⟨a, ha⟩ := skip_line_suffix (c :: rest)
    have hsl := skip_line_length (c :: rest)
    rw [hm, mem_skip_line_eq junk (c :: rest) h0 fuel m.buf m.in_pos hd
      (by simp only [List.length_cons]; omega), hbody, hw]
    refine ⟨_, rfl, ⟨?_, ?_, ?_, ?_, ?_, ?_⟩, rfl, rfl⟩
    · exact drop_suffix m.buf m.in_pos (c :: rest) a _ junk ha hd
    · simp only [List.length_cons]
    · simp only [List.length_nil, Nat.add_zero]
    · simp only [List.append_nil]
    · rfl
    · simp only [List.append_nil]
  have h1m : ¬ (c = slash ∧ byte_at m.buf (m.in_pos + 1) = slash) :=
    fun e => h1 ⟨e.1, hs1.mp e.2⟩
  by_cases h2 : c = slash ∧ rest.head? = some star
  · have h2m : c = slash ∧ byte_at m.buf (m.in_pos + 1) = star := ⟨h2.1, hs2.mpr h2.2⟩
    have hbody : COM_Compress_body c rest m.newline m.whitespace
        = ⟨(scan_block_end (c :: rest)).drop 2, [], m.newline, m.whitespace⟩ := by
      unfold COM_Compress_body
      rw [if_neg h1, if_pos h2]
    have hw : COM_Compress_body_writes c rest m.newline m.whitespace m.out_pos m.in_pos = [] := by
      unfold COM_Compress_body_writes
      rw [if_neg h1, if_pos h2]
    have hm : mem_body fuel m c
        = (mem_scan_block_end fuel m.buf m.in_pos).map (fun i =>
            if byte_at m.buf i ≠ 0 then { m with in_pos := i + 2 }
            else { m with in_pos := i }) := by
      unfold mem_body
      rw [if_neg h1m, if_pos h2m]
    obtain ⟨a, ha⟩ := scan_block_end_suffix (c :: rest)
    have hdrop := drop_suffix m.buf m.in_pos (c :: rest) a _ junk ha hd
    have hsl := scan_block_end_length (c :: rest)
    rw [hm, mem_scan_block_end_eq junk (c :: rest) h0 fuel m.buf m.in_pos hd
      (by simp only [List.length_cons]; omega), hbody, hw]
    rcases scan_block_end_stop (c :: rest) with he | ⟨r, he⟩
    · rw [he] at hdrop ⊢
      have hb := byte_at_head _ _ 0 junk hdrop
      simp only [Option.map_some', hb, ne_eq, not_true_eq_false, if_false]
      refine ⟨_, rfl, ⟨?_, ?_, ?_, ?_, ?_, ?_⟩, rfl, rfl⟩
      · exact hdrop
      · simp only [List.length_cons, List.drop_nil, List.length_nil]
      · simp only [List.length_nil, Nat.add_zero]
      · simp only [List.append_nil]
      · rfl
      · simp only [List.append_nil]
    · rw [he] at hdrop hsl ⊢
      have hb := byte_at_head _ _ star _ hdrop
      have hs0 : star ≠ (0 : Byte) := by decide
      simp only [Option.map_some', hb, ne_eq, hs0, not_false_eq_true, if_true]
      simp only [List.length_cons] at hsl
      refine ⟨_, rfl, ⟨?_, ?_, ?_, ?_, ?_, ?_⟩, rfl, rfl⟩
      · have := drop_tail m.buf _ [star, slash] (r ++ 0 :: junk) hdrop
        exact this
      · simp only [List.length_cons, List.drop_succ_cons, List.drop_zero]
        omega
      · simp only [List.length_nil, Nat.add_zero]
      · simp only [List.append_nil]
      · rfl
      · simp only [List.append_nil]
  have h2m : ¬ (c = slash ∧ byte_at m.buf (m.in_pos + 1) = star) :=
    fun e => h2 ⟨e.1, hs2.mp e.2⟩
  by_cases h3 : c = nl ∨ c = cr
  · have hbody : COM_Compress_body c rest m.newline m.whitespace
        = ⟨rest, [], true, m.whitespace⟩ := by
      unfold COM_Compress_body
      rw [if_neg h1, if_neg h2, if_pos h3]
    have hw : COM_Compress_body_writes c rest m.newline m.whitespace m.out_pos m.in_pos = [] := by
      unfold COM_Compress_body_writes
      rw [if_neg h1, if_neg h2, if_pos h3]
    have hm : mem_body fuel m c = some (next_in { m with newline := true }) := by
      unfold mem_body
      rw [if_neg h1m, if_neg h2m, if_pos h3]
    rw [hm, hbody, hw]
    refine ⟨_, rfl, ⟨?_, ?_, ?_, ?_, ?_, ?_⟩, rfl, rfl⟩
    · exact drop_next m.buf m.in_pos c _ hd
    · show m.in_pos + 1 = m.in_pos + (rest.length + 1 - rest.length)
      omega
    · simp only [List.length_nil, Nat.add_zero]
      rfl
    · simp only [List.append_nil]
      rfl
    · rfl
    · simp only [List.append_nil]
      rfl
  by_cases h4 : c = sp ∨ c = tab
  · have hbody : COM_Compress_body c rest m.newline m.whitespace
        = ⟨rest, [], m.newline, true⟩ := by
      unfold COM_Compress_body
      rw [if_neg h1, if_neg h2, if_neg h3, if_pos h4]
    have hw : COM_Compress_body_writes c rest m.newline m.whitespace m.out_pos m.in_pos = [] := by
      unfold COM_Compress_body_writes
      rw [if_neg h1, if_neg h2, if_neg h3, if_pos h4]
    have hm : mem_body fuel m c = some (next_in { m with whitespace := true }) := by
      unfold mem_body
      rw [if_neg h1m, if_neg h2m, if_neg h3, if_pos h4]
    rw [hm, hbody, hw]
    refine ⟨_, rfl, ⟨?_, ?_, ?_, ?_, ?_, ?_⟩, rfl, rfl⟩
    · exact drop_next m.buf m.in_pos c _ hd
    · show m.in_pos + 1 = m.in_pos + (rest.length + 1 - rest.length)
      omega
    · simp only [List.length_nil, Nat.add_zero]
      rfl
    · simp only [List.append_nil]
      rfl
    · rfl
    · simp only [List.append_nil]
      rfl
  have hbl : is_blank c = false := by
    unfold is_blank
    simp only [decide_eq_false_iff_not]
    rintro (h | h | h | h)
    · exact h3 (Or.inl h)
    · exact h3 (Or.inr h)
    · exact h4 (Or.inl h)
    · exact h4 (Or.inr h)
  obtain ⟨⟨q1, q2, q3, q4, q5, q6⟩, qn, qw⟩ := put_pending_eq junk m c rest hd hp
  have hpl := pending_sep_length m.newline m.whitespace
  have hpo : (put_pending m).out_pos ≤ (put_pending m).in_pos := by
    rw [q2, q3]
    rcases Nat.eq_zero_or_pos (pending_sep m.newline m.whitespace).length with h | h
    · omega
    · have := hp (hpl.2 h)
      omega
  obtain ⟨p1, p2⟩ := put_next_facts (put_pending m) c c _ q1 hpo
  by_cases hq : c = dquote
  · subst hq
    obtain ⟨be, bi, bn, bw, bwr⟩ := body_quote rest m.newline m.whitespace m.out_pos m.in_pos
    have h0r : (0 : Byte) ∉ rest := fun e => h0 (List.mem_cons_of_mem _ e)
    have hsplit := congrArg List.length (copy_quoted_append rest)
    simp only [List.length_append] at hsplit
    obtain ⟨m2, e1, e2, e3, e4, e5, e6, e7, e8, e9⟩ :=
      mem_copy_quoted_eq junk rest h0r fuel (next_in (put_out (put_pending m) dquote)) p1
        (Nat.succ_le_succ hpo) (by omega)
    have e3a : m2.in_pos = m.in_pos + 1 + (copy_quoted rest).1.length := by
      rw [e3]
      show (put_pending m).in_pos + 1 + _ = _
      rw [q2]
    have e4a : m2.out_pos = m.out_pos + (pending_sep m.newline m.whitespace).length + 1
        + (copy_quoted rest).1.length := by
      rw [e4]
      show (put_pending m).out_pos + 1 + _ = _
      rw [q3]
    have e5a : m2.buf.take m2.out_pos = m.buf.take m.out_pos
        ++ (pending_sep m.newline m.whitespace ++ dquote :: (copy_quoted rest).1) := by
      rw [e5]
      show ((put_pending m).buf.set (put_pending m).out_pos dquote).take
        ((put_pending m).out_pos + 1) ++ _ = _
      rw [p2, q4]
      simp only [List.append_assoc, List.singleton_append]
    have e6a : m2.buf.length = m.buf.length := by
      rw [e6]
      show ((put_pending m).buf.set (put_pending m).out_pos dquote).length = _
      rw [List.length_set, q5]
    have e9a : m2.stores = m.stores ++
        ((List.range' m.out_pos (pending_sep m.newline m.whitespace).length).map
            (fun o => (o, m.in_pos))
          ++ (m.out_pos + (pending_sep m.newline m.whitespace).length, m.in_pos)
          :: (List.range (copy_quoted rest).1.length).map
              (fun j => (m.out_pos + (pending_sep m.newline m.whitespace).length + 1 + j,
                m.in_pos + 1 + j))) := by
      rw [e9]
      show (put_pending m).stores ++ [((put_pending m).out_pos, (put_pending m).in_pos)]
        ++ (List.range _).map
          (fun j => ((put_pending m).out_pos + 1 + j, (put_pending m).in_pos + 1 + j)) = _
      rw [q6, q2, q3]
      simp only [List.append_assoc, List.singleton_append, Nat.add_zero]
    have hm : mem_body fuel m dquote
        = if byte_at m2.buf m2.in_pos = dquote then
            some (next_in (put_out m2 (byte_at m2.buf m2.in_pos)))
          else some m2 := by
      unfold mem_body
      rw [if_neg h1m, if_neg h2m, if_neg h3, if_neg h4, if_pos rfl, e1]
    rw [hm, be, bi, bn, bw, bwr]
    rcases copy_quoted_stop rest with hs | ⟨r, hs⟩
    · rw [hs] at e2 hsplit ⊢
      have hb := byte_at_head _ _ 0 junk e2
      have h0q : (0 : Byte) ≠ dquote := by decide
      rw [hb, if_neg h0q]
      refine ⟨m2, rfl, ⟨?_, ?_, ?_, ?_, ?_, ?_⟩, ?_, ?_⟩
      · exact e2
      · rw [e3a]
        simp only [List.drop_nil, List.length_nil] at hsplit ⊢
        omega
      · rw [e4a]
        simp only [List.take_nil, List.append_nil, List.length_append, List.length_cons]
        omega
      · rw [e5a]
        simp only [List.take_nil, List.append_nil, List.append_assoc, List.cons_append]
      · exact e6a
      · rw [e9a]
        simp only [List.take_nil, List.length_nil, List.range_zero, List.map_nil,
          List.append_nil]
      · rw [e7]
        exact qn
      · rw [e8]
        exact qw
    · rw [hs] at e2 hsplit ⊢
      have hb := byte_at_head _ _ dquote _ e2
      rw [hb, if_pos rfl]
      obtain ⟨r1, r2⟩ := put_next_facts m2 dquote dquote _ e2 (by omega)
      simp only [List.length_cons] at hsplit
      refine ⟨_, rfl, ⟨?_, ?_, ?_, ?_, ?_, ?_⟩, ?_, ?_⟩
      · exact r1
      · show m2.in_pos + 1 = _
        rw [e3a]
        simp only [List.drop_succ_cons, List.drop_zero]
        omega
      · show m2.out_pos + 1 = _
        rw [e4a]
        simp only [List.take_succ_cons, List.take_zero, List.length_append, List.length_cons,
          List.length_nil]
        omega
      · show (m2.buf.set m2.out_pos dquote).take (m2.out_pos + 1) = _
        rw [r2, e5a]
        simp only [List.take_succ_cons, List.take_zero, List.append_assoc, List.cons_append]
      · show (m2.buf.set m2.out_pos dquote).length = _
        rw [List.length_set, e6a]
      · show m2.stores ++ [(m2.out_pos, m2.in_pos)] = _
        rw [e9a, e3a, e4a]
        have hr1 : List.range 1 = [0] := rfl
        simp only [List.take_succ_cons, List.take_zero, List.length_cons, List.length_nil,
          hr1, List.map_cons, List.map_nil, List.append_assoc,
          List.cons_append, Nat.add_zero, Nat.zero_add]
      · show m2.newline = false
        rw [e7]
        exact qn
      · show m2.whitespace = false
        rw [e8]
        exact qw
  · have hc : ¬ (c = slash ∧ (rest.head? = some slash ∨ rest.head? = some star)) := by
      rintro ⟨e, h | h⟩
      · exact h1 ⟨e, h⟩
      · exact h2 ⟨e, h⟩
    obtain ⟨hbody, hw⟩ := body_plain c rest m.newline m.whitespace m.out_pos m.in_pos hbl hq hc
    have hm : mem_body fuel m c = some (next_in (put_out (put_pending m) c)) := by
      unfold mem_body
      rw [if_neg h1m, if_neg h2m, if_neg h3, if_neg h4, if_neg hq]
    rw [hm, hbody, hw]
    refine ⟨_, rfl, ⟨?_, ?_, ?_, ?_, ?_, ?_⟩, ?_, ?_⟩
    · exact p1
    · show (put_pending m).in_pos + 1 = m.in_pos + (rest.length + 1 - rest.length)
      rw [q2]
      omega
    · show (put_pending m).out_pos + 1 = _
      rw [q3, List.length_append, List.length_singleton, Nat.add_assoc]
    · show ((put_pending m).buf.set (put_pending m).out_pos c).take ((put_pending m).out_pos + 1)
        = _
      rw [p2, q4, List.append_assoc]
    · show ((put_pending m).buf.set (put_pending m).out_pos c).length = _
      rw [List.length_set, q5]
    · show (put_pending m).stores ++ [((put_pending m).out_pos, (put_pending m).in_pos)] = _
      rw [q6, q2, q3, List.append_assoc, Nat.add_zero]
    · exact qn
    · exact qw


/-- What a pass leaves to read is a suffix of what followed the byte it was
entered at. -/
theorem body_inp_suffix (c : Byte) (rest : List Byte) (n w : Bool) :
    ∃ a, rest = a ++ (COM_Compress_body c rest n w).inp := by
  unfold COM_Compress_body
  by_cases h1 : c = slash ∧ rest.head? = some slash
  · rw [if_pos h1]
    simp only [skip_line, h1.1, if_neg slash_ne_nl]
    exact skip_line_suffix rest
  · rw [if_neg h1]
    by_cases h2 : c = slash ∧ rest.head? = some star
    · rw [if_pos h2]
      have hs : ¬ (slash = star ∧ rest.head? = some slash) := fun h => slash_ne_star h.1
      simp only [scan_block_end, h2.1, if_neg hs]
      obtain ⟨a, ha⟩ := scan_block_end_suffix rest
      refine ⟨a ++ (scan_block_end rest).take 2, ?_⟩
      rw [List.append_assoc, List.take_append_drop]
      exact ha
    · rw [if_neg h2]
      by_cases h3 : c = nl ∨ c = cr
      · rw [if_pos h3]
        exact ⟨[], rfl⟩
      · rw [if_neg h3]
        by_cases h4 : c = sp ∨ c = tab
        · rw [if_pos h4]
          exact ⟨[], rfl⟩
        · rw [if_neg h4]
          by_cases hq : c = dquote
          · simp only [if_pos hq]
            have hsplit := copy_quoted_append rest
            cases hcq : (copy_quoted rest).2 with
            | nil =>
              rw [hcq] at hsplit
              exact ⟨(copy_quoted rest).1, hsplit.symm⟩
            | cons q r =>
              rw [hcq] at hsplit
              refine ⟨(copy_quoted rest).1 ++ [q], ?_⟩
              simp only [List.append_assoc, List.singleton_append]
              exact hsplit.symm
          · simp only [if_neg hq]
            exact ⟨[], rfl⟩

/-- The bytes a pass stores are bytes of the text, or the newline or the space of
a pending separator. -/
theorem body_emit_mem (c : Byte) (rest : List Byte) (n w : Bool) :
    ∀ x ∈ (COM_Compress_body c rest n w).emit, x ∈ c :: rest ∨ x = nl ∨ x = sp := by
  have hpend : ∀ x ∈ pending_sep n w, x = nl ∨ x = sp := by
    intro x hx
    cases n <;> cases w <;> simp [pending_sep] at hx <;> simp [hx]
  intro x hx
  rcases byte_cases c rest with ⟨e, r, hr⟩ | ⟨e, r, hr⟩ | hb | hq | ⟨hb, hq, hc⟩
  · rw [(body_silent c rest n w 0 0 (Or.inl ⟨e, Or.inl (by rw [hr]; rfl)⟩)).1] at hx
    cases hx
  · rw [(body_silent c rest n w 0 0 (Or.inl ⟨e, Or.inr (by rw [hr]; rfl)⟩)).1] at hx
    cases hx
  · rw [(body_silent c rest n w 0 0 (Or.inr hb)).1] at hx
    cases hx
  · subst hq
    rw [(body_quote rest n w 0 0).1] at hx
    have hsplit := copy_quoted_append rest
    simp only [List.mem_append, List.mem_cons] at hx
    rcases hx with (hx | hx | hx) | hx
    · exact Or.inr (hpend x hx)
    · exact Or.inl (by rw [hx]; exact List.mem_cons_self _ _)
    · refine Or.inl (List.mem_cons_of_mem _ ?_)
      rw [← hsplit]
      exact List.mem_append_left _ hx
    · refine Or.inl (List.mem_cons_of_mem _ ?_)
      rw [← hsplit]
      exact List.mem_append_right _ (List.mem_of_mem_take hx)
  · rw [(body_plain c rest n w 0 0 hb hq hc).1] at hx
    simp only [List.mem_append, List.mem_singleton] at hx
    rcases hx with hx | hx
    · exact Or.inr (hpend x hx)
    · exact Or.inl (by rw [hx]; exact List.mem_cons_self _ _)

/-- The bytes `COM_Compress` writes are bytes of the text, newlines or spaces. -/
theorem compress_from_bytes (m : Nat) :
    ∀ (inp : List Byte), inp.length ≤ m → ∀ (n w : Bool),
      ∀ x ∈ compress_from n w inp, x ∈ inp ∨ x = nl ∨ x = sp := by
  induction m with
  | zero =>
    intro inp hm n w x hx
    have hnil : inp = [] := List.length_eq_zero.mp (Nat.le_zero.mp hm)
    subst hnil
    rw [compress_from_nil] at hx
    cases hx
  | succ m ih =>
    intro inp hm n w x hx
    cases inp with
    | nil =>
      rw [compress_from_nil] at hx
      cases hx
    | cons c rest =>
      simp only [List.length_cons] at hm
      rw [compress_from_cons] at hx
      rcases List.mem_append.mp hx with hx | hx
      · exact body_emit_mem c rest n w x hx
      · have hlen := body_inp_length c rest n w
        obtain ⟨a, ha⟩ := body_inp_suffix c rest n w
        rcases ih _ (by omega) _ _ x hx with h | h
        · left
          refine List.mem_cons_of_mem _ ?_
          rw [ha]
          exact List.mem_append_right _ h
        · exact Or.inr h


/-- The main loop on the buffer, entered with `out` at or before `in` (before
`in` while a separator is pending) and the text `inp` left to read, returns;
it stops at the terminator, the bytes below `out` are those written before
followed by what the loop on the text writes, and its stores followed by the
store of the terminator are those listed by `COM_Compress_writes`. -/
theorem mem_loop_eq (junk : List Byte) (fuel : Nat) :
    ∀ (inp : List Byte) (m : CompressMem), (0 : Byte) ∉ inp →
      m.buf.drop m.in_pos = inp ++ 0 :: junk → inp.length < fuel → m.out_pos ≤ m.in_pos →
      (m.newline = true ∨ m.whitespace = true → m.out_pos < m.in_pos) →
      ∃ m1, mem_loop fuel m = some m1 ∧
        m1.buf.drop m1.in_pos = 0 :: junk ∧
        m1.in_pos = m.in_pos + inp.length ∧
        m1.out_pos = m.out_pos + (compress_from m.newline m.whitespace inp).length ∧
        m1.buf.take m1.out_pos
          = m.buf.take m.out_pos ++ compress_from m.newline m.whitespace inp ∧
        m1.buf.length = m.buf.length ∧
        m1.stores ++ [(m1.out_pos, m1.in_pos)]
          = m.stores ++
            COM_Compress_writes fuel inp m.out_pos m.in_pos m.newline m.whitespace := by
  induction fuel with
  | zero =>
    intro inp m _ _ hf
    exact absurd hf (Nat.not_lt_zero _)
  | succ f ih =>
    intro inp m h0 hd hf ho hp
    cases inp with
    | nil =>
      have hb : byte_at m.buf m.in_pos = 0 := byte_at_head m.buf m.in_pos 0 junk hd
      refine ⟨m, ?_, hd, ?_, ?_, ?_, rfl, ?_⟩
      · simp only [mem_loop, hb, ne_eq, not_true_eq_false, if_false]
      · simp only [List.length_nil, Nat.add_zero]
      · simp only [compress_from_nil, List.length_nil, Nat.add_zero]
      · simp only [compress_from_nil, List.append_nil]
      · rw [Compress_writes_nil]
    | cons c rest =>
      have hb : byte_at m.buf m.in_pos = c := byte_at_head m.buf m.in_pos c _ hd
      have hc0 : c ≠ 0 := fun e => h0 (by rw [e]; exact List.mem_cons_self _ _)
      have hl : m.in_pos + ((rest ++ 0 :: junk).length + 1) = m.buf.length :=
        drop_length m.buf m.in_pos c (rest ++ 0 :: junk) hd
      simp only [List.length_append, List.length_cons] at hl hf
      obtain ⟨m1, b1, ⟨a1, a2, a3, a4, a5, a6⟩, bn, bw⟩ :=
        mem_body_eq junk m c rest (m.buf.length + 1) h0 hd (by omega) ho hp
      obtain ⟨f1, f2, f3, f4⟩ :=
        body_writes_facts c rest m.newline m.whitespace m.out_pos m.in_pos ho hp
      have hlen := body_inp_length c rest m.newline m.whitespace
      obtain ⟨a, ha⟩ := body_inp_suffix c rest m.newline m.whitespace
      have h0i : (0 : Byte) ∉ (COM_Compress_body c rest m.newline m.whitespace).inp := by
        intro e
        refine h0 (List.mem_cons_of_mem _ ?_)
        rw [ha]
        exact List.mem_append_right _ e
      obtain ⟨m2, c1, c2, c3, c4, c5, c6, c7⟩ := ih _ m1 h0i a1 (by omega)
        (by rw [a2, a3]; omega)
        (fun h => by
          rw [bn, bw] at h
          have := f4 h
          rw [a2, a3]
          omega)
      refine ⟨m2, ?_, c2, ?_, ?_, ?_, ?_, ?_⟩
      · simp only [mem_loop, hb, ne_eq, hc0, not_false_eq_true, if_true, b1]
        exact c1
      · rw [c3, a2]
        simp only [List.length_cons]
        omega
      · rw [c4, a3, compress_from_cons, List.length_append, bn, bw]
        omega
      · rw [c5, a4, compress_from_cons, bn, bw, List.append_assoc]
      · rw [c6, a5]
      · rw [c7, a6, Compress_writes_cons, a2, a3, bn, bw, List.append_assoc]


/-- C23. `COM_Compress` never grows its input.  Run on the buffer itself, where
`out` writes into the bytes that `in` reads, on any text `s` (its bytes, a
terminator, and whatever follows in the buffer), the function returns; the
buffer then holds a text `t` and its terminator; the returned length is the
length of `t`, which is at most the length of `s`; `t` is what the model
`COM_Compress` on texts gives; and every store of the pass, the terminator
included, goes to an offset at or before the offset of `in` at that moment,
which is inside `s` or at its terminator, the stores filling the offsets
`0, 1, …, length t` one after the other. -/
theorem compress_never_grows (s junk : List Byte) (h0 : (0 : Byte) ∉ s) :
    ∃ (t tail : List Byte) (log : List (Nat × Nat)),
      COM_Compress_in_place (s ++ 0 :: junk) = some (t.length, t ++ 0 :: tail, log) ∧
      (0 : Byte) ∉ t ∧ t.length ≤ s.length ∧
      t.length + tail.length = s.length + junk.length ∧
      COM_Compress s = some (t.length, t) ∧
      (∀ e ∈ log, e.1 ≤ e.2 ∧ e.2 ≤ s.length) ∧
      log.map Prod.fst = List.range (t.length + 1) := by
  obtain ⟨m1, c1, c2, c3, c4, c5, c6, c7⟩ :=
    mem_loop_eq junk ((s ++ 0 :: junk).length + 1) s ⟨s ++ 0 :: junk, 0, 0, false, false, []⟩
      h0 rfl (by simp only [List.length_append, List.length_cons]; omega) (le_refl _)
      (fun h => by rcases h with h | h <;> cases h)
  obtain ⟨w1, w2, w3⟩ := Compress_writes_facts s.length s (le_refl _)
    ((s ++ 0 :: junk).length + 1) 0 0 false false
    (by simp only [List.length_append, List.length_cons]; omega) (le_refl _)
    (fun h => by rcases h with h | h <;> cases h)
  simp only [List.take_zero, List.nil_append, Nat.zero_add] at c4 c5 c7 w1 w2 w3
  have hlen : m1.buf.length = s.length + (junk.length + 1) := by
    rw [c6]
    simp only [List.length_append, List.length_cons]
  have hout : m1.out_pos < m1.buf.length := by omega
  refine ⟨compress_from false false s, m1.buf.drop (m1.out_pos + 1), m1.stores
    ++ [(m1.out_pos, m1.in_pos)], ?_, ?_, w3, ?_, Compress_eq s, ?_, ?_⟩
  · unfold COM_Compress_in_place
    rw [c1, Option.map_some', List.set_eq_take_cons_drop 0 hout, c5, c4]
  · intro e
    rcases compress_from_bytes s.length s (le_refl _) false false 0 e with h | h | h
    · exact h0 h
    · exact absurd h (by decide)
    · exact absurd h (by decide)
  · rw [List.length_drop]
    omega
  · rw [c7]
    intro e he
    have := w1 e he
    omega
  · rw [c7, w2, List.range_eq_range']

/-- C23 (witness): the run on the buffer that holds `a  /*x*/ "b  c"`, two line
feeds, `// z`, a line feed and `d`. -/
theorem compress_never_grows_witness :
    COM_Compress_in_place (cstr "a  /*x*/ \"b  c\"\n\n// z\nd" ++ [0])
      = some (10, cstr "a \"b  c\"\nd" ++ 0 :: cstr "  c\"\n\n// z\nd" ++ [0],
          [(0, 0), (1, 9), (2, 9), (3, 10), (4, 11), (5, 12), (6, 13), (7, 14), (8, 22),
            (9, 22), (10, 23)]) ∧
    (0 : Byte) ∉ cstr "a  /*x*/ \"b  c\"\n\n// z\nd" ∧
    ∃ (t tail : List Byte) (log : List (Nat × Nat)),
      COM_Compress_in_place (cstr "a  /*x*/ \"b  c\"\n\n// z\nd" ++ 0 :: [])
        = some (t.length, t ++ 0 :: tail, log) ∧
      (0 : Byte) ∉ t ∧ t.length ≤ (cstr "a  /*x*/ \"b  c\"\n\n// z\nd").length ∧
      t.length + tail.length
        = (cstr "a  /*x*/ \"b  c\"\n\n// z\nd").length + ([] : List Byte).length ∧
      COM_Compress (cstr "a  /*x*/ \"b  c\"\n\n// z\nd") = some (t.length, t) ∧
      (∀ e ∈ log, e.1 ≤ e.2 ∧ e.2 ≤ (cstr "a  /*x*/ \"b  c\"\n\n// z\nd").length) ∧
      log.map Prod.fst = List.range (t.length + 1) :=
  ⟨rfl, by decide, compress_never_grows (cstr "a  /*x*/ \"b  c\"\n\n// z\nd") [] (by decide)⟩

/-! ## The head loop of the lexer, line breaks -/

/-! ### The head loop of the lexer over whitespace and comments -/

theorem SkipWhitespace_append (sc : Bool) :
    ∀ (ws data : List Byte) (l : Nat) (h : Bool), (∀ b ∈ ws, char_int sc b ≤ 32) →
      SkipWhitespace sc (ws ++ data) l h
        = SkipWhitespace sc data (l + count_nl ws) (h || decide (nl ∈ ws)) := by
  intro ws
  induction ws with
  | nil => intro data l h _; simp [count_nl]
  | cons b ws ih =>
    intro data l h hall
    have hb := hall b (List.mem_cons_self _ _)
    have hws : ∀ x ∈ ws, char_int sc x ≤ 32 := fun x hx => hall x (List.mem_cons_of_mem _ hx)
    by_cases hn : b = nl
    · rw [List.cons_append]
      simp only [SkipWhitespace, if_pos hb, if_pos hn]
      rw [ih _ _ _ hws]
      simp [count_nl, hn]
      congr 1
      omega
    · have hn2 : ¬ nl = b := fun e => hn e.symm
      rw [List.cons_append]
      simp only [SkipWhitespace, if_pos hb, if_neg hn]
      rw [ih _ _ _ hws]
      simp [count_nl, hn, hn2]

theorem SkipWhitespace_token (sc : Bool) (c : Byte) (rest : List Byte) (l : Nat) (h : Bool)
    (hc : 32 < char_int sc c) :
    SkipWhitespace sc (c :: rest) l h = (some (c :: rest), l, h) := by
  have h1 : ¬ char_int sc c ≤ 32 := by omega
  simp only [SkipWhitespace, if_neg h1]

/-- The head loop passes over whitespace. -/
theorem skip_loop_ws (sc allow : Bool) (f : Nat) (ws data : List Byte) (l : Nat) (h : Bool)
    (hws : ∀ b ∈ ws, char_int sc b ≤ 32) :
    skip_loop sc allow (f + 1) (ws ++ data) l h
      = skip_loop sc allow (f + 1) data (l + count_nl ws) (h || decide (nl ∈ ws)) := by
  simp only [skip_loop, SkipWhitespace_append sc ws data l h hws]

theorem slash_gt_space (sc : Bool) : 32 < char_int sc slash := by
  cases sc <;> decide

/-- The head loop passes over a line comment, unless it has to stop for a line
break. -/
theorem skip_loop_line (sc allow : Bool) (f : Nat) (r : List Byte) (l : Nat) (h : Bool)
    (hh : h = false ∨ allow = true) :
    skip_loop sc allow (f + 1) (slash :: slash :: r) l h
      = skip_loop sc allow f (skip_line r) l h := by
  have hstop : ¬ (h = true ∧ allow = false) := by
    rintro ⟨h1, h2⟩
    rcases hh with e | e
    · rw [e] at h1; cases h1
    · rw [e] at h2; cases h2
  simp only [skip_loop, SkipWhitespace_token sc slash _ l h (slash_gt_space sc)]
  rw [if_neg hstop]
  simp

/-- The head loop passes over a block comment, unless it has to stop for a line
break. -/
theorem skip_loop_block (sc allow : Bool) (f : Nat) (r : List Byte) (l : Nat) (h : Bool)
    (hh : h = false ∨ allow = true) :
    skip_loop sc allow (f + 1) (slash :: star :: r) l h
      = skip_loop sc allow f ((scan_block_lines r l).1.drop 2) (scan_block_lines r l).2 h := by
  have hstop : ¬ (h = true ∧ allow = false) := by
    rintro ⟨h1, h2⟩
    rcases hh with e | e
    · rw [e] at h1; cases h1
    · rw [e] at h2; cases h2
  have h1 : star ≠ slash := by decide
  simp only [skip_loop, SkipWhitespace_token sc slash _ l h (slash_gt_space sc)]
  rw [if_neg hstop]
  simp [h1]

/-- The outcome of the head loop does not depend on the fuel, once there is
enough of it. -/
theorem skip_loop_fuel (sc allow : Bool) :
    ∀ (n : Nat) (data : List Byte), data.length ≤ n → ∀ (f g l : Nat) (h : Bool),
      data.length < f → data.length < g →
      skip_loop sc allow f data l h = skip_loop sc allow g data l h := by
  intro n
  induction n with
  | zero =>
    intro data hn f g l h hf hg
    have : data = [] := List.length_eq_zero.mp (by omega)
    subst this
    obtain ⟨f, rfl⟩ : ∃ k, f = k + 1 := ⟨f - 1, by omega⟩
    obtain ⟨g, rfl⟩ : ∃ k, g = k + 1 := ⟨g - 1, by omega⟩
    simp only [skip_loop, SkipWhitespace]
  | succ n ih =>
    intro data hn f g l h hf hg
    obtain ⟨f, rfl⟩ : ∃ k, f = k + 1 := ⟨f - 1, by omega⟩
    obtain ⟨g, rfl⟩ : ∃ k, g = k + 1 := ⟨g - 1, by omega⟩
    obtain ⟨cons, hall, hres⟩ := SkipWhitespace_spec sc data l h
    rcases hres with ⟨e, hr⟩ | ⟨c, rest, hc, e, hr⟩
    · simp only [skip_loop, hr]
    · have hlen : rest.length < data.length := by
        rw [e]
        simp only [List.length_append, List.length_cons]
        omega
      simp only [skip_loop, hr]
      by_cases hb : (h || decide (nl ∈ cons)) = true ∧ allow = false
      · rw [if_pos hb, if_pos hb]
      · rw [if_neg hb, if_neg hb]
        by_cases h1 : c = slash ∧ rest.head? = some slash
        · rw [if_pos h1, if_pos h1]
          have h2 := skip_line_length (rest.drop 1)
          have h3 : (rest.drop 1).length ≤ rest.length := by
            simp only [List.length_drop]
            omega
          exact ih _ (by omega) _ _ _ _ (by omega) (by omega)
        · rw [if_neg h1, if_neg h1]
          by_cases h2 : c = slash ∧ rest.head? = some star
          · rw [if_pos h2, if_pos h2]
            obtain ⟨cons2, e2, _, _⟩ := scan_block_lines_spec (rest.drop 1) (l + count_nl cons)
            have h3 := congrArg List.length e2
            simp only [List.length_append, List.length_drop] at h3
            have h4 : ((scan_block_lines (rest.drop 1) (l + count_nl cons)).1.drop 2).length
                ≤ rest.length := by
              simp only [List.length_drop]
              omega
            exact ih _ (by omega) _ _ _ _ (by omega) (by omega)
          · rw [if_neg h2, if_neg h2]

theorem SkipWhitespace_flag (sc : Bool) :
    ∀ (data : List Byte) (l : Nat) (h : Bool),
      SkipWhitespace sc data l h
        = ((SkipWhitespace sc data l false).1, (SkipWhitespace sc data l false).2.1,
            h || (SkipWhitespace sc data l false).2.2) := by
  intro data
  induction data with
  | nil => intro l h; simp [SkipWhitespace]
  | cons c s ih =>
    intro l h
    by_cases hc : char_int sc c ≤ 32
    · by_cases hn : c = nl
      · simp only [SkipWhitespace, if_pos hc, if_pos hn]
        rw [ih (l + 1) true]
        simp
      · simp only [SkipWhitespace, if_pos hc, if_neg hn]
        exact ih l h
    · simp [SkipWhitespace, hc]

/-- With line breaks allowed the outcome of the head loop does not depend on
`hasNewLines`. -/
theorem skip_loop_flag (sc : Bool) :
    ∀ (f : Nat) (data : List Byte) (l : Nat) (h : Bool),
      skip_loop sc true f data l h = skip_loop sc true f data l false := by
  intro f
  induction f with
  | zero => intro data l h; rfl
  | succ f ih =>
    intro data l h
    rw [skip_loop, skip_loop, SkipWhitespace_flag sc data l h]
    rcases hsw : SkipWhitespace sc data l false with ⟨p, l1, h1⟩
    cases p with
    | none => rfl
    | some d =>
      cases d with
      | nil => rfl
      | cons c rest =>
        simp only [Bool.true_eq_false, and_false, if_false]
        rw [ih _ _ (h || h1), ih _ _ h1, ih _ _ (h || h1), ih _ _ h1]

/-- Two calls whose head loops end alike return alike. -/
theorem Parse_of_skip (sc : Bool) (C : Nat) (is_sep : Byte → Bool) (st : ParseSession)
    (allow allow2 : Bool) (data data2 : List Byte) (l2 : Nat)
    (h : skip_loop sc allow (data.length + 1) data st.com_lines false
      = skip_loop sc allow2 (data2.length + 1) data2 l2 false) :
    COM_ParseExt sc C st (some data) allow
      = COM_ParseExt sc C { st with com_lines := l2 } (some data2) allow2 ∧
    COM_ParseSep sc C is_sep st (some data) allow
      = COM_ParseSep sc C is_sep { st with com_lines := l2 } (some data2) allow2 := by
  constructor
  · simp only [COM_ParseExt, h]
  · simp only [COM_ParseSep, h]

/-- The scan of a block comment stops at the `*/` that closes the body. -/
theorem scan_closed :
    ∀ (body Y : List Byte) (l : Nat),
      scan_block_end (body ++ [star, slash]) = [star, slash] →
      scan_block_lines (body ++ star :: slash :: Y) l
          = (star :: slash :: Y, l + count_nl body) ∧
        scan_block_end (body ++ star :: slash :: Y) = star :: slash :: Y := by
  intro body
  induction body with
  | nil =>
    intro Y l _
    simp [scan_block_lines, scan_block_end, count_nl]
  | cons c body ih =>
    intro Y l h
    have hhead : ∀ (Z : List Byte), (body ++ star :: slash :: Z).head?
        = (body ++ [star, slash]).head? := by
      intro Z
      cases body <;> rfl
    have hno : ¬ (c = star ∧ (body ++ [star, slash]).head? = some slash) := by
      intro hc
      rw [List.cons_append, scan_block_end, if_pos hc] at h
      have := congrArg List.length h
      simp only [List.length_cons, List.length_append, List.length_nil] at this
      omega
    rw [List.cons_append, scan_block_end, if_neg hno] at h
    have hno2 : ¬ (c = star ∧ (body ++ star :: slash :: Y).head? = some slash) := by
      rw [hhead]
      exact hno
    obtain ⟨i1, i2⟩ := ih Y (if c = nl then l + 1 else l) h
    constructor
    · rw [List.cons_append, scan_block_lines, if_neg hno2, i1]
      by_cases hn : c = nl
      · simp [count_nl, hn]
        omega
      · simp [count_nl, hn]
    · rw [List.cons_append, scan_block_end, if_neg hno2, i2]

theorem count_nl_cons (c : Byte) (s : List Byte) :
    count_nl (c :: s) = (if c = nl then 1 else 0) + count_nl s := rfl

/-- The head loop passes over a quiet gap: it goes on after it, with
`com_lines` grown by the `\n` bytes of the gap (those inside its block
comments) and `hasNewLines` still clear. -/
theorem skip_loop_gap (sc allow : Bool) (g : List Byte) (hg : quiet_gap sc g) :
    ∀ (X : List Byte) (l : Nat),
      skip_loop sc allow ((g ++ X).length + 1) (g ++ X) l false
        = skip_loop sc allow (X.length + 1) X (l + count_nl g) false := by
  induction hg with
  | done => intro X l; simp [count_nl]
  | blank b g hb hn _ ih =>
    intro X l
    have h1 := skip_loop_ws sc allow (b :: g ++ X).length [b] (g ++ X) l false (by
      intro x hx
      rw [List.mem_singleton] at hx
      rw [hx]
      exact hb)
    have hn2 : ¬ nl = b := fun e => hn e.symm
    simp only [List.singleton_append, count_nl, if_neg hn, List.mem_singleton, hn2,
      decide_False, Bool.or_false, Nat.add_zero] at h1
    have hfix : skip_loop sc allow ((b :: g ++ X).length + 1) (g ++ X) l false
        = skip_loop sc allow ((g ++ X).length + 1) (g ++ X) l false :=
      skip_loop_fuel sc allow _ _ (le_refl _) _ _ _ _
        (by simp only [List.cons_append, List.length_cons]; omega) (by omega)
    rw [count_nl_cons, if_neg hn, Nat.zero_add]
    exact (h1.trans hfix).trans (ih X l)
  | block body g hb _ ih =>
    intro X l
    obtain ⟨s1, _⟩ := scan_closed body (g ++ X) l hb
    have h1 := skip_loop_block sc allow
      ((slash :: star :: (body ++ star :: slash :: g) ++ X).length)
      (body ++ star :: slash :: (g ++ X)) l false (Or.inl rfl)
    rw [s1] at h1
    simp only [List.drop_succ_cons, List.drop_zero] at h1
    have e : slash :: star :: (body ++ star :: slash :: g) ++ X
        = slash :: star :: (body ++ star :: slash :: (g ++ X)) := by simp
    have hc : count_nl (slash :: star :: (body ++ star :: slash :: g))
        = count_nl body + count_nl g := by
      simp only [count_nl_cons, count_nl_append, if_neg slash_ne_nl, if_neg star_ne_nl]
      omega
    rw [hc, ← Nat.add_assoc, ← ih X (l + count_nl body)]
    rw [← e] at h1
    rw [h1]
    exact skip_loop_fuel sc allow _ _ (le_refl _) _ _ _ _
      (by simp only [List.length_append, List.length_cons]; omega) (by omega)

theorem Parse_of_skip_sessions (sc : Bool) (C : Nat) (is_sep : Byte → Bool)
    (st st2 : ParseSession) (allow allow2 : Bool) (data data2 : List Byte)
    (hname : st.com_parsename = st2.com_parsename)
    (h : skip_loop sc allow (data.length + 1) data st.com_lines false
      = skip_loop sc allow2 (data2.length + 1) data2 st2.com_lines false) :
    COM_ParseExt sc C st (some data) allow = COM_ParseExt sc C st2 (some data2) allow2 ∧
    COM_ParseSep sc C is_sep st (some data) allow
      = COM_ParseSep sc C is_sep st2 (some data2) allow2 := by
  cases st with
  | mk n1 l1 t1 =>
    cases st2 with
    | mk n2 l2 t2 =>
      simp only at hname h
      subst hname
      constructor
      · simp only [COM_ParseExt, h]
      · simp only [COM_ParseSep, h]

/-- Entered with `hasNewLines` set and line breaks not allowed, the head loop
stops at the first byte greater than space. -/
theorem skip_loop_break (sc : Bool) (f : Nat) (c : Byte) (rest : List Byte) (l : Nat)
    (hc : 32 < char_int sc c) :
    skip_loop sc false (f + 1) (c :: rest) l true = some (.lineBreak (c :: rest) l) := by
  simp [skip_loop, SkipWhitespace_token sc c rest l true hc]

theorem skip_line_stop (body Y : List Byte) (h : nl ∉ body) :
    skip_line (body ++ nl :: Y) = nl :: Y := by
  induction body with
  | nil => simp [skip_line]
  | cons c body ih =>
    simp only [List.mem_cons, not_or] at h
    have hc : c ≠ nl := fun e => h.1 e.symm
    rw [List.cons_append, skip_line, if_neg hc]
    exact ih h.2

theorem count_nl_of_not_mem (s : List Byte) (h : nl ∉ s) : count_nl s = 0 :=
  count_nl_eq_zero s (fun _ hb e => h (e ▸ hb))

/-- The head loop on a quiet gap followed by whitespace with a `\n` and a byte
greater than space. -/
theorem skip_loop_shape_ws (sc allow : Bool) (g ws : List Byte) (c : Byte) (rest : List Byte)
    (l : Nat) (hg : quiet_gap sc g) (hws : ∀ b ∈ ws, char_int sc b ≤ 32) (hn : nl ∈ ws) :
    skip_loop sc allow ((g ++ ws ++ c :: rest).length + 1) (g ++ ws ++ c :: rest) l false
      = skip_loop sc allow ((c :: rest).length + 1) (c :: rest) (l + count_nl (g ++ ws)) true := by
  rw [List.append_assoc, skip_loop_gap sc allow g hg, skip_loop_ws sc allow _ ws _ _ _ hws,
    count_nl_append, Nat.add_assoc]
  simp only [hn, decide_True, Bool.or_true]
  exact skip_loop_fuel sc allow _ _ (le_refl _) _ _ _ _
    (by simp only [List.length_append, List.length_cons]; omega) (by omega)

/-- The head loop on a quiet gap followed by a line comment, its `\n`, further
whitespace and a byte greater than space. -/
theorem skip_loop_shape_line (sc allow : Bool) (g body ws : List Byte) (c : Byte)
    (rest : List Byte) (l : Nat) (hg : quiet_gap sc g) (hb : nl ∉ body)
    (hws : ∀ b ∈ ws, char_int sc b ≤ 32) :
    skip_loop sc allow ((g ++ slash :: slash :: (body ++ nl :: (ws ++ c :: rest))).length + 1)
        (g ++ slash :: slash :: (body ++ nl :: (ws ++ c :: rest))) l false
      = skip_loop sc allow ((c :: rest).length + 1) (c :: rest)
          (l + count_nl (g ++ slash :: slash :: (body ++ nl :: ws))) true := by
  have hws2 : ∀ b ∈ nl :: ws, char_int sc b ≤ 32 := by
    intro b hb2
    rcases List.mem_cons.mp hb2 with e | e
    · rw [e]
      exact nl_le_space sc
    · exact hws b e
  have hcnt : count_nl (g ++ slash :: slash :: (body ++ nl :: ws))
      = count_nl g + count_nl (nl :: ws) := by
    simp only [count_nl_append, count_nl_cons, if_neg slash_ne_nl, count_nl_of_not_mem body hb]
    omega
  rw [skip_loop_gap sc allow g hg, List.length_cons, skip_loop_line sc allow _ _ _ _ (Or.inl rfl),
    skip_line_stop body _ hb, hcnt, ← Nat.add_assoc]
  have e : nl :: (ws ++ c :: rest) = (nl :: ws) ++ c :: rest := rfl
  rw [e]
  rw [skip_loop_ws sc allow _ (nl :: ws) _ _ _ hws2]
  simp only [List.mem_cons, true_or, decide_True, Bool.or_true]
  exact skip_loop_fuel sc allow _ _ (le_refl _) _ _ _ _
    (by simp only [List.length_append, List.length_cons]; omega) (by omega)

/-- Without line breaks allowed the head loop either stops for a line break or
ends as it does with line breaks allowed. -/
theorem skip_loop_or (sc : Bool) :
    ∀ (f : Nat) (data : List Byte) (l : Nat) (h : Bool),
      (∃ d l1, d ≠ [] ∧ skip_loop sc false f data l h = some (.lineBreak d l1)) ∨
      skip_loop sc false f data l h = skip_loop sc true f data l h := by
  intro f
  induction f with
  | zero => intro data l h; exact Or.inr rfl
  | succ f ih =>
    intro data l h
    rw [skip_loop, skip_loop]
    rcases hsw : SkipWhitespace sc data l h with ⟨p, l1, h1⟩
    cases p with
    | none => exact Or.inr rfl
    | some d =>
      cases d with
      | nil => exact Or.inr rfl
      | cons c rest =>
        simp only [Bool.true_eq_false, and_false, if_false, and_true]
        by_cases hb : h1 = true
        · left
          exact ⟨c :: rest, l1, by simp, by rw [if_pos hb]⟩
        · rw [if_neg hb]
          by_cases hc1 : c = slash ∧ rest.head? = some slash
          · rw [if_pos hc1, if_pos hc1]
            exact ih _ _ _
          · rw [if_neg hc1, if_neg hc1]
            by_cases hc2 : c = slash ∧ rest.head? = some star
            · rw [if_pos hc2, if_pos hc2]
              exact ih _ _ _
            · rw [if_neg hc2, if_neg hc2]
              exact Or.inr rfl

/-! ### The inputs on which the lexer stops for a line break -/

theorem quiet_append (sc : Bool) (g1 g2 : List Byte) (h1 : quiet_gap sc g1)
    (h2 : quiet_gap sc g2) : quiet_gap sc (g1 ++ g2) := by
  induction h1 with
  | done => exact h2
  | blank b g hb hn _ ih => exact quiet_gap.blank b _ hb hn ih
  | block body g hb _ ih =>
    have e : slash :: star :: (body ++ star :: slash :: g) ++ g2
        = slash :: star :: (body ++ star :: slash :: (g ++ g2)) := by simp
    rw [e]
    exact quiet_gap.block body _ hb ih

theorem quiet_blanks (sc : Bool) (ws : List Byte) (h : ∀ b ∈ ws, char_int sc b ≤ 32)
    (hn : nl ∉ ws) : quiet_gap sc ws := by
  induction ws with
  | nil => exact quiet_gap.done
  | cons b ws ih =>
    simp only [List.mem_cons, not_or] at hn
    exact quiet_gap.blank b ws (h b (List.mem_cons_self _ _)) (fun e => hn.1 e.symm)
      (ih (fun x hx => h x (List.mem_cons_of_mem _ hx)) hn.2)

theorem quiet_head (sc : Bool) (g : List Byte) (h : quiet_gap sc g) :
    g = [] ∨ ∃ b r, g = b :: r ∧ b ≠ nl := by
  cases h with
  | done => exact Or.inl rfl
  | blank b g _ hn _ => exact Or.inr ⟨b, g, rfl, hn⟩
  | block body g _ _ => exact Or.inr ⟨slash, _, rfl, slash_ne_nl⟩

theorem skip_line_split (r : List Byte) :
    ∃ body, r = body ++ skip_line r ∧ nl ∉ body ∧
      (skip_line r = [] ∨ ∃ Y, skip_line r = nl :: Y) := by
  induction r with
  | nil => exact ⟨[], rfl, by simp, Or.inl rfl⟩
  | cons c r ih =>
    by_cases h : c = nl
    · exact ⟨[], by simp [skip_line, h], by simp, Or.inr ⟨r, by simp [skip_line, h]⟩⟩
    · obtain ⟨body, e, hb, hs⟩ := ih
      refine ⟨c :: body, ?_, ?_, ?_⟩
      · simp only [skip_line, if_neg h, List.cons_append]
        rw [← e]
      · simp only [List.mem_cons, not_or]
        exact ⟨fun e2 => h e2.symm, hb⟩
      · simpa only [skip_line, if_neg h] using hs

theorem scan_block_split (r : List Byte) :
    scan_block_end r = [] ∨
    ∃ body Y, r = body ++ star :: slash :: Y ∧ scan_block_end r = star :: slash :: Y ∧
      scan_block_end (body ++ [star, slash]) = [star, slash] := by
  induction r with
  | nil => exact Or.inl rfl
  | cons c s ih =>
    by_cases h : c = star ∧ s.head? = some slash
    · right
      cases s with
      | nil => simp at h
      | cons d Y =>
        have hd : d = slash := by simpa using h.2
        refine ⟨[], Y, by simp [h.1, hd], by simp [scan_block_end, h.1, hd], ?_⟩
        simp [scan_block_end]
    · rcases ih with h0 | ⟨body, Y, e, hs, hb⟩
      · left
        simp only [scan_block_end, if_neg h]
        exact h0
      · right
        refine ⟨c :: body, Y, by rw [e]; rfl, by simp only [scan_block_end, if_neg h]; exact hs, ?_⟩
        have hhead : (body ++ [star, slash]).head? = s.head? := by
          rw [e]
          cases body <;> rfl
        rw [List.cons_append, scan_block_end, if_neg (by rw [hhead]; exact h)]
        exact hb

theorem scan_block_lines_fst : ∀ (s : List Byte) (l : Nat),
    (scan_block_lines s l).1 = scan_block_end s := by
  intro s
  induction s with
  | nil => intro l; rfl
  | cons c s ih =>
    intro l
    by_cases h : c = star ∧ s.head? = some slash
    · simp only [scan_block_lines, scan_block_end, if_pos h]
    · simp only [scan_block_lines, scan_block_end, if_neg h]
      exact ih _

/-- When the head loop stops for a line break, the input is a quiet gap, then
whitespace with a `\n` (or a line comment, its `\n` and whitespace), and then
the byte greater than space at which the cursor is left. -/
theorem skip_loop_break_shape (sc : Bool) :
    ∀ (f : Nat) (data : List Byte) (l : Nat) (d : List Byte) (l1 : Nat),
      skip_loop sc false f data l false = some (.lineBreak d l1) →
      ∃ c rest, d = c :: rest ∧ 32 < char_int sc c ∧
        ((∃ g ws, quiet_gap sc g ∧ (∀ b ∈ ws, char_int sc b ≤ 32) ∧ nl ∈ ws ∧
            data = g ++ ws ++ c :: rest) ∨
          (∃ g body ws, quiet_gap sc g ∧ nl ∉ body ∧ (∀ b ∈ ws, char_int sc b ≤ 32) ∧
            data = g ++ slash :: slash :: (body ++ nl :: (ws ++ c :: rest)))) := by
  intro f
  induction f with
  | zero => intro data l d l1 h; simp [skip_loop] at h
  | succ f ih =>
    intro data l d l1 h
    obtain ⟨cons, hall, hres⟩ := SkipWhitespace_spec sc data l false
    rcases hres with ⟨e, hr⟩ | ⟨c, rest, hc, e, hr⟩
    · simp only [skip_loop, hr] at h
      cases h
    · simp only [skip_loop, hr, Bool.false_or, decide_eq_true_eq, and_true] at h
      by_cases hn : nl ∈ cons
      · rw [if_pos hn] at h
        injection h with h
        injection h with h1 h2
        exact ⟨c, rest, h1.symm, hc, Or.inl ⟨[], cons, quiet_gap.done, hall, hn, by
          rw [e]; simp⟩⟩
      · rw [if_neg hn] at h
        have hq := quiet_blanks sc cons hall hn
        have hdec : decide (nl ∈ cons) = false := by simpa using hn
        rw [hdec] at h
        by_cases h1 : c = slash ∧ rest.head? = some slash
        · rw [if_pos h1] at h
          cases rest with
          | nil => simp at h1
          | cons x r =>
            have hx : x = slash := by simpa using h1.2
            simp only [List.drop_succ_cons, List.drop_zero] at h
            obtain ⟨body, eb, hb, hs⟩ := skip_line_split r
            obtain ⟨c2, rest2, ed, hc2, hshape⟩ := ih _ _ _ _ h
            refine ⟨c2, rest2, ed, hc2, Or.inr ?_⟩
            rcases hs with hs | ⟨Y, hs⟩
            · exfalso
              rw [hs] at hshape
              rcases hshape with ⟨g, ws, _, _, _, e2⟩ | ⟨g, body2, ws, _, _, _, e2⟩
              · have := congrArg List.length e2
                simp only [List.length_append, List.length_cons, List.length_nil] at this
                omega
              · have := congrArg List.length e2
                simp only [List.length_append, List.length_cons, List.length_nil] at this
                omega
            · rw [hs] at hshape eb
              rcases hshape with ⟨g, ws, hg, hws, hnw, e2⟩ | ⟨g, body2, ws, hg, _, _, e2⟩
              · rcases quiet_head sc g hg with hg0 | ⟨b, r2, hg1, hbn⟩
                · subst hg0
                  simp only [List.nil_append] at e2
                  cases ws with
                  | nil =>
                    simp only [List.nil_append] at e2
                    injection e2 with e3 _
                    have := gt_space_ne_nl sc c2 hc2
                    exact absurd e3.symm this
                  | cons w0 ws2 =>
                    simp only [List.cons_append] at e2
                    injection e2 with e3 e4
                    refine ⟨cons, body, ws2, hq, hb,
                      fun b hb2 => hws b (List.mem_cons_of_mem _ hb2), ?_⟩
                    rw [e, h1.1, hx, eb, e4]
                · exfalso
                  rw [hg1] at e2
                  simp only [List.cons_append] at e2
                  injection e2 with e3 _
                  exact hbn e3.symm
              · exfalso
                rcases quiet_head sc g hg with hg0 | ⟨b, r2, hg1, hbn⟩
                · subst hg0
                  simp only [List.nil_append] at e2
                  injection e2 with e3 _
                  exact slash_ne_nl e3.symm
                · rw [hg1] at e2
                  simp only [List.cons_append] at e2
                  injection e2 with e3 _
                  exact hbn e3.symm
        · rw [if_neg h1] at h
          by_cases h2 : c = slash ∧ rest.head? = some star
          · rw [if_pos h2] at h
            cases rest with
            | nil => simp at h2
            | cons x r =>
              have hx : x = star := by simpa using h2.2
              simp only [List.drop_succ_cons, List.drop_zero, scan_block_lines_fst] at h
              obtain ⟨c2, rest2, ed, hc2, hshape⟩ := ih _ _ _ _ h
              refine ⟨c2, rest2, ed, hc2, ?_⟩
              rcases scan_block_split r with hs | ⟨body, Y, er, hs, hb⟩
              · exfalso
                rw [hs] at hshape
                rcases hshape with ⟨g, ws, _, _, _, e2⟩ | ⟨g, body2, ws, _, _, _, e2⟩
                · have := congrArg List.length e2
                  simp only [List.drop_nil, List.length_append, List.length_cons,
                    List.length_nil] at this
                  omega
                · have := congrArg List.length e2
                  simp only [List.drop_nil, List.length_append, List.length_cons,
                    List.length_nil] at this
                  omega
              · rw [hs] at hshape
                simp only [List.drop_succ_cons, List.drop_zero] at hshape
                have hdata : ∀ (g : List Byte) (Z : List Byte), Y = g ++ Z →
                    data = (cons ++ slash :: star :: (body ++ star :: slash :: g)) ++ Z := by
                  intro g Z eY
                  rw [e, h2.1, hx, er, eY]
                  simp
                rcases hshape with ⟨g, ws, hg, hws, hnw, e2⟩ | ⟨g, body2, ws, hg, hb2, hws, e2⟩
                · left
                  refine ⟨cons ++ slash :: star :: (body ++ star :: slash :: g), ws,
                    quiet_append sc _ _ hq (quiet_gap.block body g hb hg), hws, hnw, ?_⟩
                  rw [hdata g (ws ++ c2 :: rest2) (by rw [e2, List.append_assoc])]
                  simp
                · right
                  refine ⟨cons ++ slash :: star :: (body ++ star :: slash :: g), body2, ws,
                    quiet_append sc _ _ hq (quiet_gap.block body g hb hg), hb2, hws, ?_⟩
                  exact hdata g _ e2
          · rw [if_neg h2] at h
            cases h

/-- C16 (counterexample).  On a line feed followed by `// c`, a line feed and `b`, the
call without line breaks returns the empty token and leaves the cursor at
`// c`; the next call without line breaks crosses the line feed after the
comment and returns the empty token again, with the cursor at `b`; it is the
next call with line breaks allowed that returns `b`. -/
theorem next_call_empty_again :
    COM_ParseExt true 1024 ⟨[], 1, 0⟩ (some (cstr "\n// c\nb")) false
      = some ⟨[], some (cstr "// c\nb"), ⟨[], 2, 0⟩⟩ ∧
    COM_ParseExt true 1024 ⟨[], 2, 0⟩ (some (cstr "// c\nb")) false
      = some ⟨[], some (cstr "b"), ⟨[], 3, 0⟩⟩ ∧
    COM_ParseExt true 1024 ⟨[], 2, 0⟩ (some (cstr "// c\nb")) true
      = some ⟨cstr "b", some [], ⟨[], 3, 3⟩⟩ ∧
    ([] : List Byte) ≠ cstr "b" := by
  refine ⟨rfl, rfl, rfl, by decide⟩

/-- C16 (amended).  `COM_ParseExt` and `COM_ParseSep` called with
`allowLineBreaks = qfalse` on an input in which a newline is crossed while
whitespace is skipped before the next token.  Such an input is a quiet gap
(bytes up to space other than `\n`, and closed block comments), then either
whitespace with a `\n`, or a line comment, its `\n` and whitespace, and then a
byte `c` greater than space.  The call returns the empty token and leaves the
cursor, not `NULL`, on `c`, just past the whitespace, with `com_lines` grown by
the `\n` bytes passed.  Nothing of what follows is consumed: the next call with
line breaks allowed returns what a call with line breaks allowed returns on
the original cursor.  These are the only inputs on which the head loop stops
for a line break.  On every input a call without line breaks either returns
the empty token with a cursor that is not `NULL` nor at the end, or returns
what the call with line breaks allowed returns; at a byte greater than space
that opens no comment it is the latter. -/
theorem line_break_stop (sc : Bool) (C : Nat) (is_sep : Byte → Bool) (st : ParseSession) :
    (∀ (g ws : List Byte) (c : Byte) (rest : List Byte),
      quiet_gap sc g → (∀ b ∈ ws, char_int sc b ≤ 32) → nl ∈ ws → 32 < char_int sc c →
      COM_ParseExt sc C st (some (g ++ ws ++ c :: rest)) false
        = some ⟨[], some (c :: rest),
            { st with com_lines := st.com_lines + count_nl (g ++ ws), com_tokenline := 0 }⟩ ∧
      COM_ParseSep sc C is_sep st (some (g ++ ws ++ c :: rest)) false
        = some ⟨[], some (c :: rest),
            { st with com_lines := st.com_lines + count_nl (g ++ ws), com_tokenline := 0 }⟩ ∧
      COM_ParseExt sc C
          { st with com_lines := st.com_lines + count_nl (g ++ ws), com_tokenline := 0 }
          (some (c :: rest)) true
        = COM_ParseExt sc C st (some (g ++ ws ++ c :: rest)) true ∧
      COM_ParseSep sc C is_sep
          { st with com_lines := st.com_lines + count_nl (g ++ ws), com_tokenline := 0 }
          (some (c :: rest)) true
        = COM_ParseSep sc C is_sep st (some (g ++ ws ++ c :: rest)) true) ∧
    (∀ (g body ws : List Byte) (c : Byte) (rest : List Byte),
      quiet_gap sc g → nl ∉ body → (∀ b ∈ ws, char_int sc b ≤ 32) → 32 < char_int sc c →
      COM_ParseExt sc C st
          (some (g ++ slash :: slash :: (body ++ nl :: (ws ++ c :: rest)))) false
        = some ⟨[], some (c :: rest),
            { st with
              com_lines := st.com_lines
                + count_nl (g ++ slash :: slash :: (body ++ nl :: ws)),
              com_tokenline := 0 }⟩ ∧
      COM_ParseSep sc C is_sep st
          (some (g ++ slash :: slash :: (body ++ nl :: (ws ++ c :: rest)))) false
        = some ⟨[], some (c :: rest),
            { st with
              com_lines := st.com_lines
                + count_nl (g ++ slash :: slash :: (body ++ nl :: ws)),
              com_tokenline := 0 }⟩ ∧
      COM_ParseExt sc C
          { st with
            com_lines := st.com_lines + count_nl (g ++ slash :: slash :: (body ++ nl :: ws)),
            com_tokenline := 0 }
          (some (c :: rest)) true
        = COM_ParseExt sc C st
            (some (g ++ slash :: slash :: (body ++ nl :: (ws ++ c :: rest)))) true ∧
      COM_ParseSep sc C is_sep
          { st with
            com_lines := st.com_lines + count_nl (g ++ slash :: slash :: (body ++ nl :: ws)),
            com_tokenline := 0 }
          (some (c :: rest)) true
        = COM_ParseSep sc C is_sep st
            (some (g ++ slash :: slash :: (body ++ nl :: (ws ++ c :: rest)))) true) ∧
    (∀ (data d : List Byte) (l : Nat),
      skip_loop sc false (data.length + 1) data st.com_lines false = some (.lineBreak d l) →
      ∃ c rest, d = c :: rest ∧ 32 < char_int sc c ∧
        ((∃ g ws, quiet_gap sc g ∧ (∀ b ∈ ws, char_int sc b ≤ 32) ∧ nl ∈ ws ∧
            data = g ++ ws ++ c :: rest) ∨
          (∃ g body ws, quiet_gap sc g ∧ nl ∉ body ∧ (∀ b ∈ ws, char_int sc b ≤ 32) ∧
            data = g ++ slash :: slash :: (body ++ nl :: (ws ++ c :: rest))))) ∧
    (∀ (data : List Byte),
      ((∃ d l, d ≠ [] ∧
          skip_loop sc false (data.length + 1) data st.com_lines false
            = some (.lineBreak d l) ∧
          COM_ParseExt sc C st (some data) false
            = some ⟨[], some d, { st with com_lines := l, com_tokenline := 0 }⟩ ∧
          COM_ParseSep sc C is_sep st (some data) false
            = some ⟨[], some d, { st with com_lines := l, com_tokenline := 0 }⟩) ∨
        (COM_ParseExt sc C st (some data) false = COM_ParseExt sc C st (some data) true ∧
          COM_ParseSep sc C is_sep st (some data) false
            = COM_ParseSep sc C is_sep st (some data) true))) ∧
    (∀ (c : Byte) (rest : List Byte), 32 < char_int sc c →
      ¬ (c = slash ∧ (rest.head? = some slash ∨ rest.head? = some star)) →
      COM_ParseExt sc C st (some (c :: rest)) false
        = COM_ParseExt sc C st (some (c :: rest)) true ∧
      COM_ParseSep sc C is_sep st (some (c :: rest)) false
        = COM_ParseSep sc C is_sep st (some (c :: rest)) true) := by
  have hstop : ∀ (data : List Byte) (c : Byte) (rest : List Byte) (l : Nat),
      32 < char_int sc c →
      skip_loop sc false (data.length + 1) data st.com_lines false
        = skip_loop sc false ((c :: rest).length + 1) (c :: rest) l true →
      COM_ParseExt sc C st (some data) false
        = some ⟨[], some (c :: rest), { st with com_lines := l, com_tokenline := 0 }⟩ ∧
      COM_ParseSep sc C is_sep st (some data) false
        = some ⟨[], some (c :: rest), { st with com_lines := l, com_tokenline := 0 }⟩ := by
    intro data c rest l hc h
    rw [skip_loop_break sc _ c rest l hc] at h
    constructor
    · simp only [COM_ParseExt, h]
    · simp only [COM_ParseSep, h]
  have hnext : ∀ (data : List Byte) (c : Byte) (rest : List Byte) (l : Nat),
      skip_loop sc true (data.length + 1) data st.com_lines false
        = skip_loop sc true ((c :: rest).length + 1) (c :: rest) l true →
      COM_ParseExt sc C { st with com_lines := l, com_tokenline := 0 } (some (c :: rest)) true
        = COM_ParseExt sc C st (some data) true ∧
      COM_ParseSep sc C is_sep { st with com_lines := l, com_tokenline := 0 }
          (some (c :: rest)) true
        = COM_ParseSep sc C is_sep st (some data) true := by
    intro data c rest l h
    have := Parse_of_skip_sessions sc C is_sep st
      { st with com_lines := l, com_tokenline := 0 } true true data (c :: rest) rfl
      (h.trans (skip_loop_flag sc _ _ _ true))
    exact ⟨this.1.symm, this.2.symm⟩
  refine ⟨?_, ?_, ?_, ?_, ?_⟩
  · intro g ws c rest hg hws hn hc
    have h1 := hstop _ c rest _ hc
      (skip_loop_shape_ws sc false g ws c rest st.com_lines hg hws hn)
    have h2 := hnext _ c rest _ (skip_loop_shape_ws sc true g ws c rest st.com_lines hg hws hn)
    exact ⟨h1.1, h1.2, h2.1, h2.2⟩
  · intro g body ws c rest hg hb hws hc
    have h1 := hstop _ c rest _ hc
      (skip_loop_shape_line sc false g body ws c rest st.com_lines hg hb hws)
    have h2 := hnext _ c rest _
      (skip_loop_shape_line sc true g body ws c rest st.com_lines hg hb hws)
    exact ⟨h1.1, h1.2, h2.1, h2.2⟩
  · intro data d l h
    exact skip_loop_break_shape sc _ data st.com_lines d l h
  · intro data
    rcases skip_loop_or sc (data.length + 1) data st.com_lines false with ⟨d, l, hd, h⟩ | h
    · exact Or.inl ⟨d, l, hd, h, by simp only [COM_ParseExt, h], by simp only [COM_ParseSep, h]⟩
    · exact Or.inr ⟨by simp only [COM_ParseExt, h], by simp only [COM_ParseSep, h]⟩
  · intro c rest hc hno
    have h1 := skip_loop_at_token sc false (c :: rest).length c rest st.com_lines hc hno
    have h2 := skip_loop_at_token sc true (c :: rest).length c rest st.com_lines hc hno
    constructor
    · simp only [COM_ParseExt, h1, h2]
    · simp only [COM_ParseSep, h1, h2]

/-- C16 (witness): on `// c`, a line feed and `foo` the call without line breaks
returns the empty token with the cursor at `foo`, one line further; so it does
on `/* x`, a line feed, ` */ `, a line feed, a space and `b`, two lines further
with the cursor at `b`. -/
theorem line_break_stop_witness :
    COM_ParseExt true 1024 ⟨[], 1, 0⟩
        (some ([] ++ slash :: slash :: (cstr " c" ++ nl :: ([] ++ 0x66 :: cstr "oo")))) false
      = some ⟨[], some (cstr "foo"), ⟨[], 2, 0⟩⟩ ∧
    COM_ParseExt true 1024 ⟨[], 1, 0⟩
        (some ((slash :: star :: (cstr " x\n " ++ star :: slash :: [sp])) ++ cstr "\n "
          ++ 0x62 :: [])) false
      = some ⟨[], some (cstr "b"), ⟨[], 3, 0⟩⟩ :=
  ⟨(((line_break_stop true 1024 Com_InitSeparators ⟨[], 1, 0⟩).2.1 [] (cstr " c") [] 0x66
      (cstr "oo") quiet_gap.done (by decide) (by intro b hb; cases hb) (by decide)).1).trans rfl,
   (((line_break_stop true 1024 Com_InitSeparators ⟨[], 1, 0⟩).1
      (slash :: star :: (cstr " x\n " ++ star :: slash :: [sp])) (cstr "\n ") 0x62 []
      (quiet_gap.block (cstr " x\n ") [sp] (by decide)
        (quiet_gap.blank sp [] (by decide) (by decide) quiet_gap.done))
      (by set_option maxRecDepth 8000 in decide) (by decide) (by decide)).1).trans rfl⟩

/-! ## Token capacity -/

/-- A lexeme and the input after it make up the input from the token on:
between them stand only the quotes of a quoted lexeme. -/
theorem lexeme_recompose (c : Byte) (rest lexeme after : List Byte)
    (h : (c = dquote ∧ lexeme = rest.takeWhile not_quote ∧
        after = (rest.dropWhile not_quote).drop 1) ∨
      (c ≠ dquote ∧ c :: rest = lexeme ++ after)) :
    ∃ (opening closing : List Byte), c :: rest = opening ++ lexeme ++ closing ++ after ∧
      (c = dquote → opening = [dquote] ∧ dquote ∉ lexeme ∧
        (closing = [dquote] ∨ (closing = [] ∧ after = []))) ∧
      (c ≠ dquote → opening = [] ∧ closing = []) := by
  rcases h with ⟨hq, hl, ha⟩ | ⟨hq, hs⟩
  · subst hq
    have e := (List.takeWhile_append_dropWhile not_quote rest).symm
    have hno : dquote ∉ lexeme := by
      rw [hl]
      intro hm
      have := List.mem_takeWhile_imp hm
      simp [not_quote] at this
    rcases dropWhile_not_quote rest with h | ⟨r, h⟩
    · refine ⟨[dquote], [], ?_, fun _ => ⟨rfl, hno, Or.inr ⟨rfl, ?_⟩⟩, fun hne => absurd rfl hne⟩
      · rw [h] at e ha
        rw [hl, ha]
        simpa using e
      · rw [ha, h]
        rfl
    · refine ⟨[dquote], [dquote], ?_, fun _ => ⟨rfl, hno, Or.inl rfl⟩, fun hne => absurd rfl hne⟩
      rw [h] at e ha
      rw [hl, ha]
      simpa using e
  · exact ⟨[], [], by simpa using hs, fun e => absurd e hq, fun _ => ⟨rfl, rfl⟩⟩

/-- C18.  Token capacity, for every input and both variants.  Every call of
`COM_ParseExt` returns with a token of at most `MAX_TOKEN_CHARS - 1` bytes; so
does every call of `COM_ParseSep` when `MAX_TOKEN_CHARS` is at least 2 (a
separator is stored without a test).  On every input either both variants
return the empty token, or the head loop stops at the first byte `c` of a
lexeme; then the token is the first `MAX_TOKEN_CHARS - 1` bytes of the lexeme
(the whole lexeme when it is shorter) and the cursor is past the whole lexeme,
where the lexeme and the input after it are given by `lexeme_ext` and
`lexeme_sep`: a quoted lexeme runs to the next double quote or the end of the
input, a bare word is the maximal run of bytes greater than space (and no
separators for `COM_ParseSep`), a separator stands alone.  The lexeme and the
input left to the cursor make up the input from `c` on, with only the quotes
of a quoted lexeme between them. -/
theorem token_capacity (sc : Bool) (C : Nat) (is_sep : Byte → Bool) (st : ParseSession)
    (allow : Bool) :
    (∀ (data_p : Option (List Byte)),
      ∃ r, COM_ParseExt sc C st data_p allow = some r ∧ r.token.length ≤ C - 1) ∧
    (2 ≤ C → ∀ (data_p : Option (List Byte)),
      ∃ r, COM_ParseSep sc C is_sep st data_p allow = some r ∧ r.token.length ≤ C - 1) ∧
    (∀ (data : List Byte),
      (∃ c rest l, skip_loop sc allow (data.length + 1) data st.com_lines false
          = some (.atToken c rest l)) ∨
      (∃ r, r.token = [] ∧ COM_ParseExt sc C st (some data) allow = some r ∧
        COM_ParseSep sc C is_sep st (some data) allow = some r)) ∧
    (∀ (data : List Byte) (c : Byte) (rest : List Byte) (l : Nat),
      skip_loop sc allow (data.length + 1) data st.com_lines false
        = some (.atToken c rest l) →
      COM_ParseExt sc C st (some data) allow
        = some ⟨(lexeme_ext sc c rest).1.take (C - 1), some (lexeme_ext sc c rest).2,
            { st with
              com_lines := l + (if c = dquote then count_nl (lexeme_ext sc c rest).1 else 0),
              com_tokenline := l }⟩ ∧
      (2 ≤ C → COM_ParseSep sc C is_sep st (some data) allow
        = some ⟨(lexeme_sep sc is_sep c rest).1.take (C - 1),
            some (lexeme_sep sc is_sep c rest).2,
            { st with
              com_lines := l
                + (if c = dquote then count_nl (lexeme_sep sc is_sep c rest).1 else 0),
              com_tokenline := l }⟩) ∧
      (∃ (opening closing : List Byte),
        c :: rest = opening ++ (lexeme_ext sc c rest).1 ++ closing ++ (lexeme_ext sc c rest).2 ∧
        (c = dquote → opening = [dquote] ∧ dquote ∉ (lexeme_ext sc c rest).1 ∧
          (closing = [dquote] ∨ (closing = [] ∧ (lexeme_ext sc c rest).2 = []))) ∧
        (c ≠ dquote → opening = [] ∧ closing = [])) ∧
      (∃ (opening closing : List Byte),
        c :: rest = opening ++ (lexeme_sep sc is_sep c rest).1 ++ closing
          ++ (lexeme_sep sc is_sep c rest).2 ∧
        (c = dquote → opening = [dquote] ∧ dquote ∉ (lexeme_sep sc is_sep c rest).1 ∧
          (closing = [dquote] ∨ (closing = [] ∧ (lexeme_sep sc is_sep c rest).2 = []))) ∧
        (c ≠ dquote → opening = [] ∧ closing = []))) := by
  have hext : ∀ (data_p : Option (List Byte)),
      ∃ r, COM_ParseExt sc C st data_p allow = some r ∧ r.token.length ≤ C - 1 := by
    intro data_p
    cases data_p with
    | none => exact ⟨_, rfl, by simp⟩
    | some data =>
      obtain ⟨o, ho, hok⟩ := skip_loop_spec sc allow _ data st.com_lines false
        (Nat.lt_succ_self _)
      cases o with
      | exhausted l =>
        have h : COM_ParseExt sc C st (some data) allow
            = some ⟨[], none, { st with com_lines := l, com_tokenline := 0 }⟩ := by
          simp only [COM_ParseExt, ho]
        exact ⟨_, h, by simp⟩
      | lineBreak d l =>
        have h : COM_ParseExt sc C st (some data) allow
            = some ⟨[], some d, { st with com_lines := l, com_tokenline := 0 }⟩ := by
          simp only [COM_ParseExt, ho]
        exact ⟨_, h, by simp⟩
      | atToken c rest l =>
        by_cases hq : c = dquote
        · subst hq
          exact ⟨_, (Parse_quoted sc C is_sep st data allow rest l ho).1, by
            simp only [List.length_take]; omega⟩
        · exact ⟨_, ParseExt_word sc C st data allow c rest l ho hq, by
            simp only [List.length_take]; omega⟩
  have hsep : 2 ≤ C → ∀ (data_p : Option (List Byte)),
      ∃ r, COM_ParseSep sc C is_sep st data_p allow = some r ∧ r.token.length ≤ C - 1 := by
    intro hC data_p
    cases data_p with
    | none => exact ⟨_, rfl, by simp⟩
    | some data =>
      obtain ⟨o, ho, hok⟩ := skip_loop_spec sc allow _ data st.com_lines false
        (Nat.lt_succ_self _)
      cases o with
      | exhausted l =>
        have h : COM_ParseSep sc C is_sep st (some data) allow
            = some ⟨[], none, { st with com_lines := l, com_tokenline := 0 }⟩ := by
          simp only [COM_ParseSep, ho]
        exact ⟨_, h, by simp⟩
      | lineBreak d l =>
        have h : COM_ParseSep sc C is_sep st (some data) allow
            = some ⟨[], some d, { st with com_lines := l, com_tokenline := 0 }⟩ := by
          simp only [COM_ParseSep, ho]
        exact ⟨_, h, by simp⟩
      | atToken c rest l =>
        by_cases hq : c = dquote
        · subst hq
          exact ⟨_, (Parse_quoted sc C is_sep st data allow rest l ho).2, by
            simp only [List.length_take]; omega⟩
        · cases hs : is_sep c
          · exact ⟨_, (ParseSep_word sc C is_sep st data allow c rest l ho hq).2 hs, by
              simp only [List.length_take]; omega⟩
          · exact ⟨_, (ParseSep_word sc C is_sep st data allow c rest l ho hq).1 hs, by
              simp only [List.length_singleton]; omega⟩
  refine ⟨hext, hsep, ?_, ?_⟩
  · intro data
    obtain ⟨o, ho, hok⟩ := skip_loop_spec sc allow _ data st.com_lines false
      (Nat.lt_succ_self _)
    cases o with
    | exhausted l =>
      exact Or.inr ⟨⟨[], none, { st with com_lines := l, com_tokenline := 0 }⟩, rfl,
        by simp only [COM_ParseExt, ho], by simp only [COM_ParseSep, ho]⟩
    | lineBreak d l =>
      exact Or.inr ⟨⟨[], some d, { st with com_lines := l, com_tokenline := 0 }⟩, rfl,
        by simp only [COM_ParseExt, ho], by simp only [COM_ParseSep, ho]⟩
    | atToken c rest l => exact Or.inl ⟨c, rest, l, ho⟩
  · intro data c rest l hskip
    by_cases hq : c = dquote
    · subst hq
      have hp := Parse_quoted sc C is_sep st data allow rest l hskip
      refine ⟨by rw [hp.1]; simp only [lexeme_ext, if_true],
        fun _ => by rw [hp.2]; simp only [lexeme_sep, if_true], ?_, ?_⟩
      · apply lexeme_recompose
        left
        simp [lexeme_ext]
      · apply lexeme_recompose
        left
        simp [lexeme_sep]
    · have hp := ParseExt_word sc C st data allow c rest l hskip hq
      have hp2 := ParseSep_word sc C is_sep st data allow c rest l hskip hq
      refine ⟨by rw [hp]; simp only [lexeme_ext, if_neg hq, Nat.add_zero], ?_, ?_, ?_⟩
      · intro hC
        cases hs : is_sep c
        · rw [hp2.2 hs]
          simp only [lexeme_sep, if_neg hq, hs, Bool.false_eq_true, if_false, Nat.add_zero]
        · rw [hp2.1 hs]
          simp only [lexeme_sep, if_neg hq, hs, if_true, Nat.add_zero]
          have : ([c] : List Byte).take (C - 1) = [c] := by
            obtain ⟨k, rfl⟩ : ∃ k, C = k + 2 := ⟨C - 2, by omega⟩
            simp
          rw [this]
      · apply lexeme_recompose
        right
        simp only [lexeme_ext, if_neg hq]
        exact ⟨hq, (List.takeWhile_append_dropWhile _ _).symm⟩
      · apply lexeme_recompose
        right
        refine ⟨hq, ?_⟩
        cases hs : is_sep c
        · simp only [lexeme_sep, if_neg hq, hs, Bool.false_eq_true, if_false]
          exact (List.takeWhile_append_dropWhile _ _).symm
        · simp only [lexeme_sep, if_neg hq, hs, if_true]
          rfl

/-- C18 (witness): with a capacity of 4 the word `abcdefg` gives the token `abc`
and the quoted `abcdef` gives `abc`, the cursor being past the whole lexeme
each time; the separator-aware variant cuts `abcdef` before `=` in the same
way. -/
theorem token_capacity_witness :
    COM_ParseExt true 4 ⟨[], 1, 0⟩ (some (cstr "abcdefg h")) true
      = some ⟨cstr "abc", some (cstr " h"), ⟨[], 1, 1⟩⟩ ∧
    COM_ParseExt true 4 ⟨[], 1, 0⟩ (some (cstr "\"abcdef\" g")) true
      = some ⟨cstr "abc", some (cstr " g"), ⟨[], 1, 1⟩⟩ ∧
    COM_ParseSep true 4 Com_InitSeparators ⟨[], 1, 0⟩ (some (cstr " abcdef=g")) true
      = some ⟨cstr "abc", some (cstr "=g"), ⟨[], 1, 1⟩⟩ :=
  ⟨(((token_capacity true 4 Com_InitSeparators ⟨[], 1, 0⟩ true).2.2.2 (cstr "abcdefg h")
      0x61 (cstr "bcdefg h") 1 rfl).1).trans rfl,
   (((token_capacity true 4 Com_InitSeparators ⟨[], 1, 0⟩ true).2.2.2 (cstr "\"abcdef\" g")
      dquote (cstr "abcdef\" g") 1 rfl).1).trans rfl,
   (((token_capacity true 4 Com_InitSeparators ⟨[], 1, 0⟩ true).2.2.2 (cstr " abcdef=g")
      0x61 (cstr "bcdef=g") 1 rfl).2.1 (by decide)).trans rfl⟩

/-! ## The tokens of compressed text -/

/-! ### The tokens of a text -/

theorem has_tokens_nil (sc : Bool) (C : Nat) : has_tokens sc C [] [[]] := by
  intro fuel st hf
  obtain ⟨f, rfl⟩ : ∃ f, fuel = f + 2 := ⟨fuel - 2, by simp at hf; omega⟩
  rfl

/-- Two texts on which the first call returns alike have the same tokens. -/
theorem has_tokens_congr (sc : Bool) (C : Nat) (data data2 : List Byte) (ts : List (List Byte))
    (hlen : data2.length ≤ data.length)
    (h : ∀ (st : ParseSession), ∃ st2,
      COM_ParseExt sc C st (some data) true = COM_ParseExt sc C st2 (some data2) true)
    (h2 : has_tokens sc C data2 ts) : has_tokens sc C data ts := by
  intro fuel st hf
  obtain ⟨f, rfl⟩ : ∃ f, fuel = f + 1 := ⟨fuel - 1, by omega⟩
  obtain ⟨st2, e⟩ := h st
  have := h2 (f + 1) st2 (by omega)
  rw [← this]
  simp only [lex_all, e]

/-- The tokens of a text whose first call returns a token and a cursor. -/
theorem has_tokens_cons (sc : Bool) (C : Nat) (data d tok : List Byte) (ts : List (List Byte))
    (hlen : d.length < data.length)
    (h : ∀ (st : ParseSession), ∃ s1,
      COM_ParseExt sc C st (some data) true = some ⟨tok, some d, s1⟩)
    (h2 : has_tokens sc C d ts) : has_tokens sc C data (tok :: ts) := by
  intro fuel st hf
  obtain ⟨f, rfl⟩ : ∃ f, fuel = f + 1 := ⟨fuel - 1, by omega⟩
  obtain ⟨s1, e⟩ := h st
  rw [lex_all_succ sc C f st data _ e]
  simp only []
  rw [h2 f s1 (by omega)]

/-- A byte up to space before a text does not change its tokens. -/
theorem has_tokens_ws (sc : Bool) (C : Nat) (ws s : List Byte) (ts : List (List Byte))
    (hws : ∀ b ∈ ws, char_int sc b ≤ 32) (h : has_tokens sc C s ts) :
    has_tokens sc C (ws ++ s) ts := by
  apply has_tokens_congr sc C (ws ++ s) s ts (by simp) _ h
  intro st
  refine ⟨{ st with com_lines := st.com_lines + count_nl ws }, ?_⟩
  refine (Parse_of_skip_sessions sc C (fun _ => false) st
    { st with com_lines := st.com_lines + count_nl ws } true true (ws ++ s) s rfl ?_).1
  show skip_loop sc true ((ws ++ s).length + 1) (ws ++ s) st.com_lines false
    = skip_loop sc true (s.length + 1) s (st.com_lines + count_nl ws) false
  rw [skip_loop_ws sc true _ ws s _ _ hws, skip_loop_flag]
  exact skip_loop_fuel sc true _ _ (le_refl _) _ _ _ _
    (by simp only [List.length_append]; omega) (by omega)

/-- A line comment before a text does not change its tokens. -/
theorem has_tokens_line (sc : Bool) (C : Nat) (r : List Byte) (ts : List (List Byte))
    (h : has_tokens sc C (skip_line r) ts) : has_tokens sc C (slash :: slash :: r) ts := by
  have hl := skip_line_length r
  apply has_tokens_congr sc C _ (skip_line r) ts (by simp only [List.length_cons]; omega) _ h
  intro st
  refine ⟨st, ?_⟩
  refine (Parse_of_skip_sessions sc C (fun _ => false) st st true true _ _ rfl ?_).1
  rw [skip_loop_line sc true _ _ _ _ (Or.inr rfl)]
  exact skip_loop_fuel sc true _ _ (le_refl _) _ _ _ _
    (by simp only [List.length_cons]; omega) (by omega)

/-- A block comment before a text does not change its tokens. -/
theorem has_tokens_block (sc : Bool) (C : Nat) (r : List Byte) (ts : List (List Byte))
    (h : has_tokens sc C ((scan_block_end r).drop 2) ts) :
    has_tokens sc C (slash :: star :: r) ts := by
  have hl := scan_block_end_length r
  have hl2 : ((scan_block_end r).drop 2).length ≤ r.length := by
    simp only [List.length_drop]
    omega
  apply has_tokens_congr sc C _ ((scan_block_end r).drop 2) ts
    (by simp only [List.length_cons]; omega) _ h
  intro st
  refine ⟨{ st with com_lines := (scan_block_lines r st.com_lines).2 }, ?_⟩
  refine (Parse_of_skip_sessions sc C (fun _ => false) st
    { st with com_lines := (scan_block_lines r st.com_lines).2 } true true _ _ rfl ?_).1
  show skip_loop sc true ((slash :: star :: r).length + 1) (slash :: star :: r) st.com_lines false
    = skip_loop sc true (((scan_block_end r).drop 2).length + 1) ((scan_block_end r).drop 2)
        (scan_block_lines r st.com_lines).2 false
  rw [skip_loop_block sc true _ _ _ _ (Or.inr rfl), scan_block_lines_fst]
  exact skip_loop_fuel sc true _ _ (le_refl _) _ _ _ _
    (by simp only [List.length_cons]; omega) (by omega)

theorem dquote_gt_space (sc : Bool) : 32 < char_int sc dquote := by
  cases sc <;> decide

/-- The tokens of a text that starts with a quoted section. -/
theorem has_tokens_quote (sc : Bool) (C : Nat) (rest : List Byte) (ts : List (List Byte))
    (h : has_tokens sc C ((rest.dropWhile not_quote).drop 1) ts) :
    has_tokens sc C (dquote :: rest)
      ((rest.takeWhile not_quote).take (C - 1) :: ts) := by
  have hl := dropWhile_length_le not_quote rest
  apply has_tokens_cons sc C _ ((rest.dropWhile not_quote).drop 1) _ ts
    (by simp only [List.length_drop, List.length_cons]; omega) _ h
  intro st
  have hskip := skip_loop_at_token sc true (dquote :: rest).length dquote rest st.com_lines
    (dquote_gt_space sc) (fun e => dquote_ne_slash e.1)
  exact ⟨_, (Parse_quoted sc C (fun _ => false) st _ true rest _ hskip).1⟩

/-- The tokens of a text that starts with a bare word. -/
theorem has_tokens_word (sc : Bool) (C : Nat) (c : Byte) (rest : List Byte)
    (ts : List (List Byte)) (hc : 32 < char_int sc c) (hq : c ≠ dquote)
    (hno : ¬ (c = slash ∧ (rest.head? = some slash ∨ rest.head? = some star)))
    (h : has_tokens sc C ((c :: rest).dropWhile (gt_space sc)) ts) :
    has_tokens sc C (c :: rest)
      (((c :: rest).takeWhile (gt_space sc)).take (C - 1) :: ts) := by
  have hg : gt_space sc c = true := by simp [gt_space, hc]
  have hl := dropWhile_length_le (gt_space sc) rest
  apply has_tokens_cons sc C _ ((c :: rest).dropWhile (gt_space sc)) _ ts _ _ h
  · simp only [List.dropWhile_cons, hg, if_true, List.length_cons]
    omega
  · intro st
    have hskip := skip_loop_at_token sc true (c :: rest).length c rest st.com_lines hc hno
    exact ⟨_, ParseExt_word sc C st _ true c rest _ hskip hq⟩

/-! ### The compressor on aligned text -/

theorem copy_quoted_eq (s : List Byte) :
    copy_quoted s = (s.takeWhile not_quote, s.dropWhile not_quote) := by
  induction s with
  | nil => rfl
  | cons c s ih =>
    by_cases h : c = dquote
    · simp [copy_quoted, h, not_quote]
    · have hq : not_quote c = true := by simp [not_quote, h]
      simp [copy_quoted, h, ih, List.takeWhile_cons, List.dropWhile_cons, hq]

theorem takeWhile_quote_append (q t : List Byte) (h : dquote ∉ q) :
    (q ++ dquote :: t).takeWhile not_quote = q ∧
    (q ++ dquote :: t).dropWhile not_quote = dquote :: t := by
  induction q with
  | nil => simp [not_quote]
  | cons x q ih =>
    simp only [List.mem_cons, not_or] at h
    have hx : not_quote x = true := by simp [not_quote]; exact fun e => h.1 e.symm
    have := ih h.2
    simp [List.takeWhile_cons, List.dropWhile_cons, hx, this.1, this.2]

theorem takeWhile_quote_all (q : List Byte) (h : dquote ∉ q) :
    q.takeWhile not_quote = q ∧ q.dropWhile not_quote = [] := by
  induction q with
  | nil => simp
  | cons x q ih =>
    simp only [List.mem_cons, not_or] at h
    have hx : not_quote x = true := by simp [not_quote]; exact fun e => h.1 e.symm
    have := ih h.2
    simp [List.takeWhile_cons, List.dropWhile_cons, hx, this.1, this.2]

theorem takeWhile_no_quote (s : List Byte) : dquote ∉ s.takeWhile not_quote := by
  intro hm
  have := List.mem_takeWhile_imp hm
  simp [not_quote] at this

theorem pending_sep_le (sc : Bool) (n w : Bool) :
    ∀ b ∈ pending_sep n w, char_int sc b ≤ 32 := by
  intro b hb
  have h1 : char_int sc nl ≤ 32 := nl_le_space sc
  have h2 : char_int sc sp ≤ 32 := by cases sc <;> decide
  cases n <;> cases w <;> simp [pending_sep] at hb <;> subst hb <;> assumption

theorem gt_not_blank (sc : Bool) (c : Byte) (h : gt_space sc c = true) : is_blank c = false := by
  cases hb : is_blank c
  · rfl
  · rw [blank_not_gt sc c hb] at h
    cases h

theorem not_gt_le (sc : Bool) (c : Byte) (h : gt_space sc c = false) : char_int sc c ≤ 32 := by
  simp only [gt_space, decide_eq_false_iff_not] at h
  omega

theorem slash_gt (sc : Bool) : gt_space sc slash = true := by cases sc <;> decide
theorem star_gt (sc : Bool) : gt_space sc star = true := by cases sc <;> decide
theorem dquote_gt (sc : Bool) : gt_space sc dquote = true := by cases sc <;> decide

/-- A text that is empty or starts with a byte up to space does not start with
`/` or `*`. -/
theorem head_not_gt (sc : Bool) (s : List Byte)
    (h : ∀ c r, s = c :: r → gt_space sc c = false) :
    s.head? ≠ some slash ∧ s.head? ≠ some star := by
  cases s with
  | nil => simp
  | cons c r =>
    have hc := h c r rfl
    simp only [List.head?_cons, ne_eq, Option.some.injEq]
    constructor
    · intro e
      rw [e, slash_gt] at hc
      cases hc
    · intro e
      rw [e, star_gt] at hc
      cases hc

/-- A clean word is copied as it stands, after the pending separator. -/
theorem compress_from_clean (sc : Bool) :
    ∀ (w : List Byte), w ≠ [] → (∀ b ∈ w, gt_space sc b = true) → clean_word w = true →
      ∀ (s : List Byte) (n w0 : Bool), (s.head? ≠ some slash ∧ s.head? ≠ some star) →
        compress_from n w0 (w ++ s) = pending_sep n w0 ++ w ++ compress_from false false s := by
  intro w
  induction w with
  | nil => intro h; exact absurd rfl h
  | cons c w ih =>
    intro _ hg hcl s n w0 hs
    have hc := hg c (List.mem_cons_self _ _)
    have hb := gt_not_blank sc c hc
    simp only [clean_word, Bool.and_eq_true, bne_iff_ne, ne_eq, Bool.not_eq_true',
      Bool.and_eq_false_imp, beq_iff_eq, Bool.or_eq_false_iff, beq_eq_false_iff_ne] at hcl
    obtain ⟨⟨hq, hop⟩, hcw⟩ := hcl
    cases w with
    | nil =>
      rw [List.singleton_append, compress_from_plain n w0 c s hb hq (fun e => by
        rcases e.2 with h | h
        · exact hs.1 h
        · exact hs.2 h)]
      simp
    | cons d w =>
      have hno : ¬ (c = slash ∧ (((d :: w) ++ s).head? = some slash ∨
          ((d :: w) ++ s).head? = some star)) := by
        rintro ⟨e, h⟩
        have := hop e
        simp only [List.head?_cons, ne_eq, Option.some.injEq] at this
        simp only [List.cons_append, List.head?_cons, Option.some.injEq] at h
        rcases h with h | h
        · exact this.1 h
        · exact this.2 h
      rw [List.cons_append, compress_from_plain n w0 c _ hb hq hno,
        ih (by simp) (fun b hb2 => hg b (List.mem_cons_of_mem _ hb2)) hcw s false false hs]
      simp [pending_sep]

/-- What the compressor writes for a text that is empty or starts with a byte
up to space is empty or starts with a byte up to space. -/
theorem compress_head_not_gt (sc : Bool) (s : List Byte)
    (h : ∀ c r, s = c :: r → gt_space sc c = false) :
    ∀ c r, compress_from false false s = c :: r → gt_space sc c = false := by
  intro c r e
  cases s with
  | nil => rw [compress_from_nil] at e; cases e
  | cons d r0 =>
    have hd := h d r0 rfl
    have hnl : gt_space sc nl = false := by cases sc <;> decide
    have hsp : gt_space sc sp = false := by cases sc <;> decide
    by_cases hb : is_blank d = true
    · rw [compress_from_blank false false d r0 hb] at e
      have hf : (false || is_break d) = true ∨ (false || !is_break d) = true := by
        cases is_break d <;> simp
      rcases compress_from_head_flag r0.length r0 _ _ (le_refl _) hf with h1 | h1 | h1
      · rw [h1] at e; cases e
      · rw [e] at h1
        simp only [List.head?_cons, Option.some.injEq] at h1
        rw [h1]
        exact hnl
      · rw [e] at h1
        simp only [List.head?_cons, Option.some.injEq] at h1
        rw [h1]
        exact hsp
    · have hb2 : is_blank d = false := by simpa using hb
      have hq : d ≠ dquote := by
        intro e2
        rw [e2, dquote_gt] at hd
        cases hd
      have hs : d ≠ slash := by
        intro e2
        rw [e2, slash_gt] at hd
        cases hd
      rw [compress_from_plain false false d r0 hb2 hq (fun e2 => hs e2.1)] at e
      simp only [pending_sep, Bool.false_eq_true, if_false, List.nil_append] at e
      injection e with e1 _
      rw [← e1]
      exact hd

theorem takeWhile_gt_append (sc : Bool) (w s : List Byte)
    (hw : ∀ b ∈ w, gt_space sc b = true) (hs : ∀ c r, s = c :: r → gt_space sc c = false) :
    (w ++ s).takeWhile (gt_space sc) = w ∧ (w ++ s).dropWhile (gt_space sc) = s := by
  induction w with
  | nil =>
    cases s with
    | nil => simp
    | cons c r =>
      have := hs c r rfl
      simp [List.takeWhile_cons, List.dropWhile_cons, this]
  | cons x w ih =>
    have hx := hw x (List.mem_cons_self _ _)
    have := ih (fun b hb => hw b (List.mem_cons_of_mem _ hb))
    simp [List.takeWhile_cons, List.dropWhile_cons, hx, this.1, this.2]

/-- On an aligned text the lexer reads the same tokens from the text and from
what the compressor writes for it, whatever separator is pending. -/
theorem aligned_tokens (sc : Bool) (C : Nat) :
    ∀ (fuel : Nat) (s : List Byte), tokens_aligned sc fuel s = true →
      ∀ (n w : Bool), ∃ ts, has_tokens sc C s ts ∧ has_tokens sc C (compress_from n w s) ts := by
  intro fuel
  induction fuel with
  | zero => intro s h; simp [tokens_aligned] at h
  | succ fuel ih =>
    intro s h n w
    cases s with
    | nil => exact ⟨[[]], has_tokens_nil sc C, by rw [compress_from_nil]; exact has_tokens_nil sc C⟩
    | cons c rest =>
      rw [tokens_aligned] at h
      by_cases hg : gt_space sc c = false
      · rw [if_pos hg] at h
        have hle := not_gt_le sc c hg
        have hws : ∀ b ∈ [c], char_int sc b ≤ 32 := by
          intro b hb
          rw [List.mem_singleton] at hb
          rw [hb]
          exact hle
        by_cases hb : is_blank c = true
        · obtain ⟨ts, t1, t2⟩ := ih rest h (n || is_break c) (w || !is_break c)
          refine ⟨ts, has_tokens_ws sc C [c] rest ts hws t1, ?_⟩
          rw [compress_from_blank n w c rest hb]
          exact t2
        · have hb2 : is_blank c = false := by simpa using hb
          have hq : c ≠ dquote := by
            intro e
            rw [e, dquote_gt] at hg
            cases hg
          have hs : c ≠ slash := by
            intro e
            rw [e, slash_gt] at hg
            cases hg
          obtain ⟨ts, t1, t2⟩ := ih rest h false false
          refine ⟨ts, has_tokens_ws sc C [c] rest ts hws t1, ?_⟩
          rw [compress_from_plain n w c rest hb2 hq (fun e => hs e.1)]
          apply has_tokens_ws sc C (pending_sep n w) _ ts (pending_sep_le sc n w)
          exact has_tokens_ws sc C [c] _ ts hws t2
      · rw [if_neg hg] at h
        have hg2 : gt_space sc c = true := by simpa using hg
        have hc : 32 < char_int sc c := by simpa [gt_space] using hg2
        by_cases h1 : c = slash ∧ rest.head? = some slash
        · rw [if_pos h1] at h
          obtain ⟨e1, e2⟩ := h1
          cases rest with
          | nil => simp at e2
          | cons d r =>
            simp only [List.head?_cons, Option.some.injEq] at e2
            subst e1
            subst e2
            simp only [List.drop_succ_cons, List.drop_zero] at h
            obtain ⟨ts, t1, t2⟩ := ih _ h n w
            refine ⟨ts, has_tokens_line sc C r ts t1, ?_⟩
            rw [compress_from_line_comment]
            exact t2
        · rw [if_neg h1] at h
          by_cases h2 : c = slash ∧ rest.head? = some star
          · rw [if_pos h2] at h
            obtain ⟨e1, e2⟩ := h2
            cases rest with
            | nil => simp at e2
            | cons d r =>
              simp only [List.head?_cons, Option.some.injEq] at e2
              subst e1
              subst e2
              simp only [List.drop_succ_cons, List.drop_zero, Bool.and_eq_true,
                decide_eq_true_eq] at h
              obtain ⟨hno, hal⟩ := h
              obtain ⟨ts, t1, t2⟩ := ih _ hal n w
              refine ⟨ts, has_tokens_block sc C r ts t1, ?_⟩
              rw [compress_from_block_comment]
              have e : scan_block_end (star :: r) = scan_block_end r := by
                rw [scan_block_end, if_neg (fun e => hno e.2)]
              rw [e]
              exact t2
          · rw [if_neg h2] at h
            by_cases hq : c = dquote
            · rw [if_pos hq] at h
              subst hq
              obtain ⟨ts, t1, t2⟩ := ih _ h false false
              refine ⟨_, has_tokens_quote sc C rest ts t1, ?_⟩
              rw [compress_from_quote, copy_quoted_eq]
              apply has_tokens_ws sc C (pending_sep n w) _ _ (pending_sep_le sc n w)
              have hnq := takeWhile_no_quote rest
              rcases dropWhile_not_quote rest with hd | ⟨r, hd⟩
              · rw [hd] at t1 t2 ⊢
                simp only [List.drop_nil, List.append_nil] at t1 t2 ⊢
                have hall := takeWhile_quote_all _ hnq
                have := has_tokens_quote sc C (rest.takeWhile not_quote) ts (by
                  rw [hall.2]
                  exact t1)
                rw [hall.1] at this
                exact this
              · rw [hd] at t1 t2 ⊢
                simp only [List.drop_succ_cons, List.drop_zero] at t1 t2 ⊢
                have happ := takeWhile_quote_append _ (compress_from false false r) hnq
                have := has_tokens_quote sc C
                  (rest.takeWhile not_quote ++ dquote :: compress_from false false r) ts (by
                  rw [happ.2]
                  exact t2)
                rw [happ.1] at this
                exact this
            · rw [if_neg hq] at h
              simp only [Bool.and_eq_true] at h
              obtain ⟨hcl, hal⟩ := h
              have hno : ¬ (c = slash ∧ (rest.head? = some slash ∨ rest.head? = some star)) := by
                rintro ⟨e, h3 | h3⟩
                · exact h1 ⟨e, h3⟩
                · exact h2 ⟨e, h3⟩
              obtain ⟨ts, t1, t2⟩ := ih _ hal false false
              refine ⟨_, has_tokens_word sc C c rest ts hc hq hno t1, ?_⟩
              have esplit := (List.takeWhile_append_dropWhile (gt_space sc) (c :: rest)).symm
              have hwg : ∀ b ∈ (c :: rest).takeWhile (gt_space sc), gt_space sc b = true :=
                fun b hb => List.mem_takeWhile_imp hb
              have hwne : (c :: rest).takeWhile (gt_space sc) ≠ [] := by
                simp [List.takeWhile_cons, hg2]
              have hdh : ∀ x r, (c :: rest).dropWhile (gt_space sc) = x :: r →
                  gt_space sc x = false := by
                intro x r e
                rcases dropWhile_head (gt_space sc) (c :: rest) with h0 | ⟨x2, r2, e2, hx2⟩
                · rw [h0] at e; cases e
                · rw [e2] at e
                  injection e with e3 _
                  rw [← e3]
                  exact hx2
              have hcomp := compress_from_clean sc _ hwne hwg hcl
                ((c :: rest).dropWhile (gt_space sc)) n w (head_not_gt sc _ hdh)
              rw [← esplit] at hcomp
              rw [hcomp, List.append_assoc]
              apply has_tokens_ws sc C (pending_sep n w) _ _ (pending_sep_le sc n w)
              have hoh := compress_head_not_gt sc _ hdh
              have htd := takeWhile_gt_append sc _ _ hwg hoh
              obtain ⟨w1, hw1⟩ : ∃ w1, (c :: rest).takeWhile (gt_space sc) = c :: w1 := by
                simp [List.takeWhile_cons, hg2]
              have hno2 : ¬ (c = slash ∧
                  ((w1 ++ compress_from false false ((c :: rest).dropWhile (gt_space sc))).head?
                      = some slash ∨
                    (w1 ++ compress_from false false ((c :: rest).dropWhile (gt_space sc))).head?
                      = some star)) := by
                rw [hw1] at hcl
                simp only [clean_word, Bool.and_eq_true, bne_iff_ne, ne_eq, Bool.not_eq_true',
                  Bool.and_eq_false_imp, beq_iff_eq, Bool.or_eq_false_iff,
                  beq_eq_false_iff_ne] at hcl
                rintro ⟨e, h3⟩
                have hop := hcl.1.2 e
                cases w1 with
                | nil =>
                  have := head_not_gt sc _ hoh
                  simp only [List.nil_append] at h3
                  rcases h3 with h3 | h3
                  · exact this.1 h3
                  · exact this.2 h3
                | cons d w2 =>
                  simp only [List.head?_cons, ne_eq, Option.some.injEq] at hop
                  simp only [List.cons_append, List.head?_cons, Option.some.injEq] at h3
                  rcases h3 with h3 | h3
                  · exact hop.1 h3
                  · exact hop.2 h3
              have := has_tokens_word sc C c
                (w1 ++ compress_from false false ((c :: rest).dropWhile (gt_space sc))) ts
                hc hq hno2 (by
                  rw [← List.cons_append, ← hw1, htd.2]
                  exact t2)
              rw [← List.cons_append, ← hw1, htd.1] at this
              exact this

/-! ### Aligned texts -/

/-- Whether a text is aligned does not depend on the fuel, once there is
enough of it. -/
theorem tokens_aligned_fuel (sc : Bool) :
    ∀ (n : Nat) (s : List Byte), s.length ≤ n → ∀ (f g : Nat), s.length < f → s.length < g →
      tokens_aligned sc f s = tokens_aligned sc g s := by
  intro n
  induction n with
  | zero =>
    intro s hn f g hf hg
    have : s = [] := List.length_eq_zero.mp (by omega)
    subst this
    obtain ⟨f, rfl⟩ : ∃ k, f = k + 1 := ⟨f - 1, by omega⟩
    obtain ⟨g, rfl⟩ : ∃ k, g = k + 1 := ⟨g - 1, by omega⟩
    rfl
  | succ n ih =>
    intro s hn f g hf hg
    obtain ⟨f, rfl⟩ : ∃ k, f = k + 1 := ⟨f - 1, by omega⟩
    obtain ⟨g, rfl⟩ : ∃ k, g = k + 1 := ⟨g - 1, by omega⟩
    cases s with
    | nil => rfl
    | cons c rest =>
      simp only [List.length_cons] at hn hf hg
      have hd1 : (rest.drop 1).length ≤ rest.length := by
        simp only [List.length_drop]
        omega
      have h1 := skip_line_length (rest.drop 1)
      have h2 := scan_block_end_length (rest.drop 1)
      have h3 : ((scan_block_end (rest.drop 1)).drop 2).length ≤ rest.length := by
        simp only [List.length_drop]
        omega
      have h4 := dropWhile_length_le not_quote rest
      have h5 : ((rest.dropWhile not_quote).drop 1).length ≤ rest.length := by
        simp only [List.length_drop]
        omega
      have h6 := dropWhile_length_le (gt_space sc) rest
      simp only [tokens_aligned]
      by_cases hg0 : gt_space sc c = false
      · rw [if_pos hg0, if_pos hg0]
        exact ih rest (by omega) f g (by omega) (by omega)
      · rw [if_neg hg0, if_neg hg0]
        have hg1 : gt_space sc c = true := by simpa using hg0
        rw [ih (skip_line (rest.drop 1)) (by omega) f g (by omega) (by omega),
          ih ((scan_block_end (rest.drop 1)).drop 2) (by omega) f g (by omega) (by omega),
          ih ((rest.dropWhile not_quote).drop 1) (by omega) f g (by omega) (by omega)]
        have h7 : ((c :: rest).dropWhile (gt_space sc)).length ≤ rest.length := by
          simp only [List.dropWhile_cons, hg1, if_true]
          exact h6
        rw [ih ((c :: rest).dropWhile (gt_space sc)) (by omega) f g (by omega) (by omega)]

theorem clean_word_plain (w : List Byte) (hq : dquote ∉ w) (hs : slash ∉ w) :
    clean_word w = true := by
  induction w with
  | nil => rfl
  | cons c w ih =>
    simp only [List.mem_cons, not_or] at hq hs
    have h1 : c ≠ dquote := fun e => hq.1 e.symm
    have h2 : c ≠ slash := fun e => hs.1 e.symm
    simp [clean_word, h1, h2, ih hq.2 hs.2]

/-- A text without double quotes and without `/` bytes is aligned. -/
theorem plain_aligned (sc : Bool) :
    ∀ (f : Nat) (s : List Byte), s.length < f → dquote ∉ s → slash ∉ s →
      tokens_aligned sc f s = true := by
  intro f
  induction f with
  | zero => intro s h; omega
  | succ f ih =>
    intro s hf hq hs
    cases s with
    | nil => rfl
    | cons c rest =>
      simp only [List.length_cons] at hf
      have hq2 : dquote ∉ rest := fun h => hq (List.mem_cons_of_mem _ h)
      have hs2 : slash ∉ rest := fun h => hs (List.mem_cons_of_mem _ h)
      have hc1 : c ≠ slash := fun e => hs (by rw [e]; exact List.mem_cons_self _ _)
      have hc2 : c ≠ dquote := fun e => hq (by rw [e]; exact List.mem_cons_self _ _)
      rw [tokens_aligned]
      by_cases hg0 : gt_space sc c = false
      · rw [if_pos hg0]
        exact ih rest (by omega) hq2 hs2
      · have hg1 : gt_space sc c = true := by simpa using hg0
        rw [if_neg hg0, if_neg (fun e => hc1 e.1), if_neg (fun e => hc1 e.1), if_neg hc2]
        have hsub1 : ∀ b ∈ (c :: rest).takeWhile (gt_space sc), b ∈ c :: rest :=
          fun b hb => (List.takeWhile_sublist _).subset hb
        have hsub2 : ∀ b ∈ (c :: rest).dropWhile (gt_space sc), b ∈ c :: rest :=
          fun b hb => (List.dropWhile_sublist _).subset hb
        have h6 := dropWhile_length_le (gt_space sc) rest
        rw [clean_word_plain _ (fun h => hq (hsub1 _ h)) (fun h => hs (hsub1 _ h)),
          ih _ (by
            simp only [List.dropWhile_cons, hg1, if_true]
            omega) (fun h => hq (hsub2 _ h)) (fun h => hs (hsub2 _ h))]
        rfl

/-- C20 (counterexample).  On `a/**/b` the lexer reads the single word `a/**/b`
(a comment is only looked for where a token may start), while `COM_Compress`
removes the comment and leaves `ab`, whose single word is `ab`.  On `a" "// x`
the lexer reads the word `a"` and then the quoted `// x`, while `COM_Compress`
copies `" "` as a quoted section and removes `// x`.  On `/*/ x` the lexer
finds no end of the comment, while `COM_Compress` takes `/*/` for a whole
comment and leaves ` x`.  None of the three texts is aligned. -/
theorem compress_changes_tokens :
    (lex_all true 1024 8 ⟨[], 1, 0⟩ (some (cstr "a/**/b")) = some [cstr "a/**/b", []] ∧
      COM_Compress (cstr "a/**/b") = some (2, cstr "ab") ∧
      lex_all true 1024 4 ⟨[], 1, 0⟩ (some (cstr "ab")) = some [cstr "ab", []] ∧
      [cstr "a/**/b", ([] : List Byte)] ≠ [cstr "ab", []] ∧
      tokens_aligned true 7 (cstr "a/**/b") = false) ∧
    (lex_all true 1024 11 ⟨[], 1, 0⟩ (some (cstr "a\" \"// x"))
        = some [cstr "a\"", cstr "// x", []] ∧
      COM_Compress (cstr "a\" \"// x") = some (4, cstr "a\" \"") ∧
      lex_all true 1024 6 ⟨[], 1, 0⟩ (some (cstr "a\" \"")) = some [cstr "a\"", [], []] ∧
      [cstr "a\"", cstr "// x", ([] : List Byte)] ≠ [cstr "a\"", [], []] ∧
      tokens_aligned true 10 (cstr "a\" \"// x") = false) ∧
    (lex_all true 1024 7 ⟨[], 1, 0⟩ (some (cstr "/*/ x")) = some [[]] ∧
      COM_Compress (cstr "/*/ x") = some (2, cstr " x") ∧
      lex_all true 1024 4 ⟨[], 1, 0⟩ (some (cstr " x")) = some [cstr "x", []] ∧
      [([] : List Byte)] ≠ [cstr "x", []] ∧
      tokens_aligned true 6 (cstr "/*/ x") = false) := by
  refine ⟨⟨rfl, rfl, rfl, by decide, rfl⟩, ⟨rfl, rfl, rfl, by decide, rfl⟩,
    ⟨rfl, rfl, rfl, by decide, rfl⟩⟩

/-- C20 (amended).  For every text in which quoted sections and comments open only
where a token may start (no double quote and no `//` or `/*` inside a bare
word) and no block comment starts with `/*/`, `COM_Compress` returns a text on
which the calls of `COM_ParseExt` with line breaks allowed, repeated until the
cursor is `NULL`, yield the same sequence of tokens as on the text itself.
Comments, quoted sections, whitespace of any kind and bare words may follow
each other in any order.  When the text has no double quote and no `/` at all,
the tokens are its maximal runs of bytes greater than space, each cut to the
token capacity, and then the empty token; every such text is aligned.  Whether
a text is aligned does not depend on the fuel of `tokens_aligned`, once it is
more than the length of the text. -/
theorem compress_keeps_tokens (sc : Bool) (C : Nat) :
    (∀ (st1 st2 : ParseSession) (s : List Byte), tokens_aligned sc (s.length + 1) s = true →
      ∃ (k : Nat) (t : List Byte) (ts : List (List Byte)),
        COM_Compress s = some (k, t) ∧ k = t.length ∧
        lex_all sc C (s.length + 2) st1 (some s) = some ts ∧
        lex_all sc C (t.length + 2) st2 (some t) = some ts ∧
        (dquote ∉ s → slash ∉ s →
          ts = (words_from sc s []).map (fun x => x.take (C - 1)) ++ [[]])) ∧
    (∀ (s : List Byte), dquote ∉ s → slash ∉ s → tokens_aligned sc (s.length + 1) s = true) ∧
    (∀ (s : List Byte) (f : Nat), s.length < f →
      tokens_aligned sc f s = tokens_aligned sc (s.length + 1) s) := by
  refine ⟨?_, fun s hq hs => plain_aligned sc _ s (Nat.lt_succ_self _) hq hs,
    fun s f hf => tokens_aligned_fuel sc _ s (le_refl _) _ _ hf (Nat.lt_succ_self _)⟩
  intro st1 st2 s h
  obtain ⟨ts, t1, t2⟩ := aligned_tokens sc C (s.length + 1) s h false false
  refine ⟨_, _, ts, Compress_eq s, rfl, t1 _ st1 (le_refl _), t2 _ st2 (le_refl _), ?_⟩
  intro hq hs
  have h1 := lex_all_plain sc C _ s (le_refl _) hq hs _ st1 (le_refl _)
  rw [t1 _ st1 (le_refl _)] at h1
  exact Option.some.inj h1

/-- C20 (witness): `a /* x */ b // c`, a line feed and `d "e  f" g` is aligned; it
and its compressed text `a b`, a line feed and `d "e  f" g` both give the
tokens `a`, `b`, `d`, `e  f`, `g` and the empty token. -/
theorem compress_keeps_tokens_witness :
    COM_Compress (cstr "a /* x */ b // c\nd \"e  f\" g")
      = some (14, cstr "a b\nd \"e  f\" g") ∧
    lex_all true 1024 16 ⟨[], 1, 0⟩ (some (cstr "a b\nd \"e  f\" g"))
      = some [cstr "a", cstr "b", cstr "d", cstr "e  f", cstr "g", []] ∧
    tokens_aligned true ((cstr "a /* x */ b // c\nd \"e  f\" g").length + 1)
      (cstr "a /* x */ b // c\nd \"e  f\" g") = true ∧
    ∃ (k : Nat) (t : List Byte) (ts : List (List Byte)),
      COM_Compress (cstr "a /* x */ b // c\nd \"e  f\" g") = some (k, t) ∧ k = t.length ∧
      lex_all true 1024 ((cstr "a /* x */ b // c\nd \"e  f\" g").length + 2) ⟨[], 1, 0⟩
        (some (cstr "a /* x */ b // c\nd \"e  f\" g")) = some ts ∧
      lex_all true 1024 (t.length + 2) ⟨[], 1, 0⟩ (some t) = some ts ∧
      (dquote ∉ cstr "a /* x */ b // c\nd \"e  f\" g" →
        slash ∉ cstr "a /* x */ b // c\nd \"e  f\" g" →
        ts = (words_from true (cstr "a /* x */ b // c\nd \"e  f\" g") []).map
          (fun x => x.take (1024 - 1)) ++ [[]]) :=
  ⟨rfl, rfl, rfl, (compress_keeps_tokens true 1024).1 ⟨[], 1, 0⟩ ⟨[], 1, 0⟩
    (cstr "a /* x */ b // c\nd \"e  f\" g") rfl⟩

end Q3
